import Mathlib

/-!
burst: lazy set-algebra cursors over sorted ranges.

A shallow embedding of `burst::difference_iterator`, `burst::merge_iterator`,
`burst::join_iterator` and `thrust::skip_to`.

Memory model.  Iterators are addresses (`Nat`) into one flat memory `mem : Nat → α`;
a range is a pair of iterators `[first, last)`, exactly as `boost::iterator_range`.
Several ranges may alias the same cells.  Dereferencing a cursor denotes a cell of the
memory, so traversals below yield addresses; the values are obtained by mapping `mem`.

Loops carry a fuel argument; running out of fuel is reported as `none`, and the
entry points supply the fuel themselves, so every "the code returns" statement is
proved as `= some _`.
-/

set_option autoImplicit false

/-! ## Ranges -/

namespace boost

/-- A `boost::iterator_range`: the pair of iterators `begin()`, `end()`. -/
structure iterator_range where
  first : Nat
  last : Nat
deriving DecidableEq

namespace iterator_range

/-- The member `empty()`: `begin() == end()`. -/
def empty (r : iterator_range) : Bool := r.first == r.last

/-- The member `advance_begin(n)`. -/
def advance_begin (r : iterator_range) (n : Nat) : iterator_range :=
  { r with first := r.first + n }

/-- The member `front()`: `*begin()`. -/
def front {α : Type} (mem : Nat → α) (r : iterator_range) : α := mem r.first

/-- The member `size()`: `end() - begin()`. -/
def size (r : iterator_range) : Nat := r.last - r.first

/-- The addresses a range runs over, in order. -/
def positions (r : iterator_range) : List Nat := List.range' r.first (r.last - r.first)

/-- The contents of a range, in order. -/
def elements {α : Type} (mem : Nat → α) (r : iterator_range) : List α :=
  r.positions.map mem

/-- The free `operator==` of `boost::iterator_range`: `boost::equal(l, r)`, an
element-wise comparison of the two contents (not of the iterator pairs). -/
def equal {α : Type} [DecidableEq α] (mem : Nat → α) (l r : iterator_range) : Bool :=
  decide (l.elements mem = r.elements mem)

end iterator_range

end boost

open boost

/-- A memory whose cells from address 0 on hold the given values (0 elsewhere). -/
def memory_of (cells : List Nat) : Nat → Nat := fun i => cells.getD i 0

/-- The memory after the assignment `*it = value` through a reference to the cell at
`address`. -/
def store {α : Type} (mem : Nat → α) (address : Nat) (value : α) : Nat → α :=
  fun i => if i = address then value else mem i

/-! ## Standard algorithms used by the cursors -/

namespace std

/-- The requirement `Compare`: a strict weak ordering. -/
structure strict_weak_order {α : Type} (compare : α → α → Bool) : Prop where
  irrefl : ∀ a, compare a a = false
  trans : ∀ a b c, compare a b = true → compare b c = true → compare a c = true
  incomp_trans : ∀ a b c, compare a b = false → compare b a = false →
    compare b c = false → compare c b = false → compare a c = false ∧ compare c a = false

/-- Equivalence induced by a comparator: neither element is ordered before the other. -/
def equivalent {α : Type} (compare : α → α → Bool) (a b : α) : Bool :=
  !compare a b && !compare b a

/-- Number of elements of `l` equivalent to `x`. -/
def count_equivalent {α : Type} (compare : α → α → Bool) (x : α) (l : List α) : Nat :=
  l.countP (equivalent compare x)

/-- The algorithm `is_sorted(range, compare)`: no element is ordered before its
predecessor. -/
def is_sorted {α : Type} (compare : α → α → Bool) : List α → Bool
  | [] => true
  | [_] => true
  | a :: b :: rest => !compare b a && is_sorted compare (b :: rest)

/-- Strictly sorted (a set): every element is ordered before its successor. -/
def is_strictly_sorted {α : Type} (compare : α → α → Bool) : List α → Bool
  | [] => true
  | [_] => true
  | a :: b :: rest => compare a b && is_strictly_sorted compare (b :: rest)

/-- The comparator `std::less<>` on natural numbers. -/
def less (a b : Nat) : Bool := decide (a < b)

/-- The loop of `lower_bound`: binary search over `[first, first + count)`. -/
def lower_bound_loop {α : Type} (mem : Nat → α) (goal : α) (compare : α → α → Bool) :
    Nat → Nat → Nat → Option Nat
  | 0, first, count => if count = 0 then some first else none
  | fuel + 1, first, count =>
    if count = 0 then some first
    else
      let step := count / 2
      let it := first + step
      if compare (mem it) goal then
        lower_bound_loop mem goal compare fuel (it + 1) (count - (step + 1))
      else
        lower_bound_loop mem goal compare fuel first step

/-- The algorithm `lower_bound(range, goal, compare)`. -/
def lower_bound {α : Type} (mem : Nat → α) (range : iterator_range) (goal : α)
    (compare : α → α → Bool) : Option Nat :=
  lower_bound_loop mem goal compare range.size range.first range.size

/-- The algorithm `equal(first1, last1, first2, last2, eq)` on two sequences. -/
def equal {β : Type} (eq : β → β → Bool) : List β → List β → Bool
  | [], [] => true
  | a :: as, b :: bs => eq a b && equal eq as bs
  | _, _ => false

/-- The algorithm `remove_if(first, last, pred)` on the contents of `[first, last)`:
the kept elements are moved to the front in order, the cells behind them keep what
they held; returns the new contents and the offset of the returned iterator. -/
def remove_if {β : Type} (pred : β → Bool) (l : List β) : List β × Nat :=
  let kept := l.filter (fun x => !pred x)
  (kept ++ l.drop kept.length, kept.length)

/-- The predicate `is_heap(first, last, comp)`: no element is ordered after its parent. -/
def is_heap {β : Type} (comp : β → β → Bool) (l : List β) : Bool :=
  (List.range l.length).all fun i =>
    match l[(i - 1) / 2]?, l[i]? with
    | some parent, some child => i == 0 || !comp parent child
    | _, _ => true

/-- The heap algorithms `make_heap`, `pop_heap`, `push_heap`, acting on the contents
of `[first, last)`.  The cursors use them as black boxes. -/
structure heap_algorithms (β : Type) where
  make_heap : (β → β → Bool) → List β → List β
  pop_heap : (β → β → Bool) → List β → List β
  push_heap : (β → β → Bool) → List β → List β

/-- The contract the C++ standard gives the heap algorithms. -/
structure heap_algorithms.conforming {β : Type} (H : heap_algorithms β) : Prop where
  make_heap_perm : ∀ comp l, strict_weak_order comp → (H.make_heap comp l).Perm l
  make_heap_is_heap : ∀ comp l, strict_weak_order comp →
    is_heap comp (H.make_heap comp l) = true
  pop_heap_spec : ∀ comp x l, strict_weak_order comp → is_heap comp (x :: l) = true →
    ∃ rest, H.pop_heap comp (x :: l) = rest ++ [x] ∧ rest.Perm l ∧ is_heap comp rest = true
  push_heap_perm : ∀ comp l x, strict_weak_order comp → is_heap comp l = true →
    (H.push_heap comp (l ++ [x])).Perm (l ++ [x])
  push_heap_is_heap : ∀ comp l x, strict_weak_order comp → is_heap comp l = true →
    is_heap comp (H.push_heap comp (l ++ [x])) = true

/-- A reference implementation of the heap algorithms: a sequence in descending
order is a heap. -/
def reference_heap (β : Type) : heap_algorithms β where
  make_heap := fun comp l => l.insertionSort (fun a b => comp a b = false)
  pop_heap := fun comp l =>
    match l with
    | [] => []
    | x :: rest => rest.insertionSort (fun a b => comp a b = false) ++ [x]
  push_heap := fun comp l => l.insertionSort (fun a b => comp a b = false)

end std

/-! ## thrust::skip_to -/

namespace thrust

/-- The function `thrust::skip_to(range, goal, compare)`; the result is the new value
of `range`. -/
def skip_to {α : Type} (mem : Nat → α) (range : iterator_range) (goal : α)
    (compare : α → α → Bool) : Option iterator_range := do
  let new_begin ← std.lower_bound mem range goal compare
  some ⟨new_begin, range.last⟩

end thrust

namespace burst

/-- Modelled from the spec: `burst::skip_to_lower_bound` of
burst/range/skip_to_lower_bound.hpp is not among the sources.  The spec (4.4) describes
it as advancing the start of a sorted view to the first position whose element is not
ordered before the target by binary search, which is what `thrust::skip_to` does. -/
def skip_to_lower_bound {α : Type} (mem : Nat → α) (range : iterator_range) (goal : α)
    (compare : α → α → Bool) : Option iterator_range :=
  thrust.skip_to mem range goal compare

/-! ## burst::difference_iterator -/

/-- The data members of `difference_iterator` (the comparator is passed separately). -/
structure difference_iterator where
  m_minuend : iterator_range
  m_subtrahend : iterator_range
deriving DecidableEq

namespace difference_iterator

/-- The member `maintain_invariant()`. -/
def maintain_invariant {α : Type} (mem : Nat → α) (compare : α → α → Bool)
    (s : difference_iterator) : Option difference_iterator :=
  if s.m_minuend.empty then
    some { s with m_subtrahend := ⟨s.m_subtrahend.last, s.m_subtrahend.last⟩ }
  else if !s.m_subtrahend.empty
      && compare (s.m_subtrahend.front mem) (s.m_minuend.front mem) then do
    let subtrahend ← skip_to_lower_bound mem s.m_subtrahend (s.m_minuend.front mem) compare
    some { s with m_subtrahend := subtrahend }
  else
    some s

/-- The loop condition of `settle()`. -/
def settle_condition {α : Type} (mem : Nat → α) (compare : α → α → Bool)
    (s : difference_iterator) : Bool :=
  !s.m_subtrahend.empty && !s.m_minuend.empty
    && !compare (s.m_minuend.front mem) (s.m_subtrahend.front mem)

/-- The loop body of `settle()`. -/
def settle_body {α : Type} (mem : Nat → α) (compare : α → α → Bool)
    (s : difference_iterator) : Option difference_iterator :=
  if !compare (s.m_subtrahend.front mem) (s.m_minuend.front mem) then
    maintain_invariant mem compare
      { m_minuend := s.m_minuend.advance_begin 1,
        m_subtrahend := s.m_subtrahend.advance_begin 1 }
  else
    maintain_invariant mem compare s

/-- The loop of `settle()`, at most `fuel` iterations. -/
def settle_loop {α : Type} (mem : Nat → α) (compare : α → α → Bool) :
    Nat → difference_iterator → Option difference_iterator
  | 0, s => if settle_condition mem compare s then none else some s
  | fuel + 1, s =>
    if settle_condition mem compare s then
      (settle_body mem compare s).bind (settle_loop mem compare fuel)
    else some s

/-- The member `settle()`. -/
def settle {α : Type} (mem : Nat → α) (compare : α → α → Bool)
    (s : difference_iterator) : Option difference_iterator :=
  settle_loop mem compare (s.m_minuend.size + s.m_subtrahend.size) s

/-- The constructor `difference_iterator(minuend, subtrahend, compare)`. -/
def make {α : Type} (mem : Nat → α) (minuend subtrahend : iterator_range)
    (compare : α → α → Bool) : Option difference_iterator :=
  (maintain_invariant mem compare ⟨minuend, subtrahend⟩).bind (settle mem compare)

/-- The default constructor, which `make_difference_iterator(.., end_tag)` returns:
both ranges are default-constructed (empty). -/
def make_end : difference_iterator := ⟨⟨0, 0⟩, ⟨0, 0⟩⟩

/-- The member `increment()`. -/
def increment {α : Type} (mem : Nat → α) (compare : α → α → Bool)
    (s : difference_iterator) : Option difference_iterator :=
  settle mem compare { s with m_minuend := s.m_minuend.advance_begin 1 }

/-- The member `dereference()`, as the address of the cell it refers to. -/
def dereference (s : difference_iterator) : Nat := s.m_minuend.first

/-- The member `equal(that)`. -/
def equal {α : Type} [DecidableEq α] (mem : Nat → α) (s that : difference_iterator) : Bool :=
  iterator_range.equal mem s.m_minuend that.m_minuend

/-- Apply `increment` the given number of times; incrementing a cursor whose minuend
is empty (a cursor at its end) is undefined and reported as `none`. -/
def advance {α : Type} (mem : Nat → α) (compare : α → α → Bool) :
    Nat → difference_iterator → Option difference_iterator
  | 0, s => some s
  | n + 1, s =>
    if s.m_minuend.empty then none
    else (increment mem compare s).bind (advance mem compare n)

/-- Dereference and increment until the minuend is empty, collecting the addresses
dereferenced; at most `fuel` increments. -/
def traverse_loop {α : Type} (mem : Nat → α) (compare : α → α → Bool) :
    Nat → difference_iterator → Option (List Nat)
  | 0, s => if s.m_minuend.empty then some [] else none
  | fuel + 1, s =>
    if s.m_minuend.empty then some []
    else
      (increment mem compare s).bind fun s' =>
        (traverse_loop mem compare fuel s').map fun rest => s.dereference :: rest

/-- Construct the cursor over `minuend` and `subtrahend` and traverse it to its end. -/
def traverse {α : Type} (mem : Nat → α) (minuend subtrahend : iterator_range)
    (compare : α → α → Bool) : Option (List Nat) :=
  (make mem minuend subtrahend compare).bind (traverse_loop mem compare minuend.size)

end difference_iterator

/-- One round of the classical two-pointer set difference with the minuend's front `a`
fixed: drop fronts of the subtrahend ordered before `a`, then either emit `a`, or drop
`a` together with an equivalent front of the subtrahend; `continue_with` handles the
rest of the minuend. -/
def linear_difference_front {α : Type} (compare : α → α → Bool) (a : α)
    (continue_with : List α → List α) : List α → List α
  | [] => a :: continue_with []
  | b :: bs =>
    if compare b a then linear_difference_front compare a continue_with bs
    else if compare a b then a :: continue_with (b :: bs)
    else continue_with bs

/-- The classical linear two-pointer set difference of two sequences. -/
def linear_difference {α : Type} (compare : α → α → Bool) : List α → List α → List α
  | [], _ => []
  | a :: as, bs => linear_difference_front compare a (linear_difference compare as) bs

/-- Comparing two addresses by the elements they hold. -/
def compare_at {α : Type} (mem : Nat → α) (compare : α → α → Bool) (p q : Nat) : Bool :=
  compare (mem p) (mem q)

/-- The classical linear two-pointer set difference of two ranges, as the addresses of
the minuend it emits: advance the subtrahend by one while its front is ordered before
the minuend's front, drop both fronts when they are equivalent, emit the minuend's
front when it is ordered before the subtrahend's front or the subtrahend is exhausted. -/
def linear_difference_positions {α : Type} (mem : Nat → α) (compare : α → α → Bool)
    (minuend subtrahend : iterator_range) : List Nat :=
  linear_difference (compare_at mem compare) minuend.positions subtrahend.positions

/-- The sequence `out` is an interleaving of the sequences `parts`: it can be taken
apart into one subsequence per part, each equal to that part, so every part appears in
`out` in its own order. -/
inductive interleaving : List Nat → List (List Nat) → Prop
  | nil (parts : List (List Nat)) : (∀ l ∈ parts, l = []) → interleaving [] parts
  | cons (p : Nat) (out : List Nat) (before : List (List Nat)) (rest : List Nat)
      (after : List (List Nat)) :
      interleaving out (before ++ rest :: after) →
      interleaving (p :: out) (before ++ (p :: rest) :: after)

/-! ## burst::merge_iterator -/

/-- Modelled from the spec: `front`, `each` and `invert` of burst/container/access and
burst/functional are not among the sources.  The heap of the merge cursor is ordered by
"front-of-view" with the comparator inverted (spec 3): `each(front) | invert(compare)`
applied to two views compares their fronts with the arguments swapped. -/
def heap_compare {α : Type} (mem : Nat → α) (compare : α → α → Bool)
    (left right : iterator_range) : Bool :=
  compare (right.front mem) (left.front mem)

/-- The data members of `merge_iterator`: the contents of the outer range from
`m_begin` to its original end, and the offset of `m_end` from `m_begin` (the comparator
is passed separately). -/
structure merge_iterator where
  ranges : List iterator_range
  m_end : Nat
deriving DecidableEq

namespace merge_iterator

/-- The active region `[m_begin, m_end)`. -/
def active (s : merge_iterator) : List iterator_range := s.ranges.take s.m_end

/-- The member `remove_empty_ranges()`. -/
def remove_empty_ranges (s : merge_iterator) : merge_iterator :=
  let removed := std.remove_if (fun r : iterator_range => r.empty) s.active
  { ranges := removed.1 ++ s.ranges.drop s.m_end, m_end := removed.2 }

/-- The constructor `merge_iterator(first, last, compare)` over the outer range whose
contents are `ranges`. -/
def make {α : Type} (H : std.heap_algorithms iterator_range) (mem : Nat → α)
    (compare : α → α → Bool) (ranges : List iterator_range) : merge_iterator :=
  let s := remove_empty_ranges ⟨ranges, ranges.length⟩
  { s with ranges := H.make_heap (heap_compare mem compare) s.active ++ s.ranges.drop s.m_end }

/-- The constructor `merge_iterator(end_tag, begin)`: `m_end` is set to `m_begin`. -/
def make_end (begin : merge_iterator) : merge_iterator :=
  { ranges := begin.ranges, m_end := 0 }

/-- The member `increment()`; incrementing a cursor whose active region is empty is
undefined and reported as `none`. -/
def increment {α : Type} (H : std.heap_algorithms iterator_range) (mem : Nat → α)
    (compare : α → α → Bool) (s : merge_iterator) : Option merge_iterator :=
  if s.active.isEmpty then none
  else
    let heap := H.pop_heap (heap_compare mem compare) s.active
    match heap[s.m_end - 1]? with
    | none => none
    | some range =>
      let range := range.advance_begin 1
      let heap := heap.set (s.m_end - 1) range
      if !range.empty then
        some { ranges := H.push_heap (heap_compare mem compare) heap ++ s.ranges.drop s.m_end,
               m_end := s.m_end }
      else
        some { ranges := heap ++ s.ranges.drop s.m_end, m_end := s.m_end - 1 }

/-- The member `dereference()`, `m_begin->front()`, as the address of the cell it
refers to. -/
def dereference (s : merge_iterator) : Option Nat :=
  s.ranges[0]?.map fun r => r.first

/-- The member `equal(that)`. -/
def equal {α : Type} [DecidableEq α] (mem : Nat → α) (s that : merge_iterator) : Bool :=
  std.equal (iterator_range.equal mem) s.active that.active

/-- Apply `increment` the given number of times. -/
def advance {α : Type} (H : std.heap_algorithms iterator_range) (mem : Nat → α)
    (compare : α → α → Bool) : Nat → merge_iterator → Option merge_iterator
  | 0, s => some s
  | n + 1, s => (increment H mem compare s).bind (advance H mem compare n)

/-- Dereference and increment until the active region is empty, collecting the
addresses dereferenced; at most `fuel` increments. -/
def traverse_loop {α : Type} (H : std.heap_algorithms iterator_range) (mem : Nat → α)
    (compare : α → α → Bool) : Nat → merge_iterator → Option (List Nat)
  | 0, s => if s.active.isEmpty then some [] else none
  | fuel + 1, s =>
    if s.active.isEmpty then some []
    else
      s.dereference.bind fun p =>
        (increment H mem compare s).bind fun s' =>
          (traverse_loop H mem compare fuel s').map fun rest => p :: rest

/-- Construct the cursor over the given views and traverse it to its end. -/
def traverse {α : Type} (H : std.heap_algorithms iterator_range) (mem : Nat → α)
    (compare : α → α → Bool) (ranges : List iterator_range) : Option (List Nat) :=
  traverse_loop H mem compare (ranges.map iterator_range.size).sum (make H mem compare ranges)

/-- The addresses of all cells not yet yielded: those of the active views. -/
def remaining (s : merge_iterator) : List Nat :=
  (s.active.map iterator_range.positions).flatten

/-- The state invariant of a merge cursor over sorted views: the active region lies
inside the outer range, it is a heap, and every active view is non-empty and sorted. -/
def invariant {α : Type} (mem : Nat → α) (compare : α → α → Bool) (s : merge_iterator) : Prop :=
  s.m_end ≤ s.ranges.length ∧
  std.is_heap (heap_compare mem compare) s.active = true ∧
  ∀ r ∈ s.active, r.first < r.last ∧ std.is_sorted compare (r.elements mem) = true

instance {α : Type} (mem : Nat → α) (compare : α → α → Bool) (s : merge_iterator) :
    Decidable (invariant mem compare s) := by
  unfold invariant
  infer_instance

/-- The part of the state invariant that does not depend on the views being sorted: the
active region lies inside the outer range, it is a heap, and no active view is empty. -/
def active_invariant {α : Type} (mem : Nat → α) (compare : α → α → Bool)
    (s : merge_iterator) : Prop :=
  s.m_end ≤ s.ranges.length ∧
  std.is_heap (heap_compare mem compare) s.active = true ∧
  ∀ r ∈ s.active, r.empty = false

instance {α : Type} (mem : Nat → α) (compare : α → α → Bool) (s : merge_iterator) :
    Decidable (active_invariant mem compare s) := by
  unfold active_invariant
  infer_instance

end merge_iterator

/-! ## burst::join_iterator -/

/-- The traversal categories of boost iterators that a range can have, weakest first. -/
inductive traversal
  | single_pass
  | forward
  | bidirectional
  | random_access
deriving DecidableEq

/-- The strength of a traversal category. -/
def traversal.rank : traversal → Nat
  | traversal.single_pass => 0
  | traversal.forward => 1
  | traversal.bidirectional => 2
  | traversal.random_access => 3

/-- The metafunction `boost::iterators::minimum_category`: the weaker of two categories. -/
def minimum_category (a b : traversal) : traversal :=
  if a.rank ≤ b.rank then a else b

namespace detail

/-- Modelled from the spec: the join cursor itself (burst/iterator/detail/join_iterator.hpp)
is not among the sources; only its factory functions are.  This is the forward-only
(single-pass) form of spec 4.3: the cursor holds the outer collection of views and the
current outer position; the current element is the front of the current inner view, and
advancing moves the start of that view. -/
structure single_pass_join_iterator where
  ranges : List iterator_range
  outer : Nat
deriving DecidableEq

namespace single_pass_join_iterator

/-- Modelled from the spec: the invariant of spec 4.3 is restored by moving the outer
position to the next non-empty inner view, or to the end of the outer collection. -/
def maintain_invariant (s : single_pass_join_iterator) : single_pass_join_iterator :=
  { s with outer := s.outer +
      ((s.ranges.drop s.outer).takeWhile iterator_range.empty).length }

/-- Modelled from the spec: the constructor of the forward-only form; leading empty
views are skipped at construction. -/
def make (ranges : List iterator_range) : single_pass_join_iterator :=
  maintain_invariant ⟨ranges, 0⟩

/-- Modelled from the spec: the end cursor of the forward-only form, the end-of-join
position (outer position at its end). -/
def make_end (begin : single_pass_join_iterator) : single_pass_join_iterator :=
  { begin with outer := begin.ranges.length }

/-- Modelled from the spec: advancing moves the start of the current inner view by one
and then restores the invariant; advancing the end cursor is undefined (`none`). -/
def increment (s : single_pass_join_iterator) : Option single_pass_join_iterator :=
  match s.ranges[s.outer]? with
  | none => none
  | some r => some (maintain_invariant { s with ranges := s.ranges.set s.outer (r.advance_begin 1) })

/-- Modelled from the spec: the current element is the front of the current inner view;
given as the address of the cell. -/
def dereference (s : single_pass_join_iterator) : Option Nat :=
  s.ranges[s.outer]?.map fun r => r.first

/-- Modelled from the spec: two forward-only join cursors are equal when their outer
positions are. -/
def equal (s that : single_pass_join_iterator) : Bool := s.outer == that.outer

/-- The addresses of all cells not yet yielded: those of the views from the current
outer position on. -/
def remaining (s : single_pass_join_iterator) : List Nat :=
  ((s.ranges.drop s.outer).map iterator_range.positions).flatten

/-- The state invariant of spec 4.3: the outer position is inside the outer collection
or at its end, the views from there on are well formed, and the current view, if
there is one, is not empty. -/
def invariant (s : single_pass_join_iterator) : Prop :=
  s.outer ≤ s.ranges.length ∧
  (∀ r ∈ s.ranges.drop s.outer, r.first ≤ r.last) ∧
  ∀ r ∈ s.ranges[s.outer]?, r.empty = false

instance (s : single_pass_join_iterator) : Decidable (invariant s) := by
  unfold invariant
  infer_instance

end single_pass_join_iterator

/-- Modelled from the spec: the random-access form of the join cursor of spec 4.3
(burst/iterator/detail/join_iterator.hpp is not among the sources).  The cursor holds
the outer collection of views, which it never changes, an index into the outer
collection and an index into the current inner view; advancing changes only these two
indices.  At the end-of-join position the outer index is at the end of the outer
collection and the inner index is 0. -/
structure random_access_join_iterator where
  ranges : List iterator_range
  outer : Nat
  inner : Nat
deriving DecidableEq

namespace random_access_join_iterator

/-- Modelled from the spec: the index of the first non-empty inner view at or after
`start`, or the end of the outer collection; empty views are never pointed at. -/
def skip_empty (ranges : List iterator_range) (start : Nat) : Nat :=
  start + ((ranges.drop start).takeWhile iterator_range.empty).length

/-- Modelled from the spec: the constructor of the random-access form; leading empty
views are skipped at construction. -/
def make (ranges : List iterator_range) : random_access_join_iterator :=
  ⟨ranges, skip_empty ranges 0, 0⟩

/-- Modelled from the spec: the end cursor of the random-access form, the end-of-join
position. -/
def make_end (begin : random_access_join_iterator) : random_access_join_iterator :=
  ⟨begin.ranges, begin.ranges.length, 0⟩

/-- Modelled from the spec: advancing by one moves the inner index inside the current
inner view, or, when that view is used up, moves the outer index to the next non-empty
inner view; advancing the end cursor is undefined (`none`). -/
def increment (s : random_access_join_iterator) : Option random_access_join_iterator :=
  match s.ranges[s.outer]? with
  | none => none
  | some r =>
    if s.inner + 1 < r.size then some { s with inner := s.inner + 1 }
    else some ⟨s.ranges, skip_empty s.ranges (s.outer + 1), 0⟩

/-- Modelled from the spec: the current element is the one at the inner index of the
current inner view; given as the address of the cell. -/
def dereference (s : random_access_join_iterator) : Option Nat :=
  s.ranges[s.outer]?.map fun r => r.first + s.inner

/-- Modelled from the spec: two random-access join cursors are equal when both of
their indices are. -/
def equal (s that : random_access_join_iterator) : Bool :=
  s.outer == that.outer && s.inner == that.inner

/-- The addresses of all cells not yet yielded: those of the current view from the
inner index on, then those of the later views. -/
def remaining (s : random_access_join_iterator) : List Nat :=
  (((s.ranges.drop s.outer).map iterator_range.positions).flatten).drop s.inner

/-- The state invariant of spec 4.3: the outer index is inside the outer collection or
at its end, the views from there on are well formed, the inner index points at an
element of the current view if there is one, and is 0 at the end. -/
def invariant (s : random_access_join_iterator) : Prop :=
  s.outer ≤ s.ranges.length ∧
  (∀ r ∈ s.ranges.drop s.outer, r.first ≤ r.last) ∧
  (∀ r ∈ s.ranges[s.outer]?, s.inner < r.size) ∧
  (s.outer = s.ranges.length → s.inner = 0)

instance (s : random_access_join_iterator) : Decidable (invariant s) := by
  unfold invariant
  infer_instance

end random_access_join_iterator

end detail

/-- The alias `join_iterator<Iterator>` (join_iterator.hpp:74-85): one of the two forms
of the join cursor. -/
inductive join_iterator
  | single_pass (it : detail.single_pass_join_iterator)
  | random_access (it : detail.random_access_join_iterator)
deriving DecidableEq

/-- The function `make_join_iterator(first, last)`.  The form of the cursor is selected
by the weaker of the traversal categories of the outer iterator and of the inner
ranges: the random-access form when both are random access, the single-pass form
otherwise. -/
def make_join_iterator (outer_category inner_category : traversal)
    (ranges : List iterator_range) : join_iterator :=
  if minimum_category outer_category inner_category = traversal.random_access then
    join_iterator.random_access (detail.random_access_join_iterator.make ranges)
  else
    join_iterator.single_pass (detail.single_pass_join_iterator.make ranges)

namespace join_iterator

/-- The function `make_join_iterator(end_tag, begin)`. -/
def make_end : join_iterator → join_iterator
  | single_pass it => single_pass it.make_end
  | random_access it => random_access it.make_end

/-- The operation `++it` of the cursor. -/
def increment : join_iterator → Option join_iterator
  | single_pass it => it.increment.map single_pass
  | random_access it => it.increment.map random_access

/-- The operation `*it` of the cursor, as the address of the cell it refers to. -/
def dereference : join_iterator → Option Nat
  | single_pass it => it.dereference
  | random_access it => it.dereference

/-- The operation `it == that` of two cursors of the same form. -/
def equal : join_iterator → join_iterator → Bool
  | single_pass it, single_pass that => it.equal that
  | random_access it, random_access that => it.equal that
  | _, _ => false

/-- Dereference and increment from the cursor up to its end cursor, collecting the
addresses dereferenced; at most `fuel` increments. -/
def traverse_loop : Nat → join_iterator → Option (List Nat)
  | 0, s => if s.equal s.make_end then some [] else none
  | fuel + 1, s =>
    if s.equal s.make_end then some []
    else
      s.dereference.bind fun p =>
        s.increment.bind fun s' => (traverse_loop fuel s').map fun rest => p :: rest

/-- Construct the join cursor over the given views and traverse it to its end. -/
def traverse (outer_category inner_category : traversal)
    (ranges : List iterator_range) : Option (List Nat) :=
  traverse_loop (ranges.map iterator_range.size).sum
    (make_join_iterator outer_category inner_category ranges)

end join_iterator

end burst

/-! ## Properties -/

open std

/-! ### Strict weak orders and sorted sequences -/

namespace std

theorem strict_weak_order.asymm {α : Type} {compare : α → α → Bool}
    (h : strict_weak_order compare) {a b : α} (hab : compare a b = true) :
    compare b a = false := by
  by_contra hba
  have hba' : compare b a = true := by simpa using hba
  have := h.trans a b a hab hba'
  rw [h.irrefl a] at this
  exact absurd this (by decide)

/-- Negative transitivity: "not ordered before" is transitive. -/
theorem strict_weak_order.not_lt_trans {α : Type} {compare : α → α → Bool}
    (h : strict_weak_order compare) {a b c : α} (hab : compare a b = false)
    (hbc : compare b c = false) : compare a c = false := by
  by_contra hac
  have hac' : compare a c = true := by simpa using hac
  cases hba : compare b a with
  | true =>
    have := h.trans b a c hba hac'
    rw [hbc] at this
    exact absurd this (by decide)
  | false =>
    cases hcb : compare c b with
    | true =>
      have := h.trans a c b hac' hcb
      rw [hab] at this
      exact absurd this (by decide)
    | false =>
      have := (h.incomp_trans a b c hab hba hbc hcb).1
      rw [hac'] at this
      exact absurd this (by decide)

theorem is_sorted_cons {α : Type} (compare : α → α → Bool) (a : α) (l : List α) :
    is_sorted compare (a :: l) = true →  is_sorted compare l = true := by
  cases l with
  | nil => intro _; rfl
  | cons b rest =>
    intro h
    simp only [is_sorted, Bool.and_eq_true] at h
    exact h.2

/-- Under a strict weak order, `is_sorted` says no element is ordered before an earlier one. -/
theorem is_sorted_pairwise {α : Type} {compare : α → α → Bool}
    (h : strict_weak_order compare) :
    ∀ l : List α, is_sorted compare l = true → l.Pairwise (fun x y => compare y x = false)
  | [], _ => List.Pairwise.nil
  | [a], _ => by simp
  | a :: b :: rest, hs => by
    have hs' := hs
    simp only [is_sorted, Bool.and_eq_true, Bool.not_eq_true'] at hs'
    have ih := is_sorted_pairwise h (b :: rest) hs'.2
    refine List.Pairwise.cons ?_ ih
    intro y hy
    rcases List.mem_cons.1 hy with rfl | hy'
    · exact hs'.1
    · have hby := (List.pairwise_cons.1 ih).1 y hy'
      exact h.not_lt_trans hby hs'.1

theorem pairwise_is_sorted {α : Type} {compare : α → α → Bool} :
    ∀ l : List α, l.Pairwise (fun x y => compare y x = false) → is_sorted compare l = true
  | [], _ => rfl
  | [a], _ => rfl
  | a :: b :: rest, hp => by
    have h1 := (List.pairwise_cons.1 hp).1 b (List.mem_cons_self _ _)
    have h2 := pairwise_is_sorted (b :: rest) (List.pairwise_cons.1 hp).2
    simp [is_sorted, h1, h2]

end std

/-! ### Ranges over the memory -/

namespace boost.iterator_range

theorem empty_iff (r : iterator_range) : r.empty = true ↔ r.first = r.last := by
  simp [empty]

theorem empty_eq_false_iff (r : iterator_range) : r.empty = false ↔ r.first ≠ r.last := by
  simp [empty]

theorem positions_of_lt (r : iterator_range) (h : r.first < r.last) :
    r.positions = r.first :: (r.advance_begin 1).positions := by
  unfold positions advance_begin
  obtain ⟨n, hn⟩ : ∃ n, r.last - r.first = n + 1 := ⟨r.last - r.first - 1, by omega⟩
  have h2 : r.last - (r.first + 1) = n := by omega
  simp only [hn, h2, List.range'_succ]

theorem positions_of_le (r : iterator_range) (h : r.last ≤ r.first) : r.positions = [] := by
  unfold positions
  have : r.last - r.first = 0 := by omega
  simp [this]

theorem elements_of_lt {α : Type} (mem : Nat → α) (r : iterator_range) (h : r.first < r.last) :
    r.elements mem = r.front mem :: (r.advance_begin 1).elements mem := by
  simp [elements, positions_of_lt r h, front]

theorem elements_of_le {α : Type} (mem : Nat → α) (r : iterator_range) (h : r.last ≤ r.first) :
    r.elements mem = [] := by
  simp [elements, positions_of_le r h]

theorem length_positions (r : iterator_range) : r.positions.length = r.size := by
  simp [positions, size]

theorem length_elements {α : Type} (mem : Nat → α) (r : iterator_range) :
    (r.elements mem).length = r.size := by
  simp [elements, length_positions]

theorem getElem?_elements {α : Type} (mem : Nat → α) (r : iterator_range) (i : Nat)
    (h : r.first + i < r.last) : (r.elements mem)[i]? = some (mem (r.first + i)) := by
  have hi : i < r.last - r.first := by omega
  simp [elements, positions, List.getElem?_map, List.getElem?_range' _ _ hi]

/-- The contents of a later start of the same range are a suffix. -/
theorem elements_drop {α : Type} (mem : Nat → α) (r : iterator_range) (k : Nat)
    (h1 : r.first ≤ k) :
    (⟨k, r.last⟩ : iterator_range).elements mem = (r.elements mem).drop (k - r.first) := by
  apply List.ext_getElem?
  intro i
  by_cases hi : k + i < r.last
  · rw [getElem?_elements mem ⟨k, r.last⟩ i hi, List.getElem?_drop,
      getElem?_elements mem r _ (by omega)]
    congr 2
    simp only
    omega
  · rw [List.getElem?_eq_none, List.getElem?_eq_none]
    · simp only [List.length_drop, length_elements, size]; omega
    · simp only [length_elements, size]; omega

/-- A sorted range, read by address. -/
theorem sorted_positions {α : Type} {compare : α → α → Bool} (mem : Nat → α)
    (h : strict_weak_order compare) (r : iterator_range)
    (hs : is_sorted compare (r.elements mem) = true) (i j : Nat)
    (hi : r.first ≤ i) (hij : i < j) (hj : j < r.last) : compare (mem j) (mem i) = false := by
  have hp := is_sorted_pairwise h _ hs
  rw [List.pairwise_iff_getElem] at hp
  have hlen := length_elements mem r
  have h1 : i - r.first < (r.elements mem).length := by rw [hlen, size]; omega
  have h2 : j - r.first < (r.elements mem).length := by rw [hlen, size]; omega
  have := hp (i - r.first) (j - r.first) h1 h2 (by omega)
  have e1 : (r.elements mem)[i - r.first] = mem i := by
    have := getElem?_elements mem r (i - r.first) (by omega)
    rw [List.getElem?_eq_getElem h1] at this
    have h3 : r.first + (i - r.first) = i := by omega
    rw [h3] at this
    exact Option.some.inj this
  have e2 : (r.elements mem)[j - r.first] = mem j := by
    have := getElem?_elements mem r (j - r.first) (by omega)
    rw [List.getElem?_eq_getElem h2] at this
    have h3 : r.first + (j - r.first) = j := by omega
    rw [h3] at this
    exact Option.some.inj this
  rw [e1, e2] at this
  exact this

end boost.iterator_range

namespace std

/-- Binary search over a partitioned interval finds the partition point. -/
theorem lower_bound_loop_spec {α : Type} (mem : Nat → α) (goal : α) (compare : α → α → Bool)
    (lo hi : Nat)
    (hmono : ∀ i j, lo ≤ i → i ≤ j → j < hi → compare (mem j) goal = true →
      compare (mem i) goal = true) :
    ∀ fuel first count, count ≤ fuel → lo ≤ first → first + count ≤ hi →
      (∀ i, lo ≤ i → i < first → compare (mem i) goal = true) →
      (∀ i, first + count ≤ i → i < hi → compare (mem i) goal = false) →
      ∃ k, lower_bound_loop mem goal compare fuel first count = some k ∧ first ≤ k ∧
        k ≤ first + count ∧ (∀ i, lo ≤ i → i < k → compare (mem i) goal = true) ∧
        (∀ i, k ≤ i → i < hi → compare (mem i) goal = false) := by
  intro fuel
  induction fuel with
  | zero =>
    intro first count hc _ _ hbelow habove
    have hc0 : count = 0 := by omega
    subst hc0
    exact ⟨first, by simp [lower_bound_loop], le_refl _, by omega, hbelow, by simpa using habove⟩
  | succ fuel ih =>
    intro first count hc hlo hhi hbelow habove
    by_cases hc0 : count = 0
    · subst hc0
      exact ⟨first, by simp [lower_bound_loop], le_refl _, by omega, hbelow,
        by simpa using habove⟩
    · have hstep : count / 2 < count := Nat.div_lt_self (by omega) (by decide)
      cases hP : compare (mem (first + count / 2)) goal with
      | true =>
        obtain ⟨k, hk, hk1, hk2, hk3, hk4⟩ :=
          ih (first + count / 2 + 1) (count - (count / 2 + 1)) (by omega) (by omega) (by omega)
            (fun i hi1 hi2 => hmono i (first + count / 2) hi1 (by omega) (by omega) hP)
            (fun i hi1 hi2 => habove i (by omega) hi2)
        refine ⟨k, ?_, by omega, by omega, hk3, hk4⟩
        simp only [lower_bound_loop, hc0, if_false, hP, if_true]
        exact hk
      | false =>
        obtain ⟨k, hk, hk1, hk2, hk3, hk4⟩ :=
          ih first (count / 2) (by omega) hlo (by omega) hbelow
            (fun i hi1 hi2 => by
              cases hPi : compare (mem i) goal with
              | false => rfl
              | true =>
                have := hmono (first + count / 2) i (by omega) hi1 hi2 hPi
                rw [hP] at this
                exact absurd this (by decide))
        refine ⟨k, ?_, hk1, by omega, hk3, hk4⟩
        simp only [lower_bound_loop, hc0, if_false, hP]
        exact hk

theorem dropWhile_eq_drop {α : Type} (P : α → Bool) :
    ∀ (l : List α) (k : Nat), k ≤ l.length →
      (∀ i x, i < k → l[i]? = some x → P x = true) →
      (∀ i x, k ≤ i → l[i]? = some x → P x = false) →
      l.dropWhile P = l.drop k
  | [], k, hk, _, _ => by
    have : k = 0 := by simpa using hk
    subst this
    rfl
  | a :: t, 0, _, _, h2 => by
    have := h2 0 a (le_refl _) (by simp)
    simp [List.dropWhile, this]
  | a :: t, k + 1, hk, h1, h2 => by
    have ha := h1 0 a (by omega) (by simp)
    have ih := dropWhile_eq_drop P t k (by simpa using hk)
      (fun i x hi hx => h1 (i + 1) x (by omega) (by simpa using hx))
      (fun i x hi hx => h2 (i + 1) x (by omega) (by simpa using hx))
    simp [List.dropWhile, ha, ih]

end std

/-! ### thrust::skip_to -/

namespace thrust

/-- On a sorted range `skip_to` returns, and its result starts at the partition point
of "ordered before `goal`". -/
theorem skip_to_partition {α : Type} (mem : Nat → α) {compare : α → α → Bool}
    (hswo : strict_weak_order compare) (range : iterator_range) (goal : α)
    (hwf : range.first ≤ range.last)
    (hsorted : is_sorted compare (range.elements mem) = true) :
    ∃ k, skip_to mem range goal compare = some ⟨k, range.last⟩ ∧
      range.first ≤ k ∧ k ≤ range.last ∧
      (∀ i, range.first ≤ i → i < k → compare (mem i) goal = true) ∧
      (∀ i, k ≤ i → i < range.last → compare (mem i) goal = false) := by
  have hmono : ∀ i j, range.first ≤ i → i ≤ j → j < range.last →
      compare (mem j) goal = true → compare (mem i) goal = true := by
    intro i j hi hij hj hP
    rcases Nat.eq_or_lt_of_le hij with rfl | hlt
    · exact hP
    · have hji := iterator_range.sorted_positions mem hswo range hsorted i j hi hlt hj
      cases hPi : compare (mem i) goal with
      | true => rfl
      | false =>
        have := hswo.not_lt_trans hji hPi
        rw [hP] at this
        exact absurd this (by decide)
  obtain ⟨k, hk, hk1, hk2, hk3, hk4⟩ :=
    lower_bound_loop_spec mem goal compare range.first range.last hmono
      range.size range.first range.size (le_refl _) (le_refl _)
      (by simp only [iterator_range.size]; omega)
      (fun i h1 h2 => by omega)
      (fun i h1 h2 => by simp only [iterator_range.size] at h1; omega)
  refine ⟨k, ?_, hk1, ?_, hk3, hk4⟩
  · simp [skip_to, lower_bound, hk]
  · simp only [iterator_range.size] at hk2; omega

/-- The result of `skip_to` on a sorted range holds the contents left after dropping
the leading elements ordered before `goal`. -/
theorem skip_to_elements {α : Type} (mem : Nat → α) {compare : α → α → Bool}
    (hswo : strict_weak_order compare) (range : iterator_range) (goal : α)
    (hwf : range.first ≤ range.last)
    (hsorted : is_sorted compare (range.elements mem) = true) :
    ∃ k, skip_to mem range goal compare = some ⟨k, range.last⟩ ∧
      range.first ≤ k ∧ k ≤ range.last ∧
      (⟨k, range.last⟩ : iterator_range).elements mem =
        (range.elements mem).dropWhile (fun x => compare x goal) := by
  obtain ⟨k, hk, hk1, hk2, hk3, hk4⟩ := skip_to_partition mem hswo range goal hwf hsorted
  refine ⟨k, hk, hk1, hk2, ?_⟩
  rw [iterator_range.elements_drop mem range k hk1]
  symm
  apply dropWhile_eq_drop
  · rw [iterator_range.length_elements, iterator_range.size]; omega
  · intro i x hi hx
    by_cases hlt : range.first + i < range.last
    · rw [iterator_range.getElem?_elements mem range i hlt] at hx
      cases hx
      exact hk3 _ (by omega) (by omega)
    · rw [List.getElem?_eq_none (by
        rw [iterator_range.length_elements, iterator_range.size]; omega)] at hx
      cases hx
  · intro i x hi hx
    by_cases hlt : range.first + i < range.last
    · rw [iterator_range.getElem?_elements mem range i hlt] at hx
      cases hx
      exact hk4 _ (by omega) hlt
    · rw [List.getElem?_eq_none (by
        rw [iterator_range.length_elements, iterator_range.size]; omega)] at hx
      cases hx

/-- C8: on a range sorted under a strict weak order `skip_to` returns; the new range
keeps the end, starts inside the old range, every address dropped holds an element
ordered before `goal`, the new range is empty or its front is not ordered before
`goal`, no earlier address of the old range holds an element not ordered before
`goal`, and the new contents are the corresponding suffix of the old contents. -/
theorem skip_to_lower_bound_suffix {α : Type} (mem : Nat → α) (compare : α → α → Bool)
    (hswo : strict_weak_order compare) (range : iterator_range) (goal : α)
    (hwf : range.first ≤ range.last)
    (hsorted : is_sorted compare (range.elements mem) = true) :
    ∃ result, skip_to mem range goal compare = some result ∧
      result.last = range.last ∧
      range.first ≤ result.first ∧ result.first ≤ range.last ∧
      (∀ i, range.first ≤ i → i < result.first → compare (mem i) goal = true) ∧
      (result.empty = true ∨ compare (result.front mem) goal = false) ∧
      (∀ i, range.first ≤ i → i < range.last → compare (mem i) goal = false →
        result.first ≤ i) ∧
      result.elements mem = (range.elements mem).drop (result.first - range.first) := by
  obtain ⟨k, hk, hk1, hk2, hk3, hk4⟩ := skip_to_partition mem hswo range goal hwf hsorted
  refine ⟨⟨k, range.last⟩, hk, rfl, hk1, hk2, hk3, ?_, ?_, ?_⟩
  · rcases Nat.eq_or_lt_of_le hk2 with h | h
    · left; simp [iterator_range.empty, h]
    · right; exact hk4 k (le_refl _) h
  · intro i h1 h2 h3
    by_contra hlt
    have hlt' : i < k := by simpa using hlt
    have := hk3 i h1 hlt'
    rw [h3] at this
    exact absurd this (by decide)
  · exact iterator_range.elements_drop mem range k hk1

end thrust

namespace std

theorem is_sorted_drop {α : Type} (compare : α → α → Bool) :
    ∀ (k : Nat) (l : List α), is_sorted compare l = true → is_sorted compare (l.drop k) = true
  | 0, l, h => by simpa using h
  | _ + 1, [], _ => by simp [is_sorted]
  | k + 1, a :: t, h => by
    simpa using is_sorted_drop compare k t (is_sorted_cons compare a t h)

theorem equivalent_iff {α : Type} (compare : α → α → Bool) (a b : α) :
    equivalent compare a b = true ↔ compare a b = false ∧ compare b a = false := by
  simp [equivalent]

theorem equivalent_comm {α : Type} (compare : α → α → Bool) (a b : α) :
    equivalent compare a b = equivalent compare b a := by
  simp [equivalent, Bool.and_comm]

theorem strict_weak_order.equivalent_trans {α : Type} {compare : α → α → Bool}
    (h : strict_weak_order compare) {a b c : α} (hab : equivalent compare a b = true)
    (hbc : equivalent compare b c = true) : equivalent compare a c = true := by
  rw [equivalent_iff] at *
  exact h.incomp_trans a b c hab.1 hab.2 hbc.1 hbc.2

/-- Equivalent elements are interchangeable on the left of the equivalence test. -/
theorem strict_weak_order.equivalent_congr {α : Type} {compare : α → α → Bool}
    (h : strict_weak_order compare) {a b : α} (hab : equivalent compare a b = true) (x : α) :
    equivalent compare x a = equivalent compare x b := by
  cases hxa : equivalent compare x a with
  | true => exact (h.equivalent_trans hxa hab).symm
  | false =>
    cases hxb : equivalent compare x b with
    | false => rfl
    | true =>
      have hba : equivalent compare b a = true := by rw [equivalent_comm]; exact hab
      have := h.equivalent_trans hxb hba
      rw [hxa] at this
      exact absurd this (by decide)

/-- An element strictly before `y` has nothing equivalent in common with `y`. -/
theorem strict_weak_order.not_equivalent_of_lt {α : Type} {compare : α → α → Bool}
    (h : strict_weak_order compare) {b y : α} (hby : compare b y = true) (x : α)
    (hxb : equivalent compare x b = true) : equivalent compare x y = false := by
  cases hxy : equivalent compare x y with
  | false => rfl
  | true =>
    have hbx : equivalent compare b x = true := by rw [equivalent_comm]; exact hxb
    have := h.equivalent_trans hbx hxy
    rw [equivalent_iff] at this
    rw [this.1] at hby
    exact absurd hby (by decide)

theorem strict_weak_order.not_equivalent_of_gt {α : Type} {compare : α → α → Bool}
    (h : strict_weak_order compare) {b y : α} (hby : compare b y = true) (x : α)
    (hxy : equivalent compare x y = true) : equivalent compare x b = false := by
  cases hxb : equivalent compare x b with
  | false => rfl
  | true =>
    have := h.not_equivalent_of_lt hby x hxb
    rw [hxy] at this
    exact absurd this (by decide)

/-- In a sorted sequence whose head lies strictly after `b`, nothing is equivalent to
an element equivalent to `b`. -/
theorem count_equivalent_eq_zero_of_lt {α : Type} {compare : α → α → Bool}
    (h : strict_weak_order compare) {b a : α} {l : List α} (hba : compare b a = true)
    (hl : ∀ y ∈ l, compare y a = false) (x : α) (hxb : equivalent compare x b = true) :
    count_equivalent compare x l = 0 := by
  unfold count_equivalent
  rw [List.countP_eq_zero]
  intro y hy
  have hby : compare b y = true := by
    cases hby : compare b y with
    | true => rfl
    | false =>
      have := h.not_lt_trans hby (hl y hy)
      rw [hba] at this
      exact absurd this (by decide)
  simp [h.not_equivalent_of_lt hby x hxb]

theorem count_equivalent_cons {α : Type} (compare : α → α → Bool) (x a : α) (l : List α) :
    count_equivalent compare x (a :: l) =
      count_equivalent compare x l + if equivalent compare x a = true then 1 else 0 := by
  simp [count_equivalent, List.countP_cons]

end std

/-! ### The linear set difference -/

namespace burst

theorem linear_difference_nil_left {α : Type} (compare : α → α → Bool) (bs : List α) :
    linear_difference compare [] bs = [] := by
  simp [linear_difference]

theorem linear_difference_nil_right {α : Type} (compare : α → α → Bool) :
    ∀ as : List α, linear_difference compare as [] = as
  | [] => by simp [linear_difference]
  | a :: as => by
    simp [linear_difference, linear_difference_front, linear_difference_nil_right compare as]

theorem linear_difference_cons_nil {α : Type} (compare : α → α → Bool) (a : α) (as : List α) :
    linear_difference compare (a :: as) [] = a :: linear_difference compare as [] := by
  simp [linear_difference, linear_difference_front]

theorem linear_difference_drop {α : Type} (compare : α → α → Bool) (a b : α)
    (as bs : List α) (h : compare b a = true) :
    linear_difference compare (a :: as) (b :: bs) = linear_difference compare (a :: as) bs := by
  simp [linear_difference, linear_difference_front, h]

theorem linear_difference_emit {α : Type} (compare : α → α → Bool) (a b : α)
    (as bs : List α) (h1 : compare b a = false) (h2 : compare a b = true) :
    linear_difference compare (a :: as) (b :: bs) =
      a :: linear_difference compare as (b :: bs) := by
  simp [linear_difference, linear_difference_front, h1, h2]

theorem linear_difference_both {α : Type} (compare : α → α → Bool) (a b : α)
    (as bs : List α) (h1 : compare b a = false) (h2 : compare a b = false) :
    linear_difference compare (a :: as) (b :: bs) = linear_difference compare as bs := by
  simp [linear_difference, linear_difference_front, h1, h2]

/-- Dropping the fronts of the subtrahend that are ordered before the minuend's front
does not change the difference. -/
theorem linear_difference_dropWhile {α : Type} (compare : α → α → Bool) (a : α)
    (as : List α) :
    ∀ bs : List α, linear_difference compare (a :: as) (bs.dropWhile (fun x => compare x a)) =
      linear_difference compare (a :: as) bs
  | [] => by simp
  | b :: bs => by
    cases h : compare b a with
    | true =>
      rw [List.dropWhile_cons_of_pos (by simpa using h), linear_difference_drop compare a b as bs h]
      exact linear_difference_dropWhile compare a as bs
    | false =>
      rw [List.dropWhile_cons_of_neg (by simp [h])]

/-- Multiplicities in the linear difference of two sorted sequences. -/
theorem linear_difference_count {α : Type} {compare : α → α → Bool}
    (h : strict_weak_order compare) (x : α) :
    ∀ as bs : List α, as.Pairwise (fun u v => compare v u = false) →
      bs.Pairwise (fun u v => compare v u = false) →
      count_equivalent compare x (linear_difference compare as bs) =
        count_equivalent compare x as - count_equivalent compare x bs := by
  intro as
  induction as with
  | nil => intro bs _ _; simp [linear_difference, count_equivalent]
  | cons a as iha =>
    intro bs
    induction bs with
    | nil =>
      intro _ _
      rw [linear_difference_nil_right]
      simp [count_equivalent]
    | cons b bs ihb =>
      intro hA hB
      have hA' := (List.pairwise_cons.1 hA)
      have hB' := (List.pairwise_cons.1 hB)
      cases hba : compare b a with
      | true =>
        rw [linear_difference_drop compare a b as bs hba, ihb hA hB'.2]
        cases hxb : equivalent compare x b with
        | false => simp [count_equivalent_cons compare x b, hxb]
        | true =>
          have : count_equivalent compare x (a :: as) = 0 := by
            apply count_equivalent_eq_zero_of_lt h hba _ x hxb
            intro y hy
            rcases List.mem_cons.1 hy with rfl | hy'
            · exact h.irrefl _
            · exact hA'.1 y hy'
          rw [this]
          simp
      | false =>
        cases hab : compare a b with
        | true =>
          rw [linear_difference_emit compare a b as bs hba hab, count_equivalent_cons,
            iha (b :: bs) hA'.2 hB, count_equivalent_cons compare x a]
          cases hxa : equivalent compare x a with
          | false => simp
          | true =>
            have : count_equivalent compare x (b :: bs) = 0 := by
              apply count_equivalent_eq_zero_of_lt h hab _ x hxa
              intro y hy
              rcases List.mem_cons.1 hy with rfl | hy'
              · exact h.irrefl _
              · exact hB'.1 y hy'
            rw [this]
            simp
        | false =>
          rw [linear_difference_both compare a b as bs hba hab, iha bs hA'.2 hB'.2,
            count_equivalent_cons compare x a, count_equivalent_cons compare x b]
          have hab' : equivalent compare a b = true := by simp [equivalent, hab, hba]
          rw [h.equivalent_congr hab' x]
          cases equivalent compare x b <;> simp

end burst

namespace boost.iterator_range

/-- A later start of a sorted range is sorted. -/
theorem sorted_later_start {α : Type} (mem : Nat → α) (compare : α → α → Bool)
    (r : iterator_range) (k : Nat) (hk : r.first ≤ k)
    (hs : is_sorted compare (r.elements mem) = true) :
    is_sorted compare ((⟨k, r.last⟩ : iterator_range).elements mem) = true := by
  rw [elements_drop mem r k hk]
  exact is_sorted_drop compare _ _ hs

end boost.iterator_range

/-! ### burst::difference_iterator -/

namespace burst.difference_iterator

/-- What `maintain_invariant` does to a cursor with well-formed ranges and a sorted
subtrahend: it returns, only the start of the subtrahend moves (forward), the linear
difference of the two contents is unchanged, and in the skipping case the subtrahend
really advances. -/
theorem difference_maintain_invariant_spec {α : Type} (mem : Nat → α) {compare : α → α → Bool}
    (hswo : strict_weak_order compare) (s : difference_iterator)
    (hm : s.m_minuend.first ≤ s.m_minuend.last)
    (hs : s.m_subtrahend.first ≤ s.m_subtrahend.last)
    (hsorted : is_sorted compare (s.m_subtrahend.elements mem) = true) :
    ∃ k, maintain_invariant mem compare s = some ⟨s.m_minuend, ⟨k, s.m_subtrahend.last⟩⟩ ∧
      s.m_subtrahend.first ≤ k ∧ k ≤ s.m_subtrahend.last ∧
      linear_difference compare (s.m_minuend.elements mem)
          ((⟨k, s.m_subtrahend.last⟩ : iterator_range).elements mem) =
        linear_difference compare (s.m_minuend.elements mem) (s.m_subtrahend.elements mem) ∧
      (s.m_minuend.empty = false → s.m_subtrahend.empty = false →
        compare (s.m_subtrahend.front mem) (s.m_minuend.front mem) = true →
        s.m_subtrahend.first < k) := by
  cases hme : s.m_minuend.empty with
  | true =>
    refine ⟨s.m_subtrahend.last, ?_, hs, le_refl _, ?_, ?_⟩
    · simp [maintain_invariant, hme]
    · have : s.m_minuend.elements mem = [] :=
        iterator_range.elements_of_le mem _ (by
          have := (iterator_range.empty_iff _).1 hme; omega)
      rw [this, linear_difference_nil_left, linear_difference_nil_left]
    · intro h; exact absurd h (by simp)
  | false =>
    have hmlt : s.m_minuend.first < s.m_minuend.last := by
      have := (iterator_range.empty_eq_false_iff _).1 hme; omega
    cases hc : (!s.m_subtrahend.empty
        && compare (s.m_subtrahend.front mem) (s.m_minuend.front mem)) with
    | true =>
      simp only [Bool.and_eq_true, Bool.not_eq_true'] at hc
      have hslt : s.m_subtrahend.first < s.m_subtrahend.last := by
        have := (iterator_range.empty_eq_false_iff _).1 hc.1; omega
      obtain ⟨k, hk, hk1, hk2, hk3, hk4⟩ :=
        thrust.skip_to_partition mem hswo s.m_subtrahend (s.m_minuend.front mem) hs hsorted
      obtain ⟨k', hk', _, _, hel⟩ :=
        thrust.skip_to_elements mem hswo s.m_subtrahend (s.m_minuend.front mem) hs hsorted
      have hkk : k' = k := by
        rw [hk] at hk'
        injection hk' with h1
        injection h1 with h2 _
        exact h2.symm
      subst hkk
      have hprog : s.m_subtrahend.first < k' := by
        by_contra hnot
        have hle : k' ≤ s.m_subtrahend.first := by omega
        have := hk4 s.m_subtrahend.first hle hslt
        have hf := hc.2
        simp only [iterator_range.front] at hf this
        rw [hf] at this
        exact absurd this (by decide)
      refine ⟨k', ?_, hk1, hk2, ?_, fun _ _ _ => hprog⟩
      · simp [maintain_invariant, hme, hc.1, hc.2, skip_to_lower_bound, hk]
      · rw [hel, iterator_range.elements_of_lt mem _ hmlt]
        exact linear_difference_dropWhile compare _ _ _
    | false =>
      refine ⟨s.m_subtrahend.first, ?_, le_refl _, hs, rfl, ?_⟩
      · simp only [maintain_invariant, hme, hc]
        rfl
      · intro _ h1 h2
        rw [h1, h2] at hc
        exact absurd hc (by decide)

/-- The loop of `settle` terminates within the combined length of the two ranges,
leaves the loop condition false, moves only the two starts (forward), and does not
change the linear difference of the two contents. -/
theorem settle_loop_spec {α : Type} (mem : Nat → α) {compare : α → α → Bool}
    (hswo : strict_weak_order compare) :
    ∀ (fuel : Nat) (s : difference_iterator),
      s.m_minuend.first ≤ s.m_minuend.last →
      s.m_subtrahend.first ≤ s.m_subtrahend.last →
      is_sorted compare (s.m_subtrahend.elements mem) = true →
      s.m_minuend.size + s.m_subtrahend.size ≤ fuel →
      ∃ s', settle_loop mem compare fuel s = some s' ∧
        settle_condition mem compare s' = false ∧
        s'.m_minuend.last = s.m_minuend.last ∧ s'.m_subtrahend.last = s.m_subtrahend.last ∧
        s.m_minuend.first ≤ s'.m_minuend.first ∧ s'.m_minuend.first ≤ s'.m_minuend.last ∧
        s.m_subtrahend.first ≤ s'.m_subtrahend.first ∧
        s'.m_subtrahend.first ≤ s'.m_subtrahend.last ∧
        linear_difference compare (s'.m_minuend.elements mem) (s'.m_subtrahend.elements mem) =
          linear_difference compare (s.m_minuend.elements mem) (s.m_subtrahend.elements mem) := by
  intro fuel
  induction fuel with
  | zero =>
    intro s hm hs _ hfuel
    have hsz : s.m_subtrahend.first = s.m_subtrahend.last := by
      simp only [iterator_range.size] at hfuel; omega
    have hc : settle_condition mem compare s = false := by
      simp [settle_condition, iterator_range.empty, hsz]
    exact ⟨s, by simp [settle_loop, hc], hc, rfl, rfl, le_refl _, hm, le_refl _, hs, rfl⟩
  | succ fuel ih =>
    intro s hm hs hsorted hfuel
    cases hc : settle_condition mem compare s with
    | false =>
      exact ⟨s, by simp [settle_loop, hc], hc, rfl, rfl, le_refl _, hm, le_refl _, hs, rfl⟩
    | true =>
      have hc' := hc
      simp only [settle_condition, Bool.and_eq_true, Bool.not_eq_true'] at hc'
      obtain ⟨⟨hse, hme⟩, hab⟩ := hc'
      have hmlt : s.m_minuend.first < s.m_minuend.last := by
        have := (iterator_range.empty_eq_false_iff _).1 hme; omega
      have hslt : s.m_subtrahend.first < s.m_subtrahend.last := by
        have := (iterator_range.empty_eq_false_iff _).1 hse; omega
      cases hba : compare (s.m_subtrahend.front mem) (s.m_minuend.front mem) with
      | false =>
        obtain ⟨k, hk, hk1, hk2, hk3, _⟩ :=
          difference_maintain_invariant_spec mem hswo
            ⟨s.m_minuend.advance_begin 1, s.m_subtrahend.advance_begin 1⟩
            (by simp only [iterator_range.advance_begin]; omega)
            (by simp only [iterator_range.advance_begin]; omega)
            (iterator_range.sorted_later_start mem compare s.m_subtrahend _ (by omega) hsorted)
        simp only [iterator_range.advance_begin] at hk hk1 hk2 hk3
        obtain ⟨s', h1, h2, h3, h4, h5, h6, h7, h8, h9⟩ :=
          ih ⟨⟨s.m_minuend.first + 1, s.m_minuend.last⟩, ⟨k, s.m_subtrahend.last⟩⟩
            (by simp only; omega) (by simp only; omega)
            (iterator_range.sorted_later_start mem compare s.m_subtrahend _ (by omega) hsorted)
            (by simp only [iterator_range.size] at hfuel ⊢; omega)
        simp only at h3 h4 h5 h7
        refine ⟨s', ?_, h2, h3, h4, by omega, h6, by omega, h8, ?_⟩
        · simp only [settle_loop, hc, if_true, settle_body, hba, Bool.not_false,
            iterator_range.advance_begin, hk, Option.some_bind]
          exact h1
        · rw [h9, hk3, iterator_range.elements_of_lt mem s.m_minuend hmlt,
            iterator_range.elements_of_lt mem s.m_subtrahend hslt,
            linear_difference_both compare _ _ _ _ hba hab]
          rfl
      | true =>
        obtain ⟨k, hk, hk1, hk2, hk3, hk4⟩ :=
          difference_maintain_invariant_spec mem hswo s hm hs hsorted
        have hprog := hk4 hme hse hba
        obtain ⟨s', h1, h2, h3, h4, h5, h6, h7, h8, h9⟩ :=
          ih ⟨s.m_minuend, ⟨k, s.m_subtrahend.last⟩⟩ hm (by simp only; omega)
            (iterator_range.sorted_later_start mem compare s.m_subtrahend _ hk1 hsorted)
            (by simp only [iterator_range.size] at hfuel ⊢; omega)
        simp only at h3 h4 h5 h7
        refine ⟨s', ?_, h2, h3, h4, h5, h6, by omega, h8, ?_⟩
        · simp only [settle_loop, hc, if_true, settle_body, hba, Bool.not_true,
            hk, Option.some_bind]
          exact h1
        · rw [h9, hk3]

/-- The member `settle` returns on well-formed ranges with a sorted subtrahend. -/
theorem settle_spec {α : Type} (mem : Nat → α) {compare : α → α → Bool}
    (hswo : strict_weak_order compare) (s : difference_iterator)
    (hm : s.m_minuend.first ≤ s.m_minuend.last)
    (hs : s.m_subtrahend.first ≤ s.m_subtrahend.last)
    (hsorted : is_sorted compare (s.m_subtrahend.elements mem) = true) :
    ∃ s', settle mem compare s = some s' ∧
      settle_condition mem compare s' = false ∧
      s'.m_minuend.last = s.m_minuend.last ∧ s'.m_subtrahend.last = s.m_subtrahend.last ∧
      s.m_minuend.first ≤ s'.m_minuend.first ∧ s'.m_minuend.first ≤ s'.m_minuend.last ∧
      s.m_subtrahend.first ≤ s'.m_subtrahend.first ∧
      s'.m_subtrahend.first ≤ s'.m_subtrahend.last ∧
      linear_difference compare (s'.m_minuend.elements mem) (s'.m_subtrahend.elements mem) =
        linear_difference compare (s.m_minuend.elements mem) (s.m_subtrahend.elements mem) :=
  settle_loop_spec mem hswo _ s hm hs hsorted (le_refl _)

/-- The constructor returns on well-formed ranges with a sorted subtrahend. -/
theorem difference_make_spec {α : Type} (mem : Nat → α) {compare : α → α → Bool}
    (hswo : strict_weak_order compare) (minuend subtrahend : iterator_range)
    (hm : minuend.first ≤ minuend.last) (hs : subtrahend.first ≤ subtrahend.last)
    (hsorted : is_sorted compare (subtrahend.elements mem) = true) :
    ∃ s', make mem minuend subtrahend compare = some s' ∧
      settle_condition mem compare s' = false ∧
      s'.m_minuend.last = minuend.last ∧ s'.m_subtrahend.last = subtrahend.last ∧
      minuend.first ≤ s'.m_minuend.first ∧ s'.m_minuend.first ≤ s'.m_minuend.last ∧
      subtrahend.first ≤ s'.m_subtrahend.first ∧
      s'.m_subtrahend.first ≤ s'.m_subtrahend.last ∧
      linear_difference compare (s'.m_minuend.elements mem) (s'.m_subtrahend.elements mem) =
        linear_difference compare (minuend.elements mem) (subtrahend.elements mem) := by
  obtain ⟨k, hk, hk1, hk2, hk3, _⟩ :=
    difference_maintain_invariant_spec mem hswo ⟨minuend, subtrahend⟩ hm hs hsorted
  simp only at hk hk1 hk2 hk3
  obtain ⟨s', h1, h2, h3, h4, h5, h6, h7, h8, h9⟩ :=
    settle_spec mem hswo ⟨minuend, ⟨k, subtrahend.last⟩⟩ hm (by simp only; omega)
      (iterator_range.sorted_later_start mem compare subtrahend _ hk1 hsorted)
  simp only at h3 h4 h5 h7
  refine ⟨s', ?_, h2, h3, h4, h5, h6, by omega, h8, ?_⟩
  · simp only [make, hk, Option.some_bind]
    exact h1
  · rw [h9, hk3]

/-- The member `increment` returns on a cursor that is not at its end. -/
theorem difference_increment_spec {α : Type} (mem : Nat → α) {compare : α → α → Bool}
    (hswo : strict_weak_order compare) (s : difference_iterator)
    (hm : s.m_minuend.first < s.m_minuend.last)
    (hs : s.m_subtrahend.first ≤ s.m_subtrahend.last)
    (hsorted : is_sorted compare (s.m_subtrahend.elements mem) = true) :
    ∃ s', increment mem compare s = some s' ∧
      settle_condition mem compare s' = false ∧
      s'.m_minuend.last = s.m_minuend.last ∧ s'.m_subtrahend.last = s.m_subtrahend.last ∧
      s.m_minuend.first + 1 ≤ s'.m_minuend.first ∧ s'.m_minuend.first ≤ s'.m_minuend.last ∧
      s.m_subtrahend.first ≤ s'.m_subtrahend.first ∧
      s'.m_subtrahend.first ≤ s'.m_subtrahend.last ∧
      linear_difference compare (s'.m_minuend.elements mem) (s'.m_subtrahend.elements mem) =
        linear_difference compare ((s.m_minuend.advance_begin 1).elements mem)
          (s.m_subtrahend.elements mem) := by
  obtain ⟨s', h1, h2, h3, h4, h5, h6, h7, h8, h9⟩ :=
    settle_spec mem hswo { s with m_minuend := s.m_minuend.advance_begin 1 }
      (by simp only [iterator_range.advance_begin]; omega) hs hsorted
  exact ⟨s', h1, h2, h3, h4, h5, h6, h7, h8, h9⟩

/-- On a settled cursor that is not at its end the linear difference starts with the
element the cursor refers to. -/
theorem linear_difference_settled {α : Type} (mem : Nat → α) {compare : α → α → Bool}
    (hswo : strict_weak_order compare) (s : difference_iterator)
    (hm : s.m_minuend.first < s.m_minuend.last)
    (hs : s.m_subtrahend.first ≤ s.m_subtrahend.last)
    (hc : settle_condition mem compare s = false) :
    linear_difference compare (s.m_minuend.elements mem) (s.m_subtrahend.elements mem) =
      mem s.dereference ::
        linear_difference compare ((s.m_minuend.advance_begin 1).elements mem)
          (s.m_subtrahend.elements mem) := by
  rw [iterator_range.elements_of_lt mem s.m_minuend hm]
  have hme : s.m_minuend.empty = false := by
    rw [iterator_range.empty_eq_false_iff]; omega
  rcases Nat.eq_or_lt_of_le hs with heq | hlt
  · rw [iterator_range.elements_of_le mem s.m_subtrahend (by omega),
      linear_difference_cons_nil]
    rfl
  · have hse : s.m_subtrahend.empty = false := by
      rw [iterator_range.empty_eq_false_iff]; omega
    have hab : compare (s.m_minuend.front mem) (s.m_subtrahend.front mem) = true := by
      simpa [settle_condition, hme, hse] using hc
    rw [iterator_range.elements_of_lt mem s.m_subtrahend hlt,
      linear_difference_emit compare _ _ _ _ (hswo.asymm hab) hab]
    rfl

/-- Traversing a settled cursor returns; the addresses it yields hold the linear
difference of the two contents, are strictly increasing and lie in the minuend. -/
theorem difference_traverse_loop_spec {α : Type} (mem : Nat → α) {compare : α → α → Bool}
    (hswo : strict_weak_order compare) :
    ∀ (fuel : Nat) (s : difference_iterator),
      s.m_minuend.first ≤ s.m_minuend.last →
      s.m_subtrahend.first ≤ s.m_subtrahend.last →
      is_sorted compare (s.m_subtrahend.elements mem) = true →
      settle_condition mem compare s = false →
      s.m_minuend.size ≤ fuel →
      ∃ out, traverse_loop mem compare fuel s = some out ∧
        out.map mem =
          linear_difference compare (s.m_minuend.elements mem) (s.m_subtrahend.elements mem) ∧
        out.Pairwise (fun p q => p < q) ∧
        ∀ p ∈ out, s.m_minuend.first ≤ p ∧ p < s.m_minuend.last := by
  intro fuel
  induction fuel with
  | zero =>
    intro s hm _ _ _ hfuel
    have heq : s.m_minuend.first = s.m_minuend.last := by
      simp only [iterator_range.size] at hfuel; omega
    have hme : s.m_minuend.empty = true := (iterator_range.empty_iff _).2 heq
    refine ⟨[], by simp [traverse_loop, hme], ?_, List.Pairwise.nil, by simp⟩
    rw [iterator_range.elements_of_le mem s.m_minuend (by omega), linear_difference_nil_left]
    rfl
  | succ fuel ih =>
    intro s hm hs hsorted hc hfuel
    rcases Nat.eq_or_lt_of_le hm with heq | hlt
    · have hme : s.m_minuend.empty = true := (iterator_range.empty_iff _).2 heq
      refine ⟨[], by simp [traverse_loop, hme], ?_, List.Pairwise.nil, by simp⟩
      rw [iterator_range.elements_of_le mem s.m_minuend (by omega), linear_difference_nil_left]
      rfl
    · have hme : s.m_minuend.empty = false := by
        rw [iterator_range.empty_eq_false_iff]; omega
      obtain ⟨s', h1, h2, h3, h4, h5, h6, h7, h8, h9⟩ :=
        difference_increment_spec mem hswo s hlt hs hsorted
      have hsorted' : is_sorted compare (s'.m_subtrahend.elements mem) = true := by
        have := iterator_range.sorted_later_start mem compare s.m_subtrahend
          s'.m_subtrahend.first h7 hsorted
        rw [← h4] at this
        exact this
      obtain ⟨rest, hr1, hr2, hr3, hr4⟩ :=
        ih s' h6 h8 hsorted' h2 (by simp only [iterator_range.size] at hfuel ⊢; omega)
      refine ⟨s.dereference :: rest, ?_, ?_, ?_, ?_⟩
      · simp [traverse_loop, hme, h1, hr1]
      · rw [linear_difference_settled mem hswo s hlt hs hc, List.map_cons, hr2, h9]
      · refine List.Pairwise.cons ?_ hr3
        intro q hq
        have := hr4 q hq
        simp only [dereference]
        omega
      · intro p hp
        rcases List.mem_cons.1 hp with rfl | hp'
        · simp only [dereference]; omega
        · have := hr4 p hp'
          omega

/-- Constructing the cursor and traversing it to its end returns; the addresses yielded
hold the linear difference of the minuend and the subtrahend, are strictly increasing
and lie in the minuend. -/
theorem difference_traverse_spec {α : Type} (mem : Nat → α) {compare : α → α → Bool}
    (hswo : strict_weak_order compare) (minuend subtrahend : iterator_range)
    (hm : minuend.first ≤ minuend.last) (hs : subtrahend.first ≤ subtrahend.last)
    (hsorted : is_sorted compare (subtrahend.elements mem) = true) :
    ∃ out, traverse mem minuend subtrahend compare = some out ∧
      out.map mem =
        linear_difference compare (minuend.elements mem) (subtrahend.elements mem) ∧
      out.Pairwise (fun p q => p < q) ∧
      ∀ p ∈ out, minuend.first ≤ p ∧ p < minuend.last := by
  obtain ⟨s, h1, h2, h3, h4, h5, h6, h7, h8, h9⟩ :=
    difference_make_spec mem hswo minuend subtrahend hm hs hsorted
  have hsorted' : is_sorted compare (s.m_subtrahend.elements mem) = true := by
    have := iterator_range.sorted_later_start mem compare subtrahend
      s.m_subtrahend.first h7 hsorted
    rw [← h4] at this
    exact this
  obtain ⟨out, ho1, ho2, ho3, ho4⟩ :=
    difference_traverse_loop_spec mem hswo minuend.size s h6 h8 hsorted' h2
      (by simp only [iterator_range.size]; omega)
  refine ⟨out, ?_, ?_, ho3, ?_⟩
  · simp only [traverse, h1, Option.some_bind]
    exact ho1
  · rw [ho2, h9]
  · intro p hp
    have := ho4 p hp
    omega

end burst.difference_iterator

namespace std

theorem less_strict_weak_order : strict_weak_order less where
  irrefl := by intro a; simp [less]
  trans := by
    intro a b c h1 h2
    simp only [less, decide_eq_true_eq] at *
    omega
  incomp_trans := by
    intro a b c h1 h2 h3 h4
    simp only [less, decide_eq_false_iff_not, not_lt] at *
    omega

theorem is_strictly_sorted_cons {α : Type} (compare : α → α → Bool) (a : α) (l : List α) :
    is_strictly_sorted compare (a :: l) = true → is_strictly_sorted compare l = true := by
  cases l with
  | nil => intro _; rfl
  | cons b rest =>
    intro h
    simp only [is_strictly_sorted, Bool.and_eq_true] at h
    exact h.2

/-- A strictly sorted sequence orders every element before every later one. -/
theorem is_strictly_sorted_pairwise {α : Type} {compare : α → α → Bool}
    (h : strict_weak_order compare) :
    ∀ l : List α, is_strictly_sorted compare l = true →
      l.Pairwise (fun x y => compare x y = true)
  | [], _ => List.Pairwise.nil
  | [a], _ => by simp
  | a :: b :: rest, hs => by
    have hs' := hs
    simp only [is_strictly_sorted, Bool.and_eq_true] at hs'
    have ih := is_strictly_sorted_pairwise h (b :: rest) hs'.2
    refine List.Pairwise.cons ?_ ih
    intro y hy
    rcases List.mem_cons.1 hy with rfl | hy'
    · exact hs'.1
    · exact h.trans _ _ _ hs'.1 ((List.pairwise_cons.1 ih).1 y hy')

theorem is_sorted_of_is_strictly_sorted {α : Type} {compare : α → α → Bool}
    (h : strict_weak_order compare) (l : List α)
    (hs : is_strictly_sorted compare l = true) : is_sorted compare l = true := by
  apply pairwise_is_sorted
  exact (is_strictly_sorted_pairwise h l hs).imp (fun hxy => h.asymm hxy)

end std

namespace boost.iterator_range

theorem mem_positions (r : iterator_range) (p : Nat) :
    p ∈ r.positions ↔ r.first ≤ p ∧ p < r.last := by
  simp only [positions, List.mem_range'_1]
  omega

theorem nodup_positions (r : iterator_range) : r.positions.Nodup := by
  simp only [positions]
  exact List.nodup_range' _ _

/-- Strictly increasing addresses inside a range form a subsequence of its addresses. -/
theorem sublist_positions (r : iterator_range) (out : List Nat)
    (hinc : out.Pairwise (fun p q => p < q))
    (hin : ∀ p ∈ out, r.first ≤ p ∧ p < r.last) : out.Sublist r.positions := by
  refine @List.sublist_of_subperm_of_sorted Nat (fun p q : Nat => p < q) _ _ _ ?_ ?_ ?_
  · apply List.subperm_of_subset
    · exact hinc.imp (fun h => Nat.ne_of_lt h)
    · intro p hp
      exact (mem_positions r p).2 (hin p hp)
  · exact hinc
  · simp only [positions]
    exact List.pairwise_lt_range' _ _

/-- In a strictly sorted range, two addresses hold equivalent elements only if they
are the same address. -/
theorem equivalent_positions {α : Type} {compare : α → α → Bool} (mem : Nat → α)
    (h : strict_weak_order compare) (r : iterator_range)
    (hs : is_strictly_sorted compare (r.elements mem) = true) (p q : Nat)
    (hp : r.first ≤ p ∧ p < r.last) (hq : r.first ≤ q ∧ q < r.last) :
    equivalent compare (mem p) (mem q) = true ↔ q = p := by
  have hp' := is_strictly_sorted_pairwise h _ hs
  simp only [elements] at hp'
  rw [List.pairwise_map] at hp'
  have hlt : ∀ i j, r.first ≤ i → i < j → j < r.last → compare (mem i) (mem j) = true := by
    intro i j hi hij hj
    have hpos : r.positions.Pairwise (fun p q => p < q) := by
      simp only [positions]; exact List.pairwise_lt_range' _ _
    have hsub : [i, j].Sublist r.positions :=
      sublist_positions r [i, j] (by simp [hij]) (by
        intro x hx
        simp only [List.mem_cons, List.mem_singleton, List.not_mem_nil, or_false] at hx
        rcases hx with rfl | rfl <;> omega)
    have := hp'.sublist hsub
    simpa using this
  constructor
  · intro he
    rw [equivalent_iff] at he
    by_contra hne
    rcases Nat.lt_or_gt_of_ne hne with hlt' | hgt'
    · have := hlt q p hq.1 hlt' hp.2
      rw [he.2] at this
      exact absurd this (by decide)
    · have := hlt p q hp.1 hgt' hq.2
      rw [he.1] at this
      exact absurd this (by decide)
  · rintro rfl
    simp [equivalent, h.irrefl]

end boost.iterator_range

namespace burst.difference_iterator

/-- C1: over a minuend and a subtrahend sorted under a strict weak order, constructing
the difference cursor and traversing it to its end returns, and for every class of
equivalent elements the yielded sequence contains exactly
`count_in_minuend - count_in_subtrahend` (truncated at 0) elements of the class. -/
theorem difference_multiplicity {α : Type} (mem : Nat → α) (compare : α → α → Bool)
    (hswo : strict_weak_order compare) (minuend subtrahend : iterator_range)
    (hm : minuend.first ≤ minuend.last) (hs : subtrahend.first ≤ subtrahend.last)
    (hsortedA : is_sorted compare (minuend.elements mem) = true)
    (hsortedB : is_sorted compare (subtrahend.elements mem) = true) :
    ∃ out, traverse mem minuend subtrahend compare = some out ∧
      ∀ x, count_equivalent compare x (out.map mem) =
        count_equivalent compare x (minuend.elements mem) -
          count_equivalent compare x (subtrahend.elements mem) := by
  obtain ⟨out, h1, h2, _, _⟩ := difference_traverse_spec mem hswo minuend subtrahend hm hs hsortedB
  refine ⟨out, h1, fun x => ?_⟩
  rw [h2]
  exact linear_difference_count hswo x _ _ (is_sorted_pairwise hswo _ hsortedA)
    (is_sorted_pairwise hswo _ hsortedB)

/-- C1 at the minuend `[1,1,2,3]` (addresses 0..3) and the subtrahend `[1,3]`
(addresses 4..5): the traversal yields the addresses 1 and 2, holding `[1,2]`. -/
theorem difference_multiplicity_witness :
    strict_weak_order less ∧
    is_sorted less ((⟨0, 4⟩ : iterator_range).elements (memory_of [1, 1, 2, 3, 1, 3])) = true ∧
    is_sorted less ((⟨4, 6⟩ : iterator_range).elements (memory_of [1, 1, 2, 3, 1, 3])) = true ∧
    traverse (memory_of [1, 1, 2, 3, 1, 3]) ⟨0, 4⟩ ⟨4, 6⟩ less = some [1, 2] ∧
    ∃ out, traverse (memory_of [1, 1, 2, 3, 1, 3]) ⟨0, 4⟩ ⟨4, 6⟩ less = some out ∧
      ∀ x, count_equivalent less x (out.map (memory_of [1, 1, 2, 3, 1, 3])) =
        count_equivalent less x
            ((⟨0, 4⟩ : iterator_range).elements (memory_of [1, 1, 2, 3, 1, 3])) -
          count_equivalent less x
            ((⟨4, 6⟩ : iterator_range).elements (memory_of [1, 1, 2, 3, 1, 3])) :=
  ⟨less_strict_weak_order, by decide, by decide, by decide,
    difference_multiplicity (memory_of [1, 1, 2, 3, 1, 3]) less less_strict_weak_order
      ⟨0, 4⟩ ⟨4, 6⟩ (by decide) (by decide) (by decide) (by decide)⟩

/-- C5: over a sorted minuend and a sorted subtrahend the traversal of the difference
cursor returns addresses of the minuend in strictly increasing order, so the yielded
elements are a subsequence of the minuend in its original order, and they are sorted. -/
theorem difference_subsequence {α : Type} (mem : Nat → α) (compare : α → α → Bool)
    (hswo : strict_weak_order compare) (minuend subtrahend : iterator_range)
    (hm : minuend.first ≤ minuend.last) (hs : subtrahend.first ≤ subtrahend.last)
    (hsortedA : is_sorted compare (minuend.elements mem) = true)
    (hsortedB : is_sorted compare (subtrahend.elements mem) = true) :
    ∃ out, traverse mem minuend subtrahend compare = some out ∧
      out.Pairwise (fun p q => p < q) ∧
      (∀ p ∈ out, minuend.first ≤ p ∧ p < minuend.last) ∧
      out.Sublist minuend.positions ∧
      (out.map mem).Sublist (minuend.elements mem) ∧
      is_sorted compare (out.map mem) = true := by
  obtain ⟨out, h1, _, h3, h4⟩ := difference_traverse_spec mem hswo minuend subtrahend hm hs hsortedB
  have hsub := iterator_range.sublist_positions minuend out h3 h4
  have hsub' : (out.map mem).Sublist (minuend.elements mem) := hsub.map mem
  refine ⟨out, h1, h3, h4, hsub, hsub', ?_⟩
  exact pairwise_is_sorted _ ((is_sorted_pairwise hswo _ hsortedA).sublist hsub')

/-- C5 at the minuend `[1,2,2,5,7]` (addresses 0..4) and the subtrahend `[2,7,9]`. -/
theorem difference_subsequence_witness :
    traverse (memory_of [1, 2, 2, 5, 7, 2, 7, 9]) ⟨0, 5⟩ ⟨5, 8⟩ less = some [0, 2, 3] ∧
    ∃ out, traverse (memory_of [1, 2, 2, 5, 7, 2, 7, 9]) ⟨0, 5⟩ ⟨5, 8⟩ less = some out ∧
      out.Pairwise (fun p q => p < q) ∧
      (∀ p ∈ out, (⟨0, 5⟩ : iterator_range).first ≤ p ∧ p < (⟨0, 5⟩ : iterator_range).last) ∧
      out.Sublist (⟨0, 5⟩ : iterator_range).positions ∧
      (out.map (memory_of [1, 2, 2, 5, 7, 2, 7, 9])).Sublist
        ((⟨0, 5⟩ : iterator_range).elements (memory_of [1, 2, 2, 5, 7, 2, 7, 9])) ∧
      is_sorted less (out.map (memory_of [1, 2, 2, 5, 7, 2, 7, 9])) = true :=
  ⟨by decide,
    difference_subsequence (memory_of [1, 2, 2, 5, 7, 2, 7, 9]) less less_strict_weak_order
      ⟨0, 5⟩ ⟨5, 8⟩ (by decide) (by decide) (by decide) (by decide)⟩

/-- C9: when the minuend and the subtrahend are sets (strictly sorted), the traversal
of the difference cursor returns, yields only addresses of the minuend, yields no
address twice, and yields an address of the minuend if and only if the subtrahend
holds no element equivalent to the element at that address. -/
theorem difference_of_sets {α : Type} (mem : Nat → α) (compare : α → α → Bool)
    (hswo : strict_weak_order compare) (minuend subtrahend : iterator_range)
    (hm : minuend.first ≤ minuend.last) (hs : subtrahend.first ≤ subtrahend.last)
    (hsetA : is_strictly_sorted compare (minuend.elements mem) = true)
    (hsetB : is_strictly_sorted compare (subtrahend.elements mem) = true) :
    ∃ out, traverse mem minuend subtrahend compare = some out ∧
      out.Nodup ∧
      (∀ p ∈ out, minuend.first ≤ p ∧ p < minuend.last) ∧
      ∀ p, minuend.first ≤ p → p < minuend.last →
        (p ∈ out ↔ ∀ b ∈ subtrahend.elements mem, equivalent compare (mem p) b = false) := by
  have hsortedA := is_sorted_of_is_strictly_sorted hswo _ hsetA
  have hsortedB := is_sorted_of_is_strictly_sorted hswo _ hsetB
  obtain ⟨out, h1, h2, h3, h4⟩ := difference_traverse_spec mem hswo minuend subtrahend hm hs hsortedB
  have hnodup : out.Nodup := h3.imp (fun h => Nat.ne_of_lt h)
  refine ⟨out, h1, hnodup, h4, fun p hp1 hp2 => ?_⟩
  have hcount := linear_difference_count hswo (mem p) _ _
    (is_sorted_pairwise hswo _ hsortedA) (is_sorted_pairwise hswo _ hsortedB)
  rw [← h2] at hcount
  have hpin : p ∈ minuend.positions := (iterator_range.mem_positions _ _).2 ⟨hp1, hp2⟩
  have key : ∀ l : List Nat, (∀ q ∈ l, minuend.first ≤ q ∧ q < minuend.last) →
      count_equivalent compare (mem p) (l.map mem) = l.count p := by
    intro l hl
    simp only [count_equivalent, List.countP_map, List.count]
    apply List.countP_congr
    intro q hq
    simp only [Function.comp]
    rw [iterator_range.equivalent_positions mem hswo minuend hsetA p q ⟨hp1, hp2⟩ (hl q hq)]
    simp
  have hA : count_equivalent compare (mem p) (minuend.elements mem) = 1 := by
    simp only [iterator_range.elements]
    rw [key _ (fun q hq => (iterator_range.mem_positions _ _).1 hq)]
    exact List.count_eq_one_of_mem (iterator_range.nodup_positions _) hpin
  rw [key out h4, hA] at hcount
  have hB : count_equivalent compare (mem p) (subtrahend.elements mem) = 0 ↔
      ∀ b ∈ subtrahend.elements mem, equivalent compare (mem p) b = false := by
    simp only [count_equivalent, List.countP_eq_zero, Bool.not_eq_true]
  rw [← hB]
  constructor
  · intro hin
    have := List.count_pos_iff.2 hin
    omega
  · intro h0
    rw [h0] at hcount
    exact List.count_pos_iff.1 (by omega)

/-- C9 at the sets `{1,2,5,7}` (addresses 0..3) and `{2,7,9}` (addresses 4..6). -/
theorem difference_of_sets_witness :
    traverse (memory_of [1, 2, 5, 7, 2, 7, 9]) ⟨0, 4⟩ ⟨4, 7⟩ less = some [0, 2] ∧
    ∃ out, traverse (memory_of [1, 2, 5, 7, 2, 7, 9]) ⟨0, 4⟩ ⟨4, 7⟩ less = some out ∧
      out.Nodup ∧
      (∀ p ∈ out, (⟨0, 4⟩ : iterator_range).first ≤ p ∧ p < (⟨0, 4⟩ : iterator_range).last) ∧
      ∀ p, (⟨0, 4⟩ : iterator_range).first ≤ p → p < (⟨0, 4⟩ : iterator_range).last →
        (p ∈ out ↔ ∀ b ∈ (⟨4, 7⟩ : iterator_range).elements (memory_of [1, 2, 5, 7, 2, 7, 9]),
          equivalent less (memory_of [1, 2, 5, 7, 2, 7, 9] p) b = false) :=
  ⟨by decide,
    difference_of_sets (memory_of [1, 2, 5, 7, 2, 7, 9]) less less_strict_weak_order
      ⟨0, 4⟩ ⟨4, 7⟩ (by decide) (by decide) (by decide) (by decide)⟩

/-- C10 does not hold as stated.  Over the storage `[1,1,1]` the constructor gives
cursors with the minuend ranges `[0,2)` and `[1,3)`, both inside that storage; they
are equal although their minuend ranges start at different addresses (0 and 1),
because `equal` compares the contents of the minuend ranges.  Likewise the cursor over
the minuend `[0,1)` that has been incremented to its end has the minuend range `[1,1)`
and equals the default-constructed end cursor, whose minuend range starts at 0. -/
theorem difference_equal_same_contents :
    make (memory_of [1, 1, 1]) ⟨0, 2⟩ ⟨3, 3⟩ less = some ⟨⟨0, 2⟩, ⟨3, 3⟩⟩ ∧
    make (memory_of [1, 1, 1]) ⟨1, 3⟩ ⟨3, 3⟩ less = some ⟨⟨1, 3⟩, ⟨3, 3⟩⟩ ∧
    ¬ (equal (memory_of [1, 1, 1]) ⟨⟨0, 2⟩, ⟨3, 3⟩⟩ ⟨⟨1, 3⟩, ⟨3, 3⟩⟩ = true ↔
        (⟨⟨0, 2⟩, ⟨3, 3⟩⟩ : difference_iterator).m_minuend.first =
          (⟨⟨1, 3⟩, ⟨3, 3⟩⟩ : difference_iterator).m_minuend.first) ∧
    (make (memory_of [1, 1, 1]) ⟨0, 1⟩ ⟨3, 3⟩ less).bind
        (increment (memory_of [1, 1, 1]) less) = some ⟨⟨1, 1⟩, ⟨3, 3⟩⟩ ∧
    ¬ (equal (memory_of [1, 1, 1]) ⟨⟨1, 1⟩, ⟨3, 3⟩⟩ make_end = true ↔
        (⟨⟨1, 1⟩, ⟨3, 3⟩⟩ : difference_iterator).m_minuend.first =
          make_end.m_minuend.first) := by
  decide

/-- C10 (amended): `equal` is decided by the minuend ranges alone, by comparing their
contents: two cursors are equal exactly when their minuend ranges hold the same
sequence of elements, whatever their subtrahend ranges.  For two cursors whose minuend
ranges are well formed and end at the same address (two positions in one traversal of
a minuend), `equal` holds exactly when the minuend ranges start at the same address,
and this is also when the minuend ranges are the same iterator pairs. -/
theorem difference_equal_iff {α : Type} [DecidableEq α] (mem : Nat → α)
    (s that : difference_iterator) :
    (equal mem s that = true ↔
      s.m_minuend.elements mem = that.m_minuend.elements mem) ∧
    (∀ subtrahend subtrahend' : iterator_range,
      equal mem ⟨s.m_minuend, subtrahend⟩ ⟨that.m_minuend, subtrahend'⟩ = equal mem s that) ∧
    (s.m_minuend.last = that.m_minuend.last →
      s.m_minuend.first ≤ s.m_minuend.last →
      that.m_minuend.first ≤ that.m_minuend.last →
      (equal mem s that = true ↔ s.m_minuend.first = that.m_minuend.first) ∧
      (s.m_minuend = that.m_minuend ↔ s.m_minuend.first = that.m_minuend.first)) := by
  refine ⟨by simp only [equal, iterator_range.equal, decide_eq_true_eq], fun _ _ => rfl, ?_⟩
  intro hlast hs ht
  have hrange : s.m_minuend.first = that.m_minuend.first → s.m_minuend = that.m_minuend := by
    intro h
    cases hs' : s.m_minuend with
    | mk f l =>
      cases ht' : that.m_minuend with
      | mk f' l' =>
        rw [hs', ht'] at h hlast
        simp only at h hlast
        rw [h, hlast]
  refine ⟨⟨fun he => ?_, fun h => ?_⟩, ⟨fun h => by rw [h], hrange⟩⟩
  · simp only [equal, iterator_range.equal, decide_eq_true_eq] at he
    have hlen := congrArg List.length he
    rw [iterator_range.length_elements, iterator_range.length_elements] at hlen
    simp only [iterator_range.size] at hlen
    omega
  · simp only [equal, iterator_range.equal, decide_eq_true_eq]
    rw [hrange h]

/-- C10 (amended) at two cursors over the minuend `[1,1,2,3]` (addresses 0..3): one
step apart they differ, and at the same position with different subtrahend ranges
they are equal. -/
theorem difference_equal_iff_witness :
    equal (memory_of [1, 1, 2, 3, 1, 3]) ⟨⟨1, 4⟩, ⟨5, 6⟩⟩ ⟨⟨2, 4⟩, ⟨5, 6⟩⟩ = false ∧
    equal (memory_of [1, 1, 2, 3, 1, 3]) ⟨⟨2, 4⟩, ⟨4, 6⟩⟩ ⟨⟨2, 4⟩, ⟨6, 6⟩⟩ = true ∧
    (⟨⟨2, 4⟩, ⟨4, 6⟩⟩ : difference_iterator).m_minuend.last =
      (⟨⟨2, 4⟩, ⟨6, 6⟩⟩ : difference_iterator).m_minuend.last ∧
    (⟨⟨2, 4⟩, ⟨4, 6⟩⟩ : difference_iterator).m_minuend.first ≤
      (⟨⟨2, 4⟩, ⟨4, 6⟩⟩ : difference_iterator).m_minuend.last ∧
    (⟨⟨2, 4⟩, ⟨6, 6⟩⟩ : difference_iterator).m_minuend.first ≤
      (⟨⟨2, 4⟩, ⟨6, 6⟩⟩ : difference_iterator).m_minuend.last ∧
    ((equal (memory_of [1, 1, 2, 3, 1, 3]) ⟨⟨2, 4⟩, ⟨4, 6⟩⟩ ⟨⟨2, 4⟩, ⟨6, 6⟩⟩ = true ↔
        (⟨⟨2, 4⟩, ⟨4, 6⟩⟩ : difference_iterator).m_minuend.first =
          (⟨⟨2, 4⟩, ⟨6, 6⟩⟩ : difference_iterator).m_minuend.first) ∧
      ((⟨⟨2, 4⟩, ⟨4, 6⟩⟩ : difference_iterator).m_minuend =
          (⟨⟨2, 4⟩, ⟨6, 6⟩⟩ : difference_iterator).m_minuend ↔
        (⟨⟨2, 4⟩, ⟨4, 6⟩⟩ : difference_iterator).m_minuend.first =
          (⟨⟨2, 4⟩, ⟨6, 6⟩⟩ : difference_iterator).m_minuend.first)) :=
  ⟨by decide, by decide, by decide, by decide, by decide,
    (difference_equal_iff (memory_of [1, 1, 2, 3, 1, 3])
      ⟨⟨2, 4⟩, ⟨4, 6⟩⟩ ⟨⟨2, 4⟩, ⟨6, 6⟩⟩).2.2 (by decide) (by decide) (by decide)⟩

end burst.difference_iterator

namespace std

/-- The check `is_heap` says that no element is ordered after its parent. -/
theorem is_heap_iff {β : Type} (comp : β → β → Bool) (l : List β) :
    is_heap comp l = true ↔
      ∀ i p c, 0 < i → l[(i - 1) / 2]? = some p → l[i]? = some c → comp p c = false := by
  simp only [is_heap, List.all_eq_true, List.mem_range]
  constructor
  · intro h i p c hpos hp hc
    have hilt : i < l.length := by
      by_contra hge
      rw [List.getElem?_eq_none (by omega)] at hc
      cases hc
    have := h i hilt
    rw [hp, hc] at this
    have hne : (i == 0) = false := by
      rw [beq_eq_false_iff_ne]
      omega
    simpa [hne] using this
  · intro h i _
    cases hp : l[(i - 1) / 2]? with
    | none => rfl
    | some p =>
      cases hc : l[i]? with
      | none => rfl
      | some c =>
        rcases Nat.eq_zero_or_pos i with h0 | hpos
        · simp [h0]
        · simp [h i p c hpos hp hc]

/-- The top of a heap is not ordered before any element of the heap. -/
theorem is_heap_top {β : Type} {comp : β → β → Bool} (h : strict_weak_order comp)
    (l : List β) (hl : is_heap comp l = true) (p : β) (hp : l[0]? = some p) :
    ∀ (i : Nat) (c : β), l[i]? = some c → comp p c = false := by
  intro i
  induction i using Nat.strong_induction_on with
  | _ i ih =>
    intro c hc
    rcases Nat.eq_zero_or_pos i with h0 | hpos
    · subst h0
      rw [hp] at hc
      cases hc
      exact h.irrefl _
    · have hilt : i < l.length := by
        by_contra hge
        rw [List.getElem?_eq_none (by omega)] at hc
        cases hc
      have hjlt : (i - 1) / 2 < i := by omega
      have hb : (i - 1) / 2 < l.length := by omega
      have hq : l[(i - 1) / 2]? = some l[(i - 1) / 2] := List.getElem?_eq_getElem hb
      have h1 := ih _ hjlt _ hq
      have h2 := (is_heap_iff comp l).1 hl i _ c hpos hq hc
      exact h.not_lt_trans h1 h2

theorem is_heap_top_mem {β : Type} {comp : β → β → Bool} (h : strict_weak_order comp)
    (x : β) (l : List β) (hl : is_heap comp (x :: l) = true) :
    ∀ c ∈ x :: l, comp x c = false := by
  intro c hc
  obtain ⟨i, hi⟩ := List.mem_iff_getElem?.1 hc
  exact is_heap_top h (x :: l) hl x (by simp) i c hi

/-- A sequence in which no element is ordered before a later one is a heap. -/
theorem is_heap_of_pairwise {β : Type} {comp : β → β → Bool} (l : List β)
    (hl : l.Pairwise (fun a b => comp a b = false)) : is_heap comp l = true := by
  rw [is_heap_iff]
  intro i p c hpos hp hc
  rw [List.pairwise_iff_getElem] at hl
  have hilt : i < l.length := by
    by_contra hge
    rw [List.getElem?_eq_none (by omega)] at hc
    cases hc
  have hjlt : (i - 1) / 2 < l.length := by omega
  have := hl ((i - 1) / 2) i hjlt hilt (by omega)
  rw [List.getElem?_eq_getElem hjlt] at hp
  rw [List.getElem?_eq_getElem hilt] at hc
  cases hp
  cases hc
  exact this

theorem sorted_insertionSort_of_strict_weak_order {β : Type} {comp : β → β → Bool}
    (h : strict_weak_order comp) (l : List β) :
    (l.insertionSort (fun a b => comp a b = false)).Pairwise (fun a b => comp a b = false) := by
  haveI : IsTotal β (fun a b => comp a b = false) := ⟨fun a b => by
    cases hab : comp a b with
    | false => exact Or.inl rfl
    | true => exact Or.inr (h.asymm hab)⟩
  haveI : IsTrans β (fun a b => comp a b = false) := ⟨fun a b c hab hbc =>
    h.not_lt_trans hab hbc⟩
  exact List.sorted_insertionSort (fun a b => comp a b = false) l

/-- The reference implementation meets the contract of the heap algorithms. -/
theorem reference_heap_conforming (β : Type) : (reference_heap β).conforming where
  make_heap_perm := fun _ l _ => List.perm_insertionSort _ l
  make_heap_is_heap := fun _ l h =>
    is_heap_of_pairwise _ (sorted_insertionSort_of_strict_weak_order h l)
  pop_heap_spec := fun comp _ l h _ =>
    ⟨l.insertionSort (fun a b => comp a b = false), rfl, List.perm_insertionSort _ l,
      is_heap_of_pairwise _ (sorted_insertionSort_of_strict_weak_order h l)⟩
  push_heap_perm := fun _ _ _ _ _ => List.perm_insertionSort _ _
  push_heap_is_heap := fun _ _ _ h _ =>
    is_heap_of_pairwise _ (sorted_insertionSort_of_strict_weak_order h _)

end std

namespace burst

/-- Comparing views by their fronts with the comparator inverted is a strict weak order. -/
theorem heap_compare_strict_weak_order {α : Type} (mem : Nat → α) {compare : α → α → Bool}
    (h : strict_weak_order compare) : strict_weak_order (heap_compare mem compare) where
  irrefl := fun a => h.irrefl _
  trans := fun a b c hab hbc => h.trans _ _ _ hbc hab
  incomp_trans := fun a b c h1 h2 h3 h4 => by
    have := h.incomp_trans (c.front mem) (b.front mem) (a.front mem) h3 h4 h1 h2
    exact ⟨this.1, this.2⟩

end burst

/-! ### burst::merge_iterator -/

namespace burst.merge_iterator

theorem remaining_of_active (s : merge_iterator) (x : iterator_range)
    (l : List iterator_range) (hact : s.active = x :: l) :
    s.remaining = x.positions ++ (l.map iterator_range.positions).flatten := by
  simp [remaining, hact]

/-- Every cell of an active view of a cursor satisfying the invariant holds an element
that is not ordered before the front of the view at the top of the heap. -/
theorem top_is_minimum {α : Type} (mem : Nat → α) {compare : α → α → Bool}
    (hswo : strict_weak_order compare) (s : merge_iterator)
    (hinv : invariant mem compare s) (x : iterator_range) (l : List iterator_range)
    (hact : s.active = x :: l) :
    ∀ r ∈ s.active, ∀ p ∈ r.positions, compare (mem p) (mem x.first) = false := by
  obtain ⟨_, hheap, hall⟩ := hinv
  intro r hr p hp
  rw [hact] at hheap hr
  have htop := is_heap_top_mem (heap_compare_strict_weak_order mem hswo) x l hheap r hr
  simp only [heap_compare, iterator_range.front] at htop
  have hr' : r ∈ s.active := by rw [hact]; exact hr
  obtain ⟨hlt, hsorted⟩ := hall r hr'
  obtain ⟨hp1, hp2⟩ := (iterator_range.mem_positions r p).1 hp
  rcases Nat.eq_or_lt_of_le hp1 with heq | hlt'
  · rw [← heq]; exact htop
  · exact hswo.not_lt_trans
      (iterator_range.sorted_positions mem hswo r hsorted r.first p (le_refl _) hlt' hp2) htop

/-- One increment of a cursor satisfying the invariant whose active region is
`x :: l`: it returns, the invariant holds again, the cell dereferenced before is the
front of `x`, exactly that cell leaves the cells not yet yielded, and the active region
is either a heap of the other views together with the advanced `x`, or, when `x` has
been used up, a heap of the other views. -/
theorem merge_increment_spec {α : Type} (H : heap_algorithms iterator_range)
    (hH : H.conforming) (mem : Nat → α) {compare : α → α → Bool}
    (hswo : strict_weak_order compare) (s : merge_iterator)
    (hinv : invariant mem compare s) (x : iterator_range) (l : List iterator_range)
    (hact : s.active = x :: l) :
    ∃ s', increment H mem compare s = some s' ∧ invariant mem compare s' ∧
      s.dereference = some x.first ∧
      s.remaining.Perm (x.first :: s'.remaining) ∧
      ((x.advance_begin 1).empty = false →
        s'.active.Perm (l ++ [x.advance_begin 1]) ∧ s'.m_end = s.m_end) ∧
      ((x.advance_begin 1).empty = true → s'.active.Perm l ∧ s'.m_end + 1 = s.m_end) := by
  have hcmp := heap_compare_strict_weak_order mem hswo
  obtain ⟨hle, hheap, hall⟩ := hinv
  have hlen : s.m_end = l.length + 1 := by
    have := congrArg List.length hact
    simp only [active, List.length_take, List.length_cons] at this
    omega
  rw [hact] at hheap
  obtain ⟨rest, hpop, hperm, hrest⟩ := hH.pop_heap_spec _ x l hcmp hheap
  have hrl : rest.length = l.length := hperm.length_eq
  have hx : x.first < x.last ∧ is_sorted compare (x.elements mem) = true :=
    hall x (by rw [hact]; exact List.mem_cons_self _ _)
  have hget : (rest ++ [x])[s.m_end - 1]? = some x := by
    have : s.m_end - 1 = rest.length := by omega
    rw [this]
    simp
  have hset : (rest ++ [x]).set (s.m_end - 1) (x.advance_begin 1) =
      rest ++ [x.advance_begin 1] := by
    have : s.m_end - 1 = rest.length := by omega
    rw [this]
    simp
  have hne : s.active.isEmpty = false := by rw [hact]; rfl
  have hderef : s.dereference = some x.first := by
    have h0 : s.ranges[0]? = some x := by
      have : s.active[0]? = some x := by rw [hact]; simp
      simp only [active, List.getElem?_take] at this
      split at this
      · exact this
      · cases this
    simp [dereference, h0]
  have hrem := remaining_of_active s x l hact
  have hposx := iterator_range.positions_of_lt x hx.1
  have hrestall : ∀ r ∈ rest, r.first < r.last ∧ is_sorted compare (r.elements mem) = true :=
    fun r hr => hall r (by rw [hact]; exact List.mem_cons_of_mem _ (hperm.subset hr))
  have hx'sorted : is_sorted compare ((x.advance_begin 1).elements mem) = true :=
    iterator_range.sorted_later_start mem compare x (x.first + 1) (by omega) hx.2
  cases he : (x.advance_begin 1).empty with
  | false =>
    have hx'lt : (x.advance_begin 1).first < (x.advance_begin 1).last := by
      have := (iterator_range.empty_eq_false_iff _).1 he
      simp only [iterator_range.advance_begin] at this ⊢
      omega
    have hpp := hH.push_heap_perm (heap_compare mem compare) rest (x.advance_begin 1) hcmp hrest
    have hph := hH.push_heap_is_heap (heap_compare mem compare) rest (x.advance_begin 1)
      hcmp hrest
    have hplen : (H.push_heap (heap_compare mem compare) (rest ++ [x.advance_begin 1])).length
        = s.m_end := by
      rw [hpp.length_eq]; simp; omega
    refine ⟨{ ranges := H.push_heap (heap_compare mem compare) (rest ++ [x.advance_begin 1])
                ++ s.ranges.drop s.m_end, m_end := s.m_end }, ?_, ?_, hderef, ?_, ?_, ?_⟩
    · simp only [increment, hne, hact, hpop, hget, hset, he]
      rfl
    · have hact' : (merge_iterator.mk
          (H.push_heap (heap_compare mem compare) (rest ++ [x.advance_begin 1])
            ++ s.ranges.drop s.m_end) s.m_end).active =
          H.push_heap (heap_compare mem compare) (rest ++ [x.advance_begin 1]) := by
        simp only [active]
        exact List.take_left' hplen
      refine ⟨?_, ?_, ?_⟩
      · simp only [List.length_append, hplen]; omega
      · rw [hact']; exact hph
      · rw [hact']
        intro r hr
        rcases List.mem_append.1 (hpp.subset hr) with h1 | h1
        · exact hrestall r h1
        · rw [List.mem_singleton.1 h1]
          exact ⟨hx'lt, hx'sorted⟩
    · have hact' : (merge_iterator.mk
          (H.push_heap (heap_compare mem compare) (rest ++ [x.advance_begin 1])
            ++ s.ranges.drop s.m_end) s.m_end).active =
          H.push_heap (heap_compare mem compare) (rest ++ [x.advance_begin 1]) := by
        simp only [active]
        exact List.take_left' hplen
      rw [hrem, hposx]
      simp only [remaining, hact', List.cons_append]
      refine List.Perm.cons _ ?_
      have h1 : ((H.push_heap (heap_compare mem compare) (rest ++ [x.advance_begin 1])).map
          iterator_range.positions).flatten.Perm
          (((rest ++ [x.advance_begin 1]).map iterator_range.positions).flatten) :=
        (hpp.map _).flatten
      refine List.Perm.trans ?_ h1.symm
      simp only [List.map_append, List.flatten_append, List.map_cons, List.map_nil,
        List.flatten_cons, List.flatten_nil, List.append_nil]
      exact List.Perm.trans (List.Perm.append_left _ ((hperm.map _).flatten).symm)
        List.perm_append_comm
    · intro _
      refine ⟨?_, rfl⟩
      have hact' : (merge_iterator.mk
          (H.push_heap (heap_compare mem compare) (rest ++ [x.advance_begin 1])
            ++ s.ranges.drop s.m_end) s.m_end).active =
          H.push_heap (heap_compare mem compare) (rest ++ [x.advance_begin 1]) := by
        simp only [active]
        exact List.take_left' hplen
      rw [hact']
      exact hpp.trans (List.Perm.append_right _ hperm)
    · intro h; exact absurd h (by simp)
  | true =>
    have hx'eq : x.first + 1 = x.last := by
      have := (iterator_range.empty_iff _).1 he
      simpa [iterator_range.advance_begin] using this
    have hact' : (merge_iterator.mk (rest ++ [x.advance_begin 1] ++ s.ranges.drop s.m_end)
        (s.m_end - 1)).active = rest := by
      simp only [active, List.append_assoc]
      exact List.take_left' (by omega)
    refine ⟨{ ranges := rest ++ [x.advance_begin 1] ++ s.ranges.drop s.m_end,
              m_end := s.m_end - 1 }, ?_, ?_, hderef, ?_, ?_, ?_⟩
    · simp only [increment, hne, hact, hpop, hget, hset, he]
      rfl
    · refine ⟨?_, ?_, ?_⟩
      · simp only [List.length_append]; omega
      · rw [hact']; exact hrest
      · rw [hact']; exact hrestall
    · rw [hrem, hposx]
      simp only [remaining, hact', List.cons_append]
      refine List.Perm.cons _ ?_
      have : (x.advance_begin 1).positions = [] :=
        iterator_range.positions_of_le _ (by
          simp only [iterator_range.advance_begin]; omega)
      rw [this, List.nil_append]
      exact ((hperm.map _).flatten).symm
    · intro h; exact absurd h (by simp)
    · intro _
      rw [hact']
      exact ⟨hperm, by simp only; omega⟩

end burst.merge_iterator

namespace boost.iterator_range

theorem positions_of_empty (r : iterator_range) (h : r.empty = true) : r.positions = [] :=
  positions_of_le r (by have := (empty_iff r).1 h; omega)

/-- Empty views hold no cells, so removing them loses none. -/
theorem flatten_positions_filter :
    ∀ ranges : List iterator_range,
      ((ranges.filter fun r => !r.empty).map positions).flatten = (ranges.map positions).flatten
  | [] => rfl
  | r :: rest => by
    cases he : r.empty with
    | true =>
      simp [List.filter_cons, he, positions_of_empty r he, flatten_positions_filter rest]
    | false =>
      simp [List.filter_cons, he, flatten_positions_filter rest]

theorem length_flatten_positions :
    ∀ ranges : List iterator_range,
      ((ranges.map positions).flatten).length = (ranges.map size).sum
  | [] => rfl
  | r :: rest => by
    simp [length_positions, length_flatten_positions rest]

theorem map_flatten_positions {α : Type} (mem : Nat → α) (ranges : List iterator_range) :
    ((ranges.map positions).flatten).map mem = (ranges.map (elements mem)).flatten := by
  simp only [List.map_flatten, List.map_map]
  rfl

end boost.iterator_range

namespace burst.merge_iterator

/-- After construction the active region is the heap made of the non-empty views. -/
theorem active_make {α : Type} (H : heap_algorithms iterator_range) (hH : H.conforming)
    (mem : Nat → α) {compare : α → α → Bool} (hswo : strict_weak_order compare)
    (ranges : List iterator_range) :
    (make H mem compare ranges).active =
        H.make_heap (heap_compare mem compare) (ranges.filter fun r => !r.empty) ∧
      (make H mem compare ranges).m_end ≤ (make H mem compare ranges).ranges.length := by
  have hcmp := heap_compare_strict_weak_order mem hswo
  have h0 : (merge_iterator.mk ranges ranges.length).active = ranges := by
    simp [active]
  have h1 : (remove_empty_ranges ⟨ranges, ranges.length⟩).active =
      ranges.filter fun r => !r.empty := by
    simp only [remove_empty_ranges, remove_if, active, List.take_length, List.append_assoc]
    exact List.take_left' rfl
  have h2 : (remove_empty_ranges ⟨ranges, ranges.length⟩).m_end =
      (ranges.filter fun r => !r.empty).length := by
    simp only [remove_empty_ranges, remove_if, active, List.take_length]
  have hlen := (hH.make_heap_perm (heap_compare mem compare)
    (ranges.filter fun r => !r.empty) hcmp).length_eq
  constructor
  · show List.take (remove_empty_ranges ⟨ranges, ranges.length⟩).m_end
        (H.make_heap (heap_compare mem compare)
            (remove_empty_ranges ⟨ranges, ranges.length⟩).active ++ _) = _
    rw [h1, h2]
    exact List.take_left' hlen
  · show (remove_empty_ranges ⟨ranges, ranges.length⟩).m_end ≤
        (H.make_heap (heap_compare mem compare)
            (remove_empty_ranges ⟨ranges, ranges.length⟩).active ++ _).length
    rw [h1, h2, List.length_append, hlen]
    omega

/-- The freshly constructed cursor satisfies the invariant, and the cells it has yet to
yield are exactly the cells of the input views. -/
theorem merge_make_spec {α : Type} (H : heap_algorithms iterator_range) (hH : H.conforming)
    (mem : Nat → α) {compare : α → α → Bool} (hswo : strict_weak_order compare)
    (ranges : List iterator_range)
    (hranges : ∀ r ∈ ranges, r.first ≤ r.last ∧ is_sorted compare (r.elements mem) = true) :
    invariant mem compare (make H mem compare ranges) ∧
      (make H mem compare ranges).remaining.Perm (ranges.map iterator_range.positions).flatten := by
  have hcmp := heap_compare_strict_weak_order mem hswo
  obtain ⟨hact, hle⟩ := active_make H hH mem hswo ranges
  have hperm := hH.make_heap_perm (heap_compare mem compare)
    (ranges.filter fun r => !r.empty) hcmp
  refine ⟨⟨hle, ?_, ?_⟩, ?_⟩
  · rw [hact]
    exact hH.make_heap_is_heap _ _ hcmp
  · rw [hact]
    intro r hr
    have hr' := hperm.subset hr
    rw [List.mem_filter] at hr'
    obtain ⟨hwf, hsorted⟩ := hranges r hr'.1
    have hne : r.empty = false := by simpa using hr'.2
    have := (iterator_range.empty_eq_false_iff r).1 hne
    exact ⟨by omega, hsorted⟩
  · simp only [remaining, hact]
    rw [← iterator_range.flatten_positions_filter ranges]
    exact (hperm.map _).flatten

theorem remaining_eq_nil_of_active (s : merge_iterator) (h : s.active = []) :
    s.remaining = [] := by
  simp [remaining, h]

/-- Traversing a cursor that satisfies the invariant returns; the addresses yielded are
exactly the cells not yet yielded, each once, and no yielded element is ordered before
an element yielded earlier. -/
theorem merge_traverse_loop_spec {α : Type} (H : heap_algorithms iterator_range)
    (hH : H.conforming) (mem : Nat → α) {compare : α → α → Bool}
    (hswo : strict_weak_order compare) :
    ∀ (fuel : Nat) (s : merge_iterator), invariant mem compare s →
      s.remaining.length ≤ fuel →
      ∃ out, traverse_loop H mem compare fuel s = some out ∧ out.Perm s.remaining ∧
        (out.map mem).Pairwise (fun a b => compare b a = false) := by
  intro fuel
  induction fuel with
  | zero =>
    intro s hinv hfuel
    cases hact : s.active with
    | nil =>
      refine ⟨[], by simp [traverse_loop, hact], ?_, List.Pairwise.nil⟩
      rw [remaining_eq_nil_of_active s hact]
    | cons x l =>
      exfalso
      have hx := hinv.2.2 x (by rw [hact]; exact List.mem_cons_self _ _)
      rw [remaining_of_active s x l hact, iterator_range.positions_of_lt x hx.1] at hfuel
      simp at hfuel
  | succ fuel ih =>
    intro s hinv hfuel
    cases hact : s.active with
    | nil =>
      refine ⟨[], by simp [traverse_loop, hact], ?_, List.Pairwise.nil⟩
      rw [remaining_eq_nil_of_active s hact]
    | cons x l =>
      obtain ⟨s', h1, h2, h3, h4, _, _⟩ := merge_increment_spec H hH mem hswo s hinv x l hact
      have hlen := h4.length_eq
      simp only [List.length_cons] at hlen
      obtain ⟨rest, hr1, hr2, hr3⟩ := ih s' h2 (by omega)
      have hmin := top_is_minimum mem hswo s hinv x l hact
      refine ⟨x.first :: rest, ?_, ?_, ?_⟩
      · simp [traverse_loop, hact, h3, h1, hr1]
      · exact (List.Perm.cons _ hr2).trans h4.symm
      · rw [List.map_cons]
        refine List.Pairwise.cons ?_ hr3
        intro b hb
        obtain ⟨q, hq, rfl⟩ := List.mem_map.1 hb
        have hq' : q ∈ s.remaining :=
          h4.symm.subset (List.mem_cons_of_mem _ (hr2.subset hq))
        simp only [remaining, List.mem_flatten, List.mem_map] at hq'
        obtain ⟨ps, ⟨r, hr, rfl⟩, hqr⟩ := hq'
        exact hmin r hr q hqr

/-- Constructing the cursor over sorted views and traversing it returns; the addresses
yielded are a permutation of the cells of the views, and no yielded element is ordered
before an element yielded earlier. -/
theorem merge_traverse_spec {α : Type} (H : heap_algorithms iterator_range) (hH : H.conforming)
    (mem : Nat → α) {compare : α → α → Bool} (hswo : strict_weak_order compare)
    (ranges : List iterator_range)
    (hranges : ∀ r ∈ ranges, r.first ≤ r.last ∧ is_sorted compare (r.elements mem) = true) :
    ∃ out, traverse H mem compare ranges = some out ∧
      out.Perm (ranges.map iterator_range.positions).flatten ∧
      (out.map mem).Pairwise (fun a b => compare b a = false) := by
  obtain ⟨hinv, hperm⟩ := merge_make_spec H hH mem hswo ranges hranges
  obtain ⟨out, h1, h2, h3⟩ :=
    merge_traverse_loop_spec H hH mem hswo (ranges.map iterator_range.size).sum _ hinv (by
      rw [hperm.length_eq, iterator_range.length_flatten_positions])
  exact ⟨out, h1, h2.trans hperm, h3⟩

/-- Every successful increment preserves the invariant. -/
theorem invariant_increment {α : Type} (H : heap_algorithms iterator_range)
    (hH : H.conforming) (mem : Nat → α) {compare : α → α → Bool}
    (hswo : strict_weak_order compare) (s s' : merge_iterator)
    (hinv : invariant mem compare s) (h : increment H mem compare s = some s') :
    invariant mem compare s' := by
  cases hact : s.active with
  | nil => simp [increment, hact] at h
  | cons x l =>
    obtain ⟨t, h1, h2, _⟩ := merge_increment_spec H hH mem hswo s hinv x l hact
    rw [h1] at h
    cases h
    exact h2

theorem invariant_advance {α : Type} (H : heap_algorithms iterator_range)
    (hH : H.conforming) (mem : Nat → α) {compare : α → α → Bool}
    (hswo : strict_weak_order compare) :
    ∀ (k : Nat) (s s' : merge_iterator), invariant mem compare s →
      advance H mem compare k s = some s' → invariant mem compare s'
  | 0, s, s', hinv, h => by
    simp only [advance] at h
    cases h
    exact hinv
  | k + 1, s, s', hinv, h => by
    simp only [advance] at h
    cases hi : increment H mem compare s with
    | none => rw [hi] at h; simp at h
    | some t =>
      rw [hi] at h
      simp only [Option.some_bind] at h
      exact invariant_advance H hH mem hswo k t s' (invariant_increment H hH mem hswo s t hinv hi) h

/-- As long as cells remain, increments succeed, and each removes exactly one cell. -/
theorem advance_spec {α : Type} (H : heap_algorithms iterator_range)
    (hH : H.conforming) (mem : Nat → α) {compare : α → α → Bool}
    (hswo : strict_weak_order compare) :
    ∀ (k : Nat) (s : merge_iterator), invariant mem compare s → k ≤ s.remaining.length →
      ∃ s', advance H mem compare k s = some s' ∧ invariant mem compare s' ∧
        s'.remaining.length + k = s.remaining.length
  | 0, s, hinv, _ => ⟨s, rfl, hinv, rfl⟩
  | k + 1, s, hinv, hk => by
    cases hact : s.active with
    | nil =>
      rw [remaining_eq_nil_of_active s hact] at hk
      simp at hk
    | cons x l =>
      obtain ⟨t, h1, h2, _, h4, _, _⟩ := merge_increment_spec H hH mem hswo s hinv x l hact
      have hlen := h4.length_eq
      simp only [List.length_cons] at hlen
      obtain ⟨s', h5, h6, h7⟩ := advance_spec H hH mem hswo k t h2 (by omega)
      refine ⟨s', ?_, h6, by omega⟩
      simp only [advance, h1, Option.some_bind]
      exact h5

/-- Under the invariant the active region is empty exactly when no cell remains. -/
theorem active_eq_nil_iff {α : Type} (mem : Nat → α) (compare : α → α → Bool)
    (s : merge_iterator) (hinv : invariant mem compare s) :
    s.active = [] ↔ s.remaining.length = 0 := by
  constructor
  · intro h
    rw [remaining_eq_nil_of_active s h]
    rfl
  · intro h
    cases hact : s.active with
    | nil => rfl
    | cons x l =>
      exfalso
      have hx := hinv.2.2 x (by rw [hact]; exact List.mem_cons_self _ _)
      rw [remaining_of_active s x l hact, iterator_range.positions_of_lt x hx.1] at h
      simp at h

/-- Comparing with the end cursor tests whether the active region is empty. -/
theorem equal_make_end {α : Type} [DecidableEq α] (mem : Nat → α)
    (s begin : merge_iterator) :
    equal mem s (make_end begin) = s.active.isEmpty := by
  simp only [equal, make_end, active, List.take_zero]
  cases h : List.take s.m_end s.ranges with
  | nil => rfl
  | cons a t => rfl

end burst.merge_iterator

namespace thrust

/-- C8 at the sorted range `[1,2,3,5,8]` and the goal 4: the range becomes `[5,8]`. -/
theorem skip_to_lower_bound_suffix_witness :
    strict_weak_order less ∧
    is_sorted less ((⟨0, 5⟩ : iterator_range).elements (memory_of [1, 2, 3, 5, 8])) = true ∧
    skip_to (memory_of [1, 2, 3, 5, 8]) ⟨0, 5⟩ 4 less = some ⟨3, 5⟩ ∧
    ∃ result, skip_to (memory_of [1, 2, 3, 5, 8]) ⟨0, 5⟩ 4 less = some result ∧
      result.last = (⟨0, 5⟩ : iterator_range).last ∧
      (⟨0, 5⟩ : iterator_range).first ≤ result.first ∧
      result.first ≤ (⟨0, 5⟩ : iterator_range).last ∧
      (∀ i, (⟨0, 5⟩ : iterator_range).first ≤ i → i < result.first →
        less (memory_of [1, 2, 3, 5, 8] i) 4 = true) ∧
      (result.empty = true ∨ less (result.front (memory_of [1, 2, 3, 5, 8])) 4 = false) ∧
      (∀ i, (⟨0, 5⟩ : iterator_range).first ≤ i → i < (⟨0, 5⟩ : iterator_range).last →
        less (memory_of [1, 2, 3, 5, 8] i) 4 = false → result.first ≤ i) ∧
      result.elements (memory_of [1, 2, 3, 5, 8]) =
        ((⟨0, 5⟩ : iterator_range).elements (memory_of [1, 2, 3, 5, 8])).drop
          (result.first - (⟨0, 5⟩ : iterator_range).first) :=
  ⟨less_strict_weak_order, by decide, by decide,
    skip_to_lower_bound_suffix (memory_of [1, 2, 3, 5, 8]) less less_strict_weak_order
      ⟨0, 5⟩ 4 (by decide) (by decide)⟩

end thrust

namespace burst.merge_iterator

/-- C2: over any finite collection of well-formed views sorted under the comparator
(empty views allowed), with heap algorithms meeting their contract, constructing the
merge cursor and traversing it to its end returns; the addresses yielded are a
permutation of the cells of all views, so the elements yielded are a permutation of
the concatenation of the views. -/
theorem merge_is_permutation {α : Type} (H : heap_algorithms iterator_range)
    (hH : H.conforming) (mem : Nat → α) (compare : α → α → Bool)
    (hswo : strict_weak_order compare) (ranges : List iterator_range)
    (hranges : ∀ r ∈ ranges, r.first ≤ r.last ∧ is_sorted compare (r.elements mem) = true) :
    ∃ out, traverse H mem compare ranges = some out ∧
      out.Perm (ranges.map iterator_range.positions).flatten ∧
      (out.map mem).Perm (ranges.map (iterator_range.elements mem)).flatten := by
  obtain ⟨out, h1, h2, _⟩ := merge_traverse_spec H hH mem hswo ranges hranges
  refine ⟨out, h1, h2, ?_⟩
  rw [← iterator_range.map_flatten_positions]
  exact h2.map mem

/-- C2 at the views `[1,4,7]`, `[]`, `[2,3,9]`, `[]`. -/
theorem merge_is_permutation_witness :
    (reference_heap iterator_range).conforming ∧ strict_weak_order less ∧
    (∀ r ∈ [(⟨0, 3⟩ : iterator_range), ⟨3, 3⟩, ⟨3, 6⟩, ⟨2, 2⟩],
      r.first ≤ r.last ∧ is_sorted less (r.elements (memory_of [1, 4, 7, 2, 3, 9])) = true) ∧
    traverse (reference_heap iterator_range) (memory_of [1, 4, 7, 2, 3, 9]) less
      [⟨0, 3⟩, ⟨3, 3⟩, ⟨3, 6⟩, ⟨2, 2⟩] = some [0, 3, 4, 1, 2, 5] ∧
    ∃ out, traverse (reference_heap iterator_range) (memory_of [1, 4, 7, 2, 3, 9]) less
        [⟨0, 3⟩, ⟨3, 3⟩, ⟨3, 6⟩, ⟨2, 2⟩] = some out ∧
      out.Perm (([(⟨0, 3⟩ : iterator_range), ⟨3, 3⟩, ⟨3, 6⟩, ⟨2, 2⟩].map
        iterator_range.positions).flatten) ∧
      (out.map (memory_of [1, 4, 7, 2, 3, 9])).Perm
        (([(⟨0, 3⟩ : iterator_range), ⟨3, 3⟩, ⟨3, 6⟩, ⟨2, 2⟩].map
          (iterator_range.elements (memory_of [1, 4, 7, 2, 3, 9]))).flatten) :=
  ⟨reference_heap_conforming _, less_strict_weak_order, by decide, by decide,
    merge_is_permutation (reference_heap iterator_range) (reference_heap_conforming _)
      (memory_of [1, 4, 7, 2, 3, 9]) less less_strict_weak_order
      [⟨0, 3⟩, ⟨3, 3⟩, ⟨3, 6⟩, ⟨2, 2⟩] (by decide)⟩

/-- C3: over any finite collection of well-formed views sorted under a strict weak
order, with heap algorithms meeting their contract, the traversal of the merge cursor
returns and the sequence yielded is globally sorted: no yielded element is ordered
before an element yielded earlier. -/
theorem merge_is_sorted {α : Type} (H : heap_algorithms iterator_range)
    (hH : H.conforming) (mem : Nat → α) (compare : α → α → Bool)
    (hswo : strict_weak_order compare) (ranges : List iterator_range)
    (hranges : ∀ r ∈ ranges, r.first ≤ r.last ∧ is_sorted compare (r.elements mem) = true) :
    ∃ out, traverse H mem compare ranges = some out ∧
      (out.map mem).Pairwise (fun earlier later => compare later earlier = false) ∧
      is_sorted compare (out.map mem) = true := by
  obtain ⟨out, h1, _, h3⟩ := merge_traverse_spec H hH mem hswo ranges hranges
  exact ⟨out, h1, h3, pairwise_is_sorted _ h3⟩

/-- C3 at the views `[1,4,7]` and `[2,3,9]`: the merge is `[1,2,3,4,7,9]`. -/
theorem merge_is_sorted_witness :
    (traverse (reference_heap iterator_range) (memory_of [1, 4, 7, 2, 3, 9]) less
      [⟨0, 3⟩, ⟨3, 6⟩]).map (fun out => out.map (memory_of [1, 4, 7, 2, 3, 9])) =
        some [1, 2, 3, 4, 7, 9] ∧
    ∃ out, traverse (reference_heap iterator_range) (memory_of [1, 4, 7, 2, 3, 9]) less
        [⟨0, 3⟩, ⟨3, 6⟩] = some out ∧
      (out.map (memory_of [1, 4, 7, 2, 3, 9])).Pairwise
        (fun earlier later => less later earlier = false) ∧
      is_sorted less (out.map (memory_of [1, 4, 7, 2, 3, 9])) = true :=
  ⟨by decide,
    merge_is_sorted (reference_heap iterator_range) (reference_heap_conforming _)
      (memory_of [1, 4, 7, 2, 3, 9]) less less_strict_weak_order
      [⟨0, 3⟩, ⟨3, 6⟩] (by decide)⟩

/-- C6: over well-formed sorted views holding `N` elements in total, with heap
algorithms meeting their contract, `N` increments of the freshly constructed merge
cursor succeed and make it equal to the end cursor built from it; after fewer than `N`
increments it is not equal to that end cursor; and when `N = 0` the fresh cursor equals
its end cursor at once. -/
theorem merge_reaches_end {α : Type} [DecidableEq α] (H : heap_algorithms iterator_range)
    (hH : H.conforming) (mem : Nat → α) (compare : α → α → Bool)
    (hswo : strict_weak_order compare) (ranges : List iterator_range)
    (hranges : ∀ r ∈ ranges, r.first ≤ r.last ∧ is_sorted compare (r.elements mem) = true) :
    (∃ s, advance H mem compare (ranges.map iterator_range.size).sum
        (make H mem compare ranges) = some s ∧
      equal mem s (make_end (make H mem compare ranges)) = true) ∧
    (∀ k, k < (ranges.map iterator_range.size).sum →
      ∃ s, advance H mem compare k (make H mem compare ranges) = some s ∧
        equal mem s (make_end (make H mem compare ranges)) = false) ∧
    ((ranges.map iterator_range.size).sum = 0 →
      equal mem (make H mem compare ranges) (make_end (make H mem compare ranges)) = true) := by
  obtain ⟨hinv, hperm⟩ := merge_make_spec H hH mem hswo ranges hranges
  have hN : (make H mem compare ranges).remaining.length =
      (ranges.map iterator_range.size).sum := by
    rw [hperm.length_eq, iterator_range.length_flatten_positions]
  have hall : ∃ s, advance H mem compare (ranges.map iterator_range.size).sum
        (make H mem compare ranges) = some s ∧
      equal mem s (make_end (make H mem compare ranges)) = true := by
    obtain ⟨s, h1, h2, h3⟩ := advance_spec H hH mem hswo _ _ hinv (le_of_eq hN.symm)
    refine ⟨s, h1, ?_⟩
    rw [equal_make_end, (active_eq_nil_iff mem compare s h2).2 (by omega)]
    rfl
  refine ⟨hall, ?_, ?_⟩
  · intro k hk
    obtain ⟨s, h1, h2, h3⟩ := advance_spec H hH mem hswo k _ hinv (by omega)
    refine ⟨s, h1, ?_⟩
    rw [equal_make_end]
    cases hact : s.active with
    | nil =>
      have := (active_eq_nil_iff mem compare s h2).1 hact
      omega
    | cons x l => rfl
  · intro h0
    obtain ⟨s, h1, h2⟩ := hall
    rw [h0] at h1
    simp only [advance] at h1
    cases h1
    exact h2

/-- C6 at the views `[1,4,7]`, `[]`, `[2,3,9]` (six elements). -/
theorem merge_reaches_end_witness :
    ([(⟨0, 3⟩ : iterator_range), ⟨3, 3⟩, ⟨3, 6⟩].map iterator_range.size).sum = 6 ∧
    (∃ s, advance (reference_heap iterator_range) (memory_of [1, 4, 7, 2, 3, 9]) less
        ([(⟨0, 3⟩ : iterator_range), ⟨3, 3⟩, ⟨3, 6⟩].map iterator_range.size).sum
        (make (reference_heap iterator_range) (memory_of [1, 4, 7, 2, 3, 9]) less
          [⟨0, 3⟩, ⟨3, 3⟩, ⟨3, 6⟩]) = some s ∧
      equal (memory_of [1, 4, 7, 2, 3, 9]) s
        (make_end (make (reference_heap iterator_range) (memory_of [1, 4, 7, 2, 3, 9]) less
          [⟨0, 3⟩, ⟨3, 3⟩, ⟨3, 6⟩])) = true) ∧
    (∀ k, k < ([(⟨0, 3⟩ : iterator_range), ⟨3, 3⟩, ⟨3, 6⟩].map iterator_range.size).sum →
      ∃ s, advance (reference_heap iterator_range) (memory_of [1, 4, 7, 2, 3, 9]) less k
          (make (reference_heap iterator_range) (memory_of [1, 4, 7, 2, 3, 9]) less
            [⟨0, 3⟩, ⟨3, 3⟩, ⟨3, 6⟩]) = some s ∧
        equal (memory_of [1, 4, 7, 2, 3, 9]) s
          (make_end (make (reference_heap iterator_range) (memory_of [1, 4, 7, 2, 3, 9]) less
            [⟨0, 3⟩, ⟨3, 3⟩, ⟨3, 6⟩])) = false) ∧
    (([(⟨0, 3⟩ : iterator_range), ⟨3, 3⟩, ⟨3, 6⟩].map iterator_range.size).sum = 0 →
      equal (memory_of [1, 4, 7, 2, 3, 9])
        (make (reference_heap iterator_range) (memory_of [1, 4, 7, 2, 3, 9]) less
          [⟨0, 3⟩, ⟨3, 3⟩, ⟨3, 6⟩])
        (make_end (make (reference_heap iterator_range) (memory_of [1, 4, 7, 2, 3, 9]) less
          [⟨0, 3⟩, ⟨3, 3⟩, ⟨3, 6⟩])) = true) :=
  ⟨by decide,
    merge_reaches_end (reference_heap iterator_range) (reference_heap_conforming _)
      (memory_of [1, 4, 7, 2, 3, 9]) less less_strict_weak_order
      [⟨0, 3⟩, ⟨3, 3⟩, ⟨3, 6⟩] (by decide)⟩

/-- C7: in every state reached from a merge cursor constructed over well-formed sorted
views by any number of successful increments, if the active region is non-empty then
`dereference` refers to the front of the view stored first in the active region, that
view is non-empty, and no cell of any active view holds an element ordered before the
element referred to. -/
theorem merge_dereference_is_minimum {α : Type} (H : heap_algorithms iterator_range)
    (hH : H.conforming) (mem : Nat → α) (compare : α → α → Bool)
    (hswo : strict_weak_order compare) (ranges : List iterator_range)
    (hranges : ∀ r ∈ ranges, r.first ≤ r.last ∧ is_sorted compare (r.elements mem) = true)
    (k : Nat) (s : merge_iterator)
    (hreach : advance H mem compare k (make H mem compare ranges) = some s)
    (hne : s.active ≠ []) :
    ∃ top, s.active[0]? = some top ∧ s.dereference = some top.first ∧
      top.first < top.last ∧
      ∀ r ∈ s.active, ∀ p ∈ r.positions, compare (mem p) (mem top.first) = false := by
  have hinv := invariant_advance H hH mem hswo k _ s
    (merge_make_spec H hH mem hswo ranges hranges).1 hreach
  cases hact : s.active with
  | nil => exact absurd hact hne
  | cons x l =>
    obtain ⟨_, _, _, h3, _⟩ := merge_increment_spec H hH mem hswo s hinv x l hact
    have hx := hinv.2.2 x (by rw [hact]; exact List.mem_cons_self _ _)
    refine ⟨x, by simp, h3, hx.1, ?_⟩
    have := top_is_minimum mem hswo s hinv x l hact
    rw [hact] at this
    exact this

/-- C7 at the views `[1,4,7]` and `[2,3,9]` after two increments: the cursor refers to
address 4, which holds 3. -/
theorem merge_dereference_is_minimum_witness :
    advance (reference_heap iterator_range) (memory_of [1, 4, 7, 2, 3, 9]) less 2
      (make (reference_heap iterator_range) (memory_of [1, 4, 7, 2, 3, 9]) less
        [⟨0, 3⟩, ⟨3, 6⟩]) = some ⟨[⟨4, 6⟩, ⟨1, 3⟩], 2⟩ ∧
    ∃ top, (merge_iterator.mk [⟨4, 6⟩, ⟨1, 3⟩] 2).active[0]? = some top ∧
      (merge_iterator.mk [⟨4, 6⟩, ⟨1, 3⟩] 2).dereference = some top.first ∧
      top.first < top.last ∧
      ∀ r ∈ (merge_iterator.mk [⟨4, 6⟩, ⟨1, 3⟩] 2).active, ∀ p ∈ r.positions,
        less (memory_of [1, 4, 7, 2, 3, 9] p) (memory_of [1, 4, 7, 2, 3, 9] top.first) = false :=
  ⟨by decide,
    merge_dereference_is_minimum (reference_heap iterator_range) (reference_heap_conforming _)
      (memory_of [1, 4, 7, 2, 3, 9]) less less_strict_weak_order
      [⟨0, 3⟩, ⟨3, 6⟩] (by decide) 2 ⟨[⟨4, 6⟩, ⟨1, 3⟩], 2⟩ (by decide) (by decide)⟩

end burst.merge_iterator

namespace burst.difference_iterator

/-- Every state reached by increments from a settled cursor with well-formed ranges and
a sorted subtrahend is again settled, with well-formed ranges that end where they did
and a sorted subtrahend. -/
theorem difference_advance_spec {α : Type} (mem : Nat → α) {compare : α → α → Bool}
    (hswo : strict_weak_order compare) :
    ∀ (k : Nat) (s s' : difference_iterator),
      s.m_minuend.first ≤ s.m_minuend.last →
      s.m_subtrahend.first ≤ s.m_subtrahend.last →
      is_sorted compare (s.m_subtrahend.elements mem) = true →
      settle_condition mem compare s = false →
      advance mem compare k s = some s' →
      s'.m_minuend.first ≤ s'.m_minuend.last ∧
      s'.m_subtrahend.first ≤ s'.m_subtrahend.last ∧
      is_sorted compare (s'.m_subtrahend.elements mem) = true ∧
      settle_condition mem compare s' = false ∧
      s'.m_minuend.last = s.m_minuend.last ∧ s'.m_subtrahend.last = s.m_subtrahend.last ∧
      s.m_minuend.first + k ≤ s'.m_minuend.first ∧
      s.m_subtrahend.first ≤ s'.m_subtrahend.first
  | 0, s, s', hm, hs, hsorted, hc, h => by
    simp only [advance, Option.some.injEq] at h
    subst h
    exact ⟨hm, hs, hsorted, hc, rfl, rfl, le_refl _, le_refl _⟩
  | k + 1, s, s', hm, hs, hsorted, hc, h => by
    cases hme : s.m_minuend.empty with
    | true => simp [advance, hme] at h
    | false =>
      have hlt : s.m_minuend.first < s.m_minuend.last := by
        have := (iterator_range.empty_eq_false_iff _).1 hme
        omega
      obtain ⟨t, h1, h2, h3, h4, h5, h6, h7, h8, _⟩ :=
        difference_increment_spec mem hswo s hlt hs hsorted
      have hsorted' : is_sorted compare (t.m_subtrahend.elements mem) = true := by
        have := iterator_range.sorted_later_start mem compare s.m_subtrahend
          t.m_subtrahend.first h7 hsorted
        rw [← h4] at this
        exact this
      simp only [advance, hme, h1, Option.some_bind] at h
      obtain ⟨g1, g2, g3, g4, g5, g6, g7, g8⟩ :=
        difference_advance_spec mem hswo k t s' h6 h8 hsorted' h2 h
      exact ⟨g1, g2, g3, g4, by omega, by omega, by omega, by omega⟩

/-- Comparing with the default-constructed end cursor tests whether the minuend holds
no element. -/
theorem equal_make_end_iff {α : Type} [DecidableEq α] (mem : Nat → α)
    (s : difference_iterator) (hm : s.m_minuend.first ≤ s.m_minuend.last) :
    equal mem s make_end = true ↔ s.m_minuend.empty = true := by
  have hend : (make_end.m_minuend).elements mem = [] :=
    iterator_range.elements_of_le mem _ (le_refl _)
  simp only [equal, iterator_range.equal, hend, decide_eq_true_eq]
  rw [iterator_range.empty_iff]
  constructor
  · intro h
    have := congrArg List.length h
    rw [iterator_range.length_elements, iterator_range.size] at this
    simp only [List.length_nil] at this
    omega
  · intro h
    exact iterator_range.elements_of_le mem _ (by omega)

/-- C11: over well-formed ranges with a sorted subtrahend (empty or not) the constructor
returns; when the minuend is empty the cursor equals the default-constructed end cursor
at once; and every cursor reached from the constructed one by increments equals the end
cursor exactly when its minuend is empty. -/
theorem difference_equal_end_iff {α : Type} [DecidableEq α] (mem : Nat → α)
    (compare : α → α → Bool) (hswo : strict_weak_order compare)
    (minuend subtrahend : iterator_range)
    (hm : minuend.first ≤ minuend.last) (hs : subtrahend.first ≤ subtrahend.last)
    (hsorted : is_sorted compare (subtrahend.elements mem) = true) :
    ∃ s0, make mem minuend subtrahend compare = some s0 ∧
      (minuend.empty = true → equal mem s0 make_end = true) ∧
      ∀ k s, advance mem compare k s0 = some s →
        (equal mem s make_end = true ↔ s.m_minuend.empty = true) := by
  obtain ⟨s0, h1, h2, h3, h4, h5, h6, h7, h8, _⟩ :=
    difference_make_spec mem hswo minuend subtrahend hm hs hsorted
  have hsorted0 : is_sorted compare (s0.m_subtrahend.elements mem) = true := by
    have := iterator_range.sorted_later_start mem compare subtrahend
      s0.m_subtrahend.first h7 hsorted
    rw [← h4] at this
    exact this
  refine ⟨s0, h1, ?_, ?_⟩
  · intro he
    rw [equal_make_end_iff mem s0 h6, iterator_range.empty_iff]
    have := (iterator_range.empty_iff _).1 he
    omega
  · intro k s hk
    obtain ⟨g1, _⟩ := difference_advance_spec mem hswo k s0 s h6 h8 hsorted0 h2 hk
    exact equal_make_end_iff mem s g1

/-- C11 at an empty minuend with the subtrahend `[1,3]`, and at the minuend `[1,1,2,3]`
with the same subtrahend. -/
theorem difference_equal_end_iff_witness :
    (make (memory_of [1, 1, 2, 3, 1, 3]) ⟨4, 4⟩ ⟨4, 6⟩ less).map
        (fun s => equal (memory_of [1, 1, 2, 3, 1, 3]) s make_end) = some true ∧
    (∃ s0, make (memory_of [1, 1, 2, 3, 1, 3]) ⟨4, 4⟩ ⟨4, 6⟩ less = some s0 ∧
      ((⟨4, 4⟩ : iterator_range).empty = true →
        equal (memory_of [1, 1, 2, 3, 1, 3]) s0 make_end = true) ∧
      ∀ k s, advance (memory_of [1, 1, 2, 3, 1, 3]) less k s0 = some s →
        (equal (memory_of [1, 1, 2, 3, 1, 3]) s make_end = true ↔
          s.m_minuend.empty = true)) ∧
    ∃ s0, make (memory_of [1, 1, 2, 3, 1, 3]) ⟨0, 4⟩ ⟨4, 6⟩ less = some s0 ∧
      ((⟨0, 4⟩ : iterator_range).empty = true →
        equal (memory_of [1, 1, 2, 3, 1, 3]) s0 make_end = true) ∧
      ∀ k s, advance (memory_of [1, 1, 2, 3, 1, 3]) less k s0 = some s →
        (equal (memory_of [1, 1, 2, 3, 1, 3]) s make_end = true ↔
          s.m_minuend.empty = true) :=
  ⟨by decide,
    difference_equal_end_iff (memory_of [1, 1, 2, 3, 1, 3]) less less_strict_weak_order
      ⟨4, 4⟩ ⟨4, 6⟩ (by decide) (by decide) (by decide),
    difference_equal_end_iff (memory_of [1, 1, 2, 3, 1, 3]) less less_strict_weak_order
      ⟨0, 4⟩ ⟨4, 6⟩ (by decide) (by decide) (by decide)⟩

/-- The contents of a range do not depend on cells outside it. -/
theorem elements_store_outside {α : Type} (mem : Nat → α) (r : iterator_range)
    (address : Nat) (v : α) (h : address < r.first ∨ r.last ≤ address) :
    r.elements (store mem address v) = r.elements mem := by
  simp only [iterator_range.elements]
  apply List.map_congr_left
  intro p hp
  have := (iterator_range.mem_positions r p).1 hp
  have hne : p ≠ address := by omega
  simp [store, hne]

/-- C12: for a difference cursor that is not at its end, `dereference` denotes the cell
at the start of the minuend range, a cell of the minuend; after a value is written to
that cell, dereferencing again without advancing reads that value, the memory holds the
value at that address, every other cell is unchanged, and the minuend reads as the
value followed by its unchanged rest. -/
theorem difference_write_through {α : Type} (mem : Nat → α) (s : difference_iterator)
    (v : α) (hne : s.m_minuend.first < s.m_minuend.last) :
    s.dereference = s.m_minuend.first ∧
    mem s.dereference = s.m_minuend.front mem ∧
    s.dereference ∈ s.m_minuend.positions ∧
    s.m_minuend.front (store mem s.dereference v) = v ∧
    store mem s.dereference v s.dereference = v ∧
    (∀ i, i ≠ s.dereference → store mem s.dereference v i = mem i) ∧
    s.m_minuend.elements (store mem s.dereference v) =
      v :: (s.m_minuend.advance_begin 1).elements mem := by
  refine ⟨rfl, rfl, ?_, ?_, ?_, ?_, ?_⟩
  · rw [iterator_range.mem_positions]
    simp only [dereference]
    omega
  · simp [iterator_range.front, dereference, store]
  · simp [store]
  · intro i hi
    simp [store, hi]
  · rw [iterator_range.elements_of_lt _ _ hne,
      elements_store_outside mem (s.m_minuend.advance_begin 1) s.dereference v (by
        left
        simp only [dereference, iterator_range.advance_begin]
        omega)]
    simp [iterator_range.front, dereference, store]

/-- C12 at the cursor over `[1,1,2,3]` minus `[1,3]` standing at address 1, writing 9. -/
theorem difference_write_through_witness :
    (⟨⟨1, 4⟩, ⟨5, 6⟩⟩ : difference_iterator).dereference = 1 ∧
    (List.range 6).map (store (memory_of [1, 1, 2, 3, 1, 3]) 1 9) = [1, 9, 2, 3, 1, 3] ∧
    ((⟨⟨1, 4⟩, ⟨5, 6⟩⟩ : difference_iterator).dereference =
        (⟨⟨1, 4⟩, ⟨5, 6⟩⟩ : difference_iterator).m_minuend.first ∧
      memory_of [1, 1, 2, 3, 1, 3] (⟨⟨1, 4⟩, ⟨5, 6⟩⟩ : difference_iterator).dereference =
        (⟨⟨1, 4⟩, ⟨5, 6⟩⟩ : difference_iterator).m_minuend.front
          (memory_of [1, 1, 2, 3, 1, 3]) ∧
      (⟨⟨1, 4⟩, ⟨5, 6⟩⟩ : difference_iterator).dereference ∈
        (⟨⟨1, 4⟩, ⟨5, 6⟩⟩ : difference_iterator).m_minuend.positions ∧
      (⟨⟨1, 4⟩, ⟨5, 6⟩⟩ : difference_iterator).m_minuend.front
        (store (memory_of [1, 1, 2, 3, 1, 3])
          (⟨⟨1, 4⟩, ⟨5, 6⟩⟩ : difference_iterator).dereference 9) = 9 ∧
      store (memory_of [1, 1, 2, 3, 1, 3])
        (⟨⟨1, 4⟩, ⟨5, 6⟩⟩ : difference_iterator).dereference 9
        (⟨⟨1, 4⟩, ⟨5, 6⟩⟩ : difference_iterator).dereference = 9 ∧
      (∀ i, i ≠ (⟨⟨1, 4⟩, ⟨5, 6⟩⟩ : difference_iterator).dereference →
        store (memory_of [1, 1, 2, 3, 1, 3])
          (⟨⟨1, 4⟩, ⟨5, 6⟩⟩ : difference_iterator).dereference 9 i =
          memory_of [1, 1, 2, 3, 1, 3] i) ∧
      (⟨⟨1, 4⟩, ⟨5, 6⟩⟩ : difference_iterator).m_minuend.elements
        (store (memory_of [1, 1, 2, 3, 1, 3])
          (⟨⟨1, 4⟩, ⟨5, 6⟩⟩ : difference_iterator).dereference 9) =
        9 :: ((⟨⟨1, 4⟩, ⟨5, 6⟩⟩ : difference_iterator).m_minuend.advance_begin 1).elements
          (memory_of [1, 1, 2, 3, 1, 3])) :=
  ⟨by decide, by decide,
    difference_write_through (memory_of [1, 1, 2, 3, 1, 3]) ⟨⟨1, 4⟩, ⟨5, 6⟩⟩ 9 (by decide)⟩

/-- Whatever `maintain_invariant` returns has an empty subtrahend whenever its minuend is
empty. -/
theorem maintain_invariant_canonical {α : Type} (mem : Nat → α) (compare : α → α → Bool)
    (s s' : difference_iterator) (h : maintain_invariant mem compare s = some s') :
    s'.m_minuend.empty = true → s'.m_subtrahend.empty = true := by
  cases hme : s.m_minuend.empty with
  | true =>
    simp only [maintain_invariant, hme, if_true, Option.some.injEq] at h
    subst h
    intro _
    simp [iterator_range.empty]
  | false =>
    have hmin : s'.m_minuend = s.m_minuend := by
      simp only [maintain_invariant, hme, Bool.false_eq_true, if_false] at h
      cases hc : (!s.m_subtrahend.empty
          && compare (s.m_subtrahend.front mem) (s.m_minuend.front mem)) with
      | true =>
        simp only [hc, if_true] at h
        cases hsk : skip_to_lower_bound mem s.m_subtrahend (s.m_minuend.front mem) compare with
        | none => simp [hsk] at h
        | some sub =>
          simp only [hsk, Option.bind_eq_bind, Option.some_bind, Option.some.injEq] at h
          subst h
          rfl
      | false =>
        simp only [hc, Bool.false_eq_true, if_false, Option.some.injEq] at h
        subst h
        rfl
    intro he
    rw [hmin, hme] at he
    exact absurd he (by decide)

/-- The loop of `settle` keeps "the subtrahend is empty whenever the minuend is". -/
theorem settle_loop_canonical {α : Type} (mem : Nat → α) (compare : α → α → Bool) :
    ∀ (fuel : Nat) (s s' : difference_iterator),
      (s.m_minuend.empty = true → s.m_subtrahend.empty = true) →
      settle_loop mem compare fuel s = some s' →
      s'.m_minuend.empty = true → s'.m_subtrahend.empty = true
  | 0, s, s', hs, h => by
    cases hc : settle_condition mem compare s with
    | true => simp [settle_loop, hc] at h
    | false =>
      simp only [settle_loop, hc, Bool.false_eq_true, if_false, Option.some.injEq] at h
      subst h
      exact hs
  | fuel + 1, s, s', hs, h => by
    cases hc : settle_condition mem compare s with
    | false =>
      simp only [settle_loop, hc, Bool.false_eq_true, if_false, Option.some.injEq] at h
      subst h
      exact hs
    | true =>
      simp only [settle_loop, hc, if_true] at h
      cases hb : settle_body mem compare s with
      | none => simp [hb] at h
      | some t =>
        simp only [hb, Option.some_bind] at h
        have ht : t.m_minuend.empty = true → t.m_subtrahend.empty = true := by
          simp only [settle_body] at hb
          split at hb
          · exact maintain_invariant_canonical mem compare _ t hb
          · exact maintain_invariant_canonical mem compare _ t hb
        exact settle_loop_canonical mem compare fuel t s' ht h

/-- Right after construction the subtrahend is empty whenever the minuend is. -/
theorem make_canonical {α : Type} (mem : Nat → α) (compare : α → α → Bool)
    (minuend subtrahend : iterator_range) (s : difference_iterator)
    (h : make mem minuend subtrahend compare = some s) :
    s.m_minuend.empty = true → s.m_subtrahend.empty = true := by
  simp only [make] at h
  cases hmi : maintain_invariant mem compare ⟨minuend, subtrahend⟩ with
  | none => simp [hmi] at h
  | some t =>
    simp only [hmi, Option.some_bind, settle] at h
    exact settle_loop_canonical mem compare _ t s
      (maintain_invariant_canonical mem compare _ t hmi) h

/-- C16 fails after an increment: over the minuend `[1]` (address 0) and the subtrahend
`[5]` (address 1) the constructor leaves both ranges as they are, and the one increment
that reaches the end leaves the minuend empty and the subtrahend still holding 5,
because `increment` runs only `settle`, whose loop is not entered when the minuend is
empty. -/
theorem difference_end_state_after_increment :
    is_sorted less ((⟨0, 1⟩ : iterator_range).elements (memory_of [1, 5])) = true ∧
    is_sorted less ((⟨1, 2⟩ : iterator_range).elements (memory_of [1, 5])) = true ∧
    make (memory_of [1, 5]) ⟨0, 1⟩ ⟨1, 2⟩ less = some ⟨⟨0, 1⟩, ⟨1, 2⟩⟩ ∧
    advance (memory_of [1, 5]) less 1 ⟨⟨0, 1⟩, ⟨1, 2⟩⟩ = some ⟨⟨1, 1⟩, ⟨1, 2⟩⟩ ∧
    (⟨⟨1, 1⟩, ⟨1, 2⟩⟩ : difference_iterator).m_minuend.empty = true ∧
    (⟨⟨1, 1⟩, ⟨1, 2⟩⟩ : difference_iterator).m_subtrahend.empty = false ∧
    (⟨⟨1, 1⟩, ⟨1, 2⟩⟩ : difference_iterator).m_subtrahend.elements (memory_of [1, 5]) = [5] := by
  decide

/-- C17: over well-formed ranges with a sorted subtrahend the constructor returns, and
in the constructed cursor and in every cursor reached from it by increments, whenever
the minuend and the subtrahend are both non-empty the minuend's front is ordered
strictly before the subtrahend's front (and so the subtrahend's front is not ordered
before the minuend's front). -/
theorem difference_ordering_invariant {α : Type} (mem : Nat → α) (compare : α → α → Bool)
    (hswo : strict_weak_order compare) (minuend subtrahend : iterator_range)
    (hm : minuend.first ≤ minuend.last) (hs : subtrahend.first ≤ subtrahend.last)
    (hsorted : is_sorted compare (subtrahend.elements mem) = true) :
    ∃ s0, make mem minuend subtrahend compare = some s0 ∧
      ∀ k s, advance mem compare k s0 = some s →
        s.m_minuend.empty = false → s.m_subtrahend.empty = false →
        compare (s.m_minuend.front mem) (s.m_subtrahend.front mem) = true ∧
        compare (s.m_subtrahend.front mem) (s.m_minuend.front mem) = false := by
  obtain ⟨s0, h1, h2, h3, h4, h5, h6, h7, h8, _⟩ :=
    difference_make_spec mem hswo minuend subtrahend hm hs hsorted
  have hsorted0 : is_sorted compare (s0.m_subtrahend.elements mem) = true := by
    have := iterator_range.sorted_later_start mem compare subtrahend
      s0.m_subtrahend.first h7 hsorted
    rw [← h4] at this
    exact this
  refine ⟨s0, h1, ?_⟩
  intro k s hk hme hse
  obtain ⟨_, _, _, g4, _⟩ := difference_advance_spec mem hswo k s0 s h6 h8 hsorted0 h2 hk
  have hab : compare (s.m_minuend.front mem) (s.m_subtrahend.front mem) = true := by
    simpa [settle_condition, hme, hse] using g4
  exact ⟨hab, hswo.asymm hab⟩

/-- C17 at the minuend `[1,2,2,5,7]` and the subtrahend `[2,7,9]`: after one increment
the cursor stands at the second 2 (address 2) with the subtrahend at 7 (address 6). -/
theorem difference_ordering_invariant_witness :
    (make (memory_of [1, 2, 2, 5, 7, 2, 7, 9]) ⟨0, 5⟩ ⟨5, 8⟩ less).bind
        (advance (memory_of [1, 2, 2, 5, 7, 2, 7, 9]) less 1) = some ⟨⟨2, 5⟩, ⟨6, 8⟩⟩ ∧
    ∃ s0, make (memory_of [1, 2, 2, 5, 7, 2, 7, 9]) ⟨0, 5⟩ ⟨5, 8⟩ less = some s0 ∧
      ∀ k s, advance (memory_of [1, 2, 2, 5, 7, 2, 7, 9]) less k s0 = some s →
        s.m_minuend.empty = false → s.m_subtrahend.empty = false →
        less (s.m_minuend.front (memory_of [1, 2, 2, 5, 7, 2, 7, 9]))
            (s.m_subtrahend.front (memory_of [1, 2, 2, 5, 7, 2, 7, 9])) = true ∧
        less (s.m_subtrahend.front (memory_of [1, 2, 2, 5, 7, 2, 7, 9]))
            (s.m_minuend.front (memory_of [1, 2, 2, 5, 7, 2, 7, 9])) = false :=
  ⟨by decide,
    difference_ordering_invariant (memory_of [1, 2, 2, 5, 7, 2, 7, 9]) less
      less_strict_weak_order ⟨0, 5⟩ ⟨5, 8⟩ (by decide) (by decide) (by decide)⟩

end burst.difference_iterator

namespace burst.merge_iterator

/-- One increment of a cursor whose active region `x :: l` is a heap inside the outer
range, whether or not the views are sorted: it returns, the active region stays inside
the outer range and is a heap again, the cell dereferenced before is the front of `x`,
and the active region becomes a rearrangement of the other views together with the
advanced `x`, or, when `x` has been used up, of the other views alone. -/
theorem merge_increment_active {α : Type} (H : heap_algorithms iterator_range)
    (hH : H.conforming) (mem : Nat → α) {compare : α → α → Bool}
    (hswo : strict_weak_order compare) (s : merge_iterator)
    (hle : s.m_end ≤ s.ranges.length)
    (hheap : is_heap (heap_compare mem compare) s.active = true)
    (x : iterator_range) (l : List iterator_range) (hact : s.active = x :: l) :
    ∃ s', increment H mem compare s = some s' ∧
      s'.m_end ≤ s'.ranges.length ∧
      is_heap (heap_compare mem compare) s'.active = true ∧
      s.dereference = some x.first ∧
      ((x.advance_begin 1).empty = false →
        s'.active.Perm (l ++ [x.advance_begin 1]) ∧ s'.m_end = s.m_end) ∧
      ((x.advance_begin 1).empty = true → s'.active.Perm l ∧ s'.m_end + 1 = s.m_end) := by
  have hcmp := heap_compare_strict_weak_order mem hswo
  have hlen : s.m_end = l.length + 1 := by
    have := congrArg List.length hact
    simp only [active, List.length_take, List.length_cons] at this
    omega
  rw [hact] at hheap
  obtain ⟨rest, hpop, hperm, hrest⟩ := hH.pop_heap_spec _ x l hcmp hheap
  have hrl : rest.length = l.length := hperm.length_eq
  have hget : (rest ++ [x])[s.m_end - 1]? = some x := by
    have : s.m_end - 1 = rest.length := by omega
    rw [this]
    simp
  have hset : (rest ++ [x]).set (s.m_end - 1) (x.advance_begin 1) =
      rest ++ [x.advance_begin 1] := by
    have : s.m_end - 1 = rest.length := by omega
    rw [this]
    simp
  have hne : s.active.isEmpty = false := by rw [hact]; rfl
  have hderef : s.dereference = some x.first := by
    have h0 : s.ranges[0]? = some x := by
      have : s.active[0]? = some x := by rw [hact]; simp
      simp only [active, List.getElem?_take] at this
      split at this
      · exact this
      · cases this
    simp [dereference, h0]
  cases he : (x.advance_begin 1).empty with
  | false =>
    have hpp := hH.push_heap_perm (heap_compare mem compare) rest (x.advance_begin 1) hcmp hrest
    have hph := hH.push_heap_is_heap (heap_compare mem compare) rest (x.advance_begin 1)
      hcmp hrest
    have hplen : (H.push_heap (heap_compare mem compare) (rest ++ [x.advance_begin 1])).length
        = s.m_end := by
      rw [hpp.length_eq]; simp; omega
    have hact' : (merge_iterator.mk
        (H.push_heap (heap_compare mem compare) (rest ++ [x.advance_begin 1])
          ++ s.ranges.drop s.m_end) s.m_end).active =
        H.push_heap (heap_compare mem compare) (rest ++ [x.advance_begin 1]) := by
      simp only [active]
      exact List.take_left' hplen
    refine ⟨{ ranges := H.push_heap (heap_compare mem compare) (rest ++ [x.advance_begin 1])
                ++ s.ranges.drop s.m_end, m_end := s.m_end }, ?_, ?_, ?_, hderef, ?_, ?_⟩
    · simp only [increment, hne, hact, hpop, hget, hset, he]
      rfl
    · simp only [List.length_append, hplen]; omega
    · rw [hact']; exact hph
    · intro _
      rw [hact']
      exact ⟨hpp.trans (List.Perm.append_right _ hperm), rfl⟩
    · intro h; exact absurd h (by simp)
  | true =>
    have hact' : (merge_iterator.mk (rest ++ [x.advance_begin 1] ++ s.ranges.drop s.m_end)
        (s.m_end - 1)).active = rest := by
      simp only [active, List.append_assoc]
      exact List.take_left' (by omega)
    refine ⟨{ ranges := rest ++ [x.advance_begin 1] ++ s.ranges.drop s.m_end,
              m_end := s.m_end - 1 }, ?_, ?_, ?_, hderef, ?_, ?_⟩
    · simp only [increment, hne, hact, hpop, hget, hset, he]
      rfl
    · simp only [List.length_append]; omega
    · rw [hact']; exact hrest
    · intro h; exact absurd h (by simp)
    · intro _
      rw [hact']
      exact ⟨hperm, by simp only; omega⟩

/-- The freshly constructed cursor has a heap of non-empty views as its active region,
whatever the views are. -/
theorem active_invariant_make {α : Type} (H : heap_algorithms iterator_range)
    (hH : H.conforming) (mem : Nat → α) {compare : α → α → Bool}
    (hswo : strict_weak_order compare) (ranges : List iterator_range) :
    active_invariant mem compare (make H mem compare ranges) := by
  have hcmp := heap_compare_strict_weak_order mem hswo
  obtain ⟨hact, hle⟩ := active_make H hH mem hswo ranges
  refine ⟨hle, ?_, ?_⟩
  · rw [hact]
    exact hH.make_heap_is_heap _ _ hcmp
  · rw [hact]
    intro r hr
    have hr' := (hH.make_heap_perm (heap_compare mem compare)
      (ranges.filter fun r => !r.empty) hcmp).subset hr
    rw [List.mem_filter] at hr'
    simpa using hr'.2

/-- Every successful increment keeps the active region a heap of non-empty views. -/
theorem active_invariant_increment {α : Type} (H : heap_algorithms iterator_range)
    (hH : H.conforming) (mem : Nat → α) {compare : α → α → Bool}
    (hswo : strict_weak_order compare) (s s' : merge_iterator)
    (hinv : active_invariant mem compare s) (h : increment H mem compare s = some s') :
    active_invariant mem compare s' := by
  obtain ⟨hle, hheap, hall⟩ := hinv
  cases hact : s.active with
  | nil => simp [increment, hact] at h
  | cons x l =>
    obtain ⟨t, h1, h2, h3, _, h5, h6⟩ :=
      merge_increment_active H hH mem hswo s hle hheap x l hact
    rw [h1] at h
    cases h
    refine ⟨h2, h3, ?_⟩
    intro r hr
    have hl : ∀ r ∈ l, r.empty = false :=
      fun r hr => hall r (by rw [hact]; exact List.mem_cons_of_mem _ hr)
    cases he : (x.advance_begin 1).empty with
    | false =>
      rcases List.mem_append.1 ((h5 he).1.subset hr) with h7 | h7
      · exact hl r h7
      · rw [List.mem_singleton.1 h7]
        exact he
    | true => exact hl r ((h6 he).1.subset hr)

theorem active_invariant_advance {α : Type} (H : heap_algorithms iterator_range)
    (hH : H.conforming) (mem : Nat → α) {compare : α → α → Bool}
    (hswo : strict_weak_order compare) :
    ∀ (k : Nat) (s s' : merge_iterator), active_invariant mem compare s →
      advance H mem compare k s = some s' → active_invariant mem compare s'
  | 0, s, s', hinv, h => by
    simp only [advance] at h
    cases h
    exact hinv
  | k + 1, s, s', hinv, h => by
    simp only [advance] at h
    cases hi : increment H mem compare s with
    | none => rw [hi] at h; simp at h
    | some t =>
      rw [hi] at h
      simp only [Option.some_bind] at h
      exact active_invariant_advance H hH mem hswo k t s'
        (active_invariant_increment H hH mem hswo s t hinv hi) h

/-- C18: with heap algorithms meeting their contract, after construction of a merge
cursor and after every increment the active region is a heap for the inverted
comparison of fronts: for every active index `i > 0` the front of the view at `i` is
not ordered before the front of the view at its parent index `(i - 1) / 2`.  (The views
need not be sorted for this.) -/
theorem merge_heap_invariant {α : Type} (H : heap_algorithms iterator_range)
    (hH : H.conforming) (mem : Nat → α) (compare : α → α → Bool)
    (hswo : strict_weak_order compare) (ranges : List iterator_range)
    (k : Nat) (s : merge_iterator)
    (hreach : advance H mem compare k (make H mem compare ranges) = some s) :
    is_heap (heap_compare mem compare) s.active = true ∧
    ∀ i parent child, 0 < i → s.active[(i - 1) / 2]? = some parent →
      s.active[i]? = some child → compare (child.front mem) (parent.front mem) = false := by
  have hinv := active_invariant_advance H hH mem hswo k _ s
    (active_invariant_make H hH mem hswo ranges) hreach
  exact ⟨hinv.2.1, (is_heap_iff _ _).1 hinv.2.1⟩

/-- C19: with heap algorithms meeting their contract, after construction of a merge
cursor over any collection of views and after every increment no view of the active
region is empty, and when the active region is not empty `dereference` refers to the
front of its first view, which is a non-empty view. -/
theorem merge_active_views_nonempty {α : Type} (H : heap_algorithms iterator_range)
    (hH : H.conforming) (mem : Nat → α) (compare : α → α → Bool)
    (hswo : strict_weak_order compare) (ranges : List iterator_range)
    (k : Nat) (s : merge_iterator)
    (hreach : advance H mem compare k (make H mem compare ranges) = some s) :
    (∀ r ∈ s.active, r.empty = false) ∧
    (s.active ≠ [] → ∃ top, s.active[0]? = some top ∧ s.dereference = some top.first ∧
      top.empty = false) := by
  obtain ⟨hle, hheap, hall⟩ := active_invariant_advance H hH mem hswo k _ s
    (active_invariant_make H hH mem hswo ranges) hreach
  refine ⟨hall, ?_⟩
  intro hne
  cases hact : s.active with
  | nil => exact absurd hact hne
  | cons x l =>
    obtain ⟨_, _, _, _, h4, _⟩ := merge_increment_active H hH mem hswo s hle hheap x l hact
    exact ⟨x, by simp, h4, hall x (by rw [hact]; exact List.mem_cons_self _ _)⟩

/-- C20: with heap algorithms meeting their contract, one increment of a merge cursor
whose active region `top :: others` is a heap of non-empty views returns; the cell
yielded is the front of `top`, and `top` loses exactly that front; if `top` still has
elements the new active region is a rearrangement of `others` together with the
advanced `top` and the number of active views is unchanged; if `top` has become empty
the new active region is a rearrangement of `others` and the number of active views
has decreased by one.  The other views are unchanged. -/
theorem merge_increment_frame {α : Type} (H : heap_algorithms iterator_range)
    (hH : H.conforming) (mem : Nat → α) (compare : α → α → Bool)
    (hswo : strict_weak_order compare) (s : merge_iterator)
    (hinv : active_invariant mem compare s)
    (top : iterator_range) (others : List iterator_range) (hact : s.active = top :: others) :
    ∃ s', increment H mem compare s = some s' ∧
      s.dereference = some top.first ∧
      (top.advance_begin 1).last = top.last ∧
      (top.advance_begin 1).first = top.first + 1 ∧
      (top.first < top.last →
        top.elements mem = mem top.first :: (top.advance_begin 1).elements mem) ∧
      ((top.advance_begin 1).empty = false →
        s'.active.Perm (others ++ [top.advance_begin 1]) ∧
        s'.active.length = s.active.length) ∧
      ((top.advance_begin 1).empty = true →
        s'.active.Perm others ∧ s'.active.length + 1 = s.active.length) := by
  obtain ⟨hle, hheap, _⟩ := hinv
  obtain ⟨s', h1, _, _, h4, h5, h6⟩ :=
    merge_increment_active H hH mem hswo s hle hheap top others hact
  refine ⟨s', h1, h4, rfl, rfl, ?_, ?_, ?_⟩
  · intro hlt
    exact iterator_range.elements_of_lt mem top hlt
  · intro he
    obtain ⟨hp, _⟩ := h5 he
    refine ⟨hp, ?_⟩
    rw [hp.length_eq, hact]
    simp
  · intro he
    obtain ⟨hp, _⟩ := h6 he
    refine ⟨hp, ?_⟩
    rw [hp.length_eq, hact]
    simp

/-- C18 at the views `[1,4,7]`, `[]`, `[2,3,9]`, `[0,5]` after three increments: the
active region holds the views starting at 3, 4 and 5. -/
theorem merge_heap_invariant_witness :
    advance (reference_heap iterator_range) (memory_of [1, 4, 7, 2, 3, 9, 0, 5]) less 3
      (make (reference_heap iterator_range) (memory_of [1, 4, 7, 2, 3, 9, 0, 5]) less
        [⟨0, 3⟩, ⟨8, 8⟩, ⟨3, 6⟩, ⟨6, 8⟩]) =
      some ⟨[⟨4, 6⟩, ⟨1, 3⟩, ⟨7, 8⟩, ⟨6, 8⟩], 3⟩ ∧
    (merge_iterator.mk [⟨4, 6⟩, ⟨1, 3⟩, ⟨7, 8⟩, ⟨6, 8⟩] 3).active.map
      (iterator_range.front (memory_of [1, 4, 7, 2, 3, 9, 0, 5])) = [3, 4, 5] ∧
    (is_heap (heap_compare (memory_of [1, 4, 7, 2, 3, 9, 0, 5]) less)
        (merge_iterator.mk [⟨4, 6⟩, ⟨1, 3⟩, ⟨7, 8⟩, ⟨6, 8⟩] 3).active = true ∧
      ∀ i parent child, 0 < i →
        (merge_iterator.mk [⟨4, 6⟩, ⟨1, 3⟩, ⟨7, 8⟩, ⟨6, 8⟩] 3).active[(i - 1) / 2]? =
          some parent →
        (merge_iterator.mk [⟨4, 6⟩, ⟨1, 3⟩, ⟨7, 8⟩, ⟨6, 8⟩] 3).active[i]? = some child →
        less (child.front (memory_of [1, 4, 7, 2, 3, 9, 0, 5]))
          (parent.front (memory_of [1, 4, 7, 2, 3, 9, 0, 5])) = false) :=
  ⟨by decide, by decide,
    merge_heap_invariant (reference_heap iterator_range) (reference_heap_conforming _)
      (memory_of [1, 4, 7, 2, 3, 9, 0, 5]) less less_strict_weak_order
      [⟨0, 3⟩, ⟨8, 8⟩, ⟨3, 6⟩, ⟨6, 8⟩] 3 ⟨[⟨4, 6⟩, ⟨1, 3⟩, ⟨7, 8⟩, ⟨6, 8⟩], 3⟩ (by decide)⟩

/-- C19 at the unsorted views `[3,1,2]`, `[5,4]` and an empty view, after two
increments. -/
theorem merge_active_views_nonempty_witness :
    advance (reference_heap iterator_range) (memory_of [3, 1, 2, 5, 4]) less 2
      (make (reference_heap iterator_range) (memory_of [3, 1, 2, 5, 4]) less
        [⟨0, 3⟩, ⟨3, 5⟩, ⟨1, 1⟩]) = some ⟨[⟨2, 3⟩, ⟨3, 5⟩, ⟨1, 1⟩], 2⟩ ∧
    ((∀ r ∈ (merge_iterator.mk [⟨2, 3⟩, ⟨3, 5⟩, ⟨1, 1⟩] 2).active, r.empty = false) ∧
      ((merge_iterator.mk [⟨2, 3⟩, ⟨3, 5⟩, ⟨1, 1⟩] 2).active ≠ [] →
        ∃ top, (merge_iterator.mk [⟨2, 3⟩, ⟨3, 5⟩, ⟨1, 1⟩] 2).active[0]? = some top ∧
          (merge_iterator.mk [⟨2, 3⟩, ⟨3, 5⟩, ⟨1, 1⟩] 2).dereference = some top.first ∧
          top.empty = false)) :=
  ⟨by decide,
    merge_active_views_nonempty (reference_heap iterator_range) (reference_heap_conforming _)
      (memory_of [3, 1, 2, 5, 4]) less less_strict_weak_order
      [⟨0, 3⟩, ⟨3, 5⟩, ⟨1, 1⟩] 2 ⟨[⟨2, 3⟩, ⟨3, 5⟩, ⟨1, 1⟩], 2⟩ (by decide)⟩

/-- C20 at a cursor over `[1,4,7]`, `[2,3,9]`, `[0,5]` standing at 1: the increment
leaves three active views, the top one advanced to `[4,7]`. -/
theorem merge_increment_frame_witness :
    active_invariant (memory_of [1, 4, 7, 2, 3, 9, 0, 5]) less
      ⟨[⟨0, 3⟩, ⟨3, 6⟩, ⟨7, 8⟩, ⟨6, 8⟩], 3⟩ ∧
    increment (reference_heap iterator_range) (memory_of [1, 4, 7, 2, 3, 9, 0, 5]) less
      ⟨[⟨0, 3⟩, ⟨3, 6⟩, ⟨7, 8⟩, ⟨6, 8⟩], 3⟩ =
        some ⟨[⟨3, 6⟩, ⟨1, 3⟩, ⟨7, 8⟩, ⟨6, 8⟩], 3⟩ ∧
    ∃ s', increment (reference_heap iterator_range) (memory_of [1, 4, 7, 2, 3, 9, 0, 5]) less
        ⟨[⟨0, 3⟩, ⟨3, 6⟩, ⟨7, 8⟩, ⟨6, 8⟩], 3⟩ = some s' ∧
      (merge_iterator.mk [⟨0, 3⟩, ⟨3, 6⟩, ⟨7, 8⟩, ⟨6, 8⟩] 3).dereference =
        some (⟨0, 3⟩ : iterator_range).first ∧
      ((⟨0, 3⟩ : iterator_range).advance_begin 1).last = (⟨0, 3⟩ : iterator_range).last ∧
      ((⟨0, 3⟩ : iterator_range).advance_begin 1).first =
        (⟨0, 3⟩ : iterator_range).first + 1 ∧
      ((⟨0, 3⟩ : iterator_range).first < (⟨0, 3⟩ : iterator_range).last →
        (⟨0, 3⟩ : iterator_range).elements (memory_of [1, 4, 7, 2, 3, 9, 0, 5]) =
          memory_of [1, 4, 7, 2, 3, 9, 0, 5] (⟨0, 3⟩ : iterator_range).first ::
            ((⟨0, 3⟩ : iterator_range).advance_begin 1).elements
              (memory_of [1, 4, 7, 2, 3, 9, 0, 5])) ∧
      ((((⟨0, 3⟩ : iterator_range).advance_begin 1).empty = false →
        s'.active.Perm ([⟨3, 6⟩, ⟨7, 8⟩] ++ [(⟨0, 3⟩ : iterator_range).advance_begin 1]) ∧
        s'.active.length =
          (merge_iterator.mk [⟨0, 3⟩, ⟨3, 6⟩, ⟨7, 8⟩, ⟨6, 8⟩] 3).active.length)) ∧
      (((⟨0, 3⟩ : iterator_range).advance_begin 1).empty = true →
        s'.active.Perm [⟨3, 6⟩, ⟨7, 8⟩] ∧
        s'.active.length + 1 =
          (merge_iterator.mk [⟨0, 3⟩, ⟨3, 6⟩, ⟨7, 8⟩, ⟨6, 8⟩] 3).active.length) :=
  ⟨by decide, by decide,
    merge_increment_frame (reference_heap iterator_range) (reference_heap_conforming _)
      (memory_of [1, 4, 7, 2, 3, 9, 0, 5]) less less_strict_weak_order
      ⟨[⟨0, 3⟩, ⟨3, 6⟩, ⟨7, 8⟩, ⟨6, 8⟩], 3⟩ (by decide) ⟨0, 3⟩ [⟨3, 6⟩, ⟨7, 8⟩] (by decide)⟩

end burst.merge_iterator

namespace burst.difference_iterator

/-- One iteration of the loop of `settle` on well-formed ranges with a sorted
subtrahend: the body returns, the ranges stay well formed and keep their ends, and the
combined length of the two ranges strictly decreases: either the fronts are equivalent
and both ranges advance by one (the subtrahend possibly further), or the subtrahend's
front is ordered before the minuend's front, the minuend stays and the subtrahend loses
at least one element. -/
theorem settle_body_decreases {α : Type} (mem : Nat → α) {compare : α → α → Bool}
    (hswo : strict_weak_order compare) (s : difference_iterator)
    (hm : s.m_minuend.first ≤ s.m_minuend.last)
    (hs : s.m_subtrahend.first ≤ s.m_subtrahend.last)
    (hsorted : is_sorted compare (s.m_subtrahend.elements mem) = true)
    (hc : settle_condition mem compare s = true) :
    ∃ s', settle_body mem compare s = some s' ∧
      s'.m_minuend.size + s'.m_subtrahend.size < s.m_minuend.size + s.m_subtrahend.size ∧
      s'.m_minuend.last = s.m_minuend.last ∧ s'.m_subtrahend.last = s.m_subtrahend.last ∧
      s'.m_minuend.first ≤ s'.m_minuend.last ∧ s'.m_subtrahend.first ≤ s'.m_subtrahend.last ∧
      is_sorted compare (s'.m_subtrahend.elements mem) = true ∧
      (compare (s.m_subtrahend.front mem) (s.m_minuend.front mem) = false →
        s'.m_minuend.first = s.m_minuend.first + 1 ∧
        s.m_subtrahend.first + 1 ≤ s'.m_subtrahend.first) ∧
      (compare (s.m_subtrahend.front mem) (s.m_minuend.front mem) = true →
        s'.m_minuend = s.m_minuend ∧ s.m_subtrahend.first + 1 ≤ s'.m_subtrahend.first) := by
  simp only [settle_condition, Bool.and_eq_true, Bool.not_eq_true'] at hc
  obtain ⟨⟨hse, hme⟩, _⟩ := hc
  have hmlt : s.m_minuend.first < s.m_minuend.last := by
    have := (iterator_range.empty_eq_false_iff _).1 hme; omega
  have hslt : s.m_subtrahend.first < s.m_subtrahend.last := by
    have := (iterator_range.empty_eq_false_iff _).1 hse; omega
  cases hba : compare (s.m_subtrahend.front mem) (s.m_minuend.front mem) with
  | false =>
    obtain ⟨k, hk, hk1, hk2, _, _⟩ :=
      difference_maintain_invariant_spec mem hswo
        ⟨s.m_minuend.advance_begin 1, s.m_subtrahend.advance_begin 1⟩
        (by simp only [iterator_range.advance_begin]; omega)
        (by simp only [iterator_range.advance_begin]; omega)
        (iterator_range.sorted_later_start mem compare s.m_subtrahend _ (by omega) hsorted)
    simp only [iterator_range.advance_begin] at hk hk1 hk2
    refine ⟨⟨⟨s.m_minuend.first + 1, s.m_minuend.last⟩, ⟨k, s.m_subtrahend.last⟩⟩,
      ?_, ?_, rfl, rfl, ?_, ?_, ?_, ?_, ?_⟩
    · simp only [settle_body, hba, Bool.not_false, if_true, iterator_range.advance_begin]
      exact hk
    · simp only [iterator_range.size]; omega
    · simp only; omega
    · simp only; omega
    · exact iterator_range.sorted_later_start mem compare s.m_subtrahend k (by omega) hsorted
    · intro _
      exact ⟨rfl, hk1⟩
    · intro h; exact absurd h (by simp)
  | true =>
    obtain ⟨k, hk, hk1, hk2, _, hk4⟩ :=
      difference_maintain_invariant_spec mem hswo s hm hs hsorted
    have hprog := hk4 hme hse hba
    refine ⟨⟨s.m_minuend, ⟨k, s.m_subtrahend.last⟩⟩, ?_, ?_, rfl, rfl, hm, ?_, ?_, ?_, ?_⟩
    · simp only [settle_body, hba, Bool.not_true, Bool.false_eq_true, if_false]
      exact hk
    · simp only [iterator_range.size]; omega
    · simp only; omega
    · exact iterator_range.sorted_later_start mem compare s.m_subtrahend k hk1 hsorted
    · intro h; exact absurd h (by simp)
    · intro _
      exact ⟨rfl, by simp only; omega⟩

/-- C21: over well-formed ranges with a subtrahend sorted under a strict weak order the
constructor returns, `increment` returns on every cursor reached from it whose minuend
is not empty, and every iteration of the loop of `settle` (on well-formed ranges with a
sorted subtrahend) strictly decreases the combined length of the minuend and the
subtrahend: either the fronts are equivalent and both ranges advance by one, or the
subtrahend's front is ordered before the minuend's front and the subtrahend alone
loses at least one element. -/
theorem difference_settle_terminates {α : Type} (mem : Nat → α) (compare : α → α → Bool)
    (hswo : strict_weak_order compare) (minuend subtrahend : iterator_range)
    (hm : minuend.first ≤ minuend.last) (hs : subtrahend.first ≤ subtrahend.last)
    (hsorted : is_sorted compare (subtrahend.elements mem) = true) :
    (∃ s0, make mem minuend subtrahend compare = some s0 ∧
      ∀ k s, advance mem compare k s0 = some s → s.m_minuend.empty = false →
        ∃ s', increment mem compare s = some s') ∧
    ∀ s : difference_iterator,
      s.m_minuend.first ≤ s.m_minuend.last → s.m_subtrahend.first ≤ s.m_subtrahend.last →
      is_sorted compare (s.m_subtrahend.elements mem) = true →
      settle_condition mem compare s = true →
      ∃ s', settle_body mem compare s = some s' ∧
        s'.m_minuend.size + s'.m_subtrahend.size <
          s.m_minuend.size + s.m_subtrahend.size ∧
        s'.m_minuend.first ≤ s'.m_minuend.last ∧
        s'.m_subtrahend.first ≤ s'.m_subtrahend.last ∧
        is_sorted compare (s'.m_subtrahend.elements mem) = true ∧
        (compare (s.m_subtrahend.front mem) (s.m_minuend.front mem) = false →
          s'.m_minuend.first = s.m_minuend.first + 1 ∧
          s.m_subtrahend.first + 1 ≤ s'.m_subtrahend.first) ∧
        (compare (s.m_subtrahend.front mem) (s.m_minuend.front mem) = true →
          s'.m_minuend = s.m_minuend ∧ s.m_subtrahend.first + 1 ≤ s'.m_subtrahend.first) := by
  constructor
  · obtain ⟨s0, h1, h2, h3, h4, h5, h6, h7, h8, _⟩ :=
      difference_make_spec mem hswo minuend subtrahend hm hs hsorted
    have hsorted0 : is_sorted compare (s0.m_subtrahend.elements mem) = true := by
      have := iterator_range.sorted_later_start mem compare subtrahend
        s0.m_subtrahend.first h7 hsorted
      rw [← h4] at this
      exact this
    refine ⟨s0, h1, ?_⟩
    intro k s hk hme
    obtain ⟨g1, g2, g3, _⟩ := difference_advance_spec mem hswo k s0 s h6 h8 hsorted0 h2 hk
    have hlt : s.m_minuend.first < s.m_minuend.last := by
      have := (iterator_range.empty_eq_false_iff _).1 hme; omega
    obtain ⟨s', hs', _⟩ := difference_increment_spec mem hswo s hlt g2 g3
    exact ⟨s', hs'⟩
  · intro s hms hss hsorteds hc
    obtain ⟨s', h1, h2, _, _, h5, h6, h7, h8, h9⟩ :=
      settle_body_decreases mem hswo s hms hss hsorteds hc
    exact ⟨s', h1, h2, h5, h6, h7, h8, h9⟩

/-- C21 at the minuend `[2,2,5]` (addresses 0..2) and the subtrahend `[1,1,2,7]`
(addresses 3..6): the constructor skips the two 1s by binary search, then one iteration
of the loop drops the equivalent fronts 2 and 2. -/
theorem difference_settle_terminates_witness :
    make (memory_of [2, 2, 5, 1, 1, 2, 7]) ⟨0, 3⟩ ⟨3, 7⟩ less = some ⟨⟨1, 3⟩, ⟨6, 7⟩⟩ ∧
    settle_body (memory_of [2, 2, 5, 1, 1, 2, 7]) less ⟨⟨0, 3⟩, ⟨5, 7⟩⟩ =
      some ⟨⟨1, 3⟩, ⟨6, 7⟩⟩ ∧
    settle_body (memory_of [2, 2, 5, 1, 1, 2, 7]) less ⟨⟨0, 3⟩, ⟨3, 7⟩⟩ =
      some ⟨⟨0, 3⟩, ⟨5, 7⟩⟩ ∧
    ((∃ s0, make (memory_of [2, 2, 5, 1, 1, 2, 7]) ⟨0, 3⟩ ⟨3, 7⟩ less = some s0 ∧
      ∀ k s, advance (memory_of [2, 2, 5, 1, 1, 2, 7]) less k s0 = some s →
        s.m_minuend.empty = false →
        ∃ s', increment (memory_of [2, 2, 5, 1, 1, 2, 7]) less s = some s') ∧
    ∀ s : difference_iterator,
      s.m_minuend.first ≤ s.m_minuend.last → s.m_subtrahend.first ≤ s.m_subtrahend.last →
      is_sorted less (s.m_subtrahend.elements (memory_of [2, 2, 5, 1, 1, 2, 7])) = true →
      settle_condition (memory_of [2, 2, 5, 1, 1, 2, 7]) less s = true →
      ∃ s', settle_body (memory_of [2, 2, 5, 1, 1, 2, 7]) less s = some s' ∧
        s'.m_minuend.size + s'.m_subtrahend.size <
          s.m_minuend.size + s.m_subtrahend.size ∧
        s'.m_minuend.first ≤ s'.m_minuend.last ∧
        s'.m_subtrahend.first ≤ s'.m_subtrahend.last ∧
        is_sorted less (s'.m_subtrahend.elements (memory_of [2, 2, 5, 1, 1, 2, 7])) = true ∧
        (less (s.m_subtrahend.front (memory_of [2, 2, 5, 1, 1, 2, 7]))
            (s.m_minuend.front (memory_of [2, 2, 5, 1, 1, 2, 7])) = false →
          s'.m_minuend.first = s.m_minuend.first + 1 ∧
          s.m_subtrahend.first + 1 ≤ s'.m_subtrahend.first) ∧
        (less (s.m_subtrahend.front (memory_of [2, 2, 5, 1, 1, 2, 7]))
            (s.m_minuend.front (memory_of [2, 2, 5, 1, 1, 2, 7])) = true →
          s'.m_minuend = s.m_minuend ∧ s.m_subtrahend.first + 1 ≤ s'.m_subtrahend.first)) :=
  ⟨by decide, by decide, by decide,
    difference_settle_terminates (memory_of [2, 2, 5, 1, 1, 2, 7]) less
      less_strict_weak_order ⟨0, 3⟩ ⟨3, 7⟩ (by decide) (by decide) (by decide)⟩

end burst.difference_iterator

namespace burst

theorem compare_at_strict_weak_order {α : Type} (mem : Nat → α) {compare : α → α → Bool}
    (h : strict_weak_order compare) : strict_weak_order (compare_at mem compare) where
  irrefl := fun _ => h.irrefl _
  trans := fun _ _ _ hab hbc => h.trans _ _ _ hab hbc
  incomp_trans := fun _ _ _ h1 h2 h3 h4 => h.incomp_trans _ _ _ h1 h2 h3 h4

theorem is_sorted_compare_at {α : Type} (mem : Nat → α) (compare : α → α → Bool) :
    ∀ l : List Nat, is_sorted (compare_at mem compare) l = is_sorted compare (l.map mem)
  | [] => rfl
  | [_] => rfl
  | a :: b :: rest => by
    have ih := is_sorted_compare_at mem compare (b :: rest)
    simp only [List.map_cons] at ih
    simp only [List.map_cons, is_sorted, ih, compare_at]

theorem count_equivalent_compare_at {α : Type} (mem : Nat → α) (compare : α → α → Bool)
    (p : Nat) (l : List Nat) :
    count_equivalent (compare_at mem compare) p l = count_equivalent compare (mem p) (l.map mem) := by
  simp only [count_equivalent, List.countP_map]
  rfl

theorem elements_id (r : iterator_range) : r.elements id = r.positions := by
  simp [iterator_range.elements]

/-- The binary search reads the memory only through the comparator. -/
theorem lower_bound_loop_compare_at {α : Type} (mem : Nat → α) (compare : α → α → Bool)
    (goal : Nat) :
    ∀ fuel first count,
      lower_bound_loop id goal (compare_at mem compare) fuel first count =
        lower_bound_loop mem (mem goal) compare fuel first count
  | 0, _, _ => rfl
  | fuel + 1, first, count => by
    simp only [lower_bound_loop, id, compare_at,
      lower_bound_loop_compare_at mem compare goal fuel]

theorem skip_to_lower_bound_compare_at {α : Type} (mem : Nat → α) (compare : α → α → Bool)
    (range : iterator_range) (goal : Nat) :
    skip_to_lower_bound id range goal (compare_at mem compare) =
      skip_to_lower_bound mem range (mem goal) compare := by
  simp only [skip_to_lower_bound, thrust.skip_to, lower_bound, lower_bound_loop_compare_at]

namespace difference_iterator

theorem maintain_invariant_compare_at {α : Type} (mem : Nat → α) (compare : α → α → Bool)
    (s : difference_iterator) :
    maintain_invariant id (compare_at mem compare) s = maintain_invariant mem compare s := by
  simp only [maintain_invariant, iterator_range.front, id, skip_to_lower_bound_compare_at]
  rfl

theorem settle_condition_compare_at {α : Type} (mem : Nat → α) (compare : α → α → Bool)
    (s : difference_iterator) :
    settle_condition id (compare_at mem compare) s = settle_condition mem compare s := rfl

theorem settle_body_compare_at {α : Type} (mem : Nat → α) (compare : α → α → Bool)
    (s : difference_iterator) :
    settle_body id (compare_at mem compare) s = settle_body mem compare s := by
  simp only [settle_body, maintain_invariant_compare_at]
  rfl

theorem settle_loop_compare_at {α : Type} (mem : Nat → α) (compare : α → α → Bool) :
    ∀ (fuel : Nat) (s : difference_iterator),
      settle_loop id (compare_at mem compare) fuel s = settle_loop mem compare fuel s
  | 0, s => by simp only [settle_loop, settle_condition_compare_at]
  | fuel + 1, s => by
    simp only [settle_loop, settle_condition_compare_at, settle_body_compare_at]
    congr 1
    congr 1
    funext t
    exact settle_loop_compare_at mem compare fuel t

theorem make_compare_at {α : Type} (mem : Nat → α) (compare : α → α → Bool)
    (minuend subtrahend : iterator_range) :
    make id minuend subtrahend (compare_at mem compare) =
      make mem minuend subtrahend compare := by
  simp only [make, maintain_invariant_compare_at]
  congr 1
  funext t
  exact settle_loop_compare_at mem compare _ t

theorem increment_compare_at {α : Type} (mem : Nat → α) (compare : α → α → Bool)
    (s : difference_iterator) :
    increment id (compare_at mem compare) s = increment mem compare s :=
  settle_loop_compare_at mem compare _ _

theorem traverse_loop_compare_at {α : Type} (mem : Nat → α) (compare : α → α → Bool) :
    ∀ (fuel : Nat) (s : difference_iterator),
      traverse_loop id (compare_at mem compare) fuel s = traverse_loop mem compare fuel s
  | 0, _ => rfl
  | fuel + 1, s => by
    simp only [traverse_loop, increment_compare_at]
    congr 1
    congr 1
    funext t
    rw [traverse_loop_compare_at mem compare fuel t]

/-- Traversing the cursor over the addresses, compared by the elements they hold, is
the same computation as traversing it over the memory. -/
theorem traverse_compare_at {α : Type} (mem : Nat → α) (compare : α → α → Bool)
    (minuend subtrahend : iterator_range) :
    traverse id minuend subtrahend (compare_at mem compare) =
      traverse mem minuend subtrahend compare := by
  simp only [traverse, make_compare_at]
  congr 1
  funext t
  exact traverse_loop_compare_at mem compare _ t

end difference_iterator

/-- The linear difference is a subsequence of the minuend. -/
theorem linear_difference_sublist {α : Type} (compare : α → α → Bool) :
    ∀ as bs : List α, (linear_difference compare as bs).Sublist as := by
  intro as
  induction as with
  | nil => intro bs; simp [linear_difference]
  | cons a as iha =>
    intro bs
    induction bs with
    | nil => rw [linear_difference_nil_right]
    | cons b bs ihb =>
      cases hba : compare b a with
      | true =>
        rw [linear_difference_drop compare a b as bs hba]
        exact ihb
      | false =>
        cases hab : compare a b with
        | true =>
          rw [linear_difference_emit compare a b as bs hba hab]
          exact (iha (b :: bs)).cons₂ a
        | false =>
          rw [linear_difference_both compare a b as bs hba hab]
          exact (iha bs).cons a

/-- Which elements of a sorted minuend without repetitions the linear difference
emits: the element standing after `before` is emitted exactly when the subtrahend holds
no more elements equivalent to it than `before` does, that is, within a run of
equivalent elements the leading ones are dropped against the subtrahend's and the
trailing ones are emitted. -/
theorem linear_difference_mem_iff {α : Type} {compare : α → α → Bool}
    (h : strict_weak_order compare) (x : α) :
    ∀ (as bs before after : List α), as = before ++ x :: after → as.Nodup →
      as.Pairwise (fun u v => compare v u = false) →
      bs.Pairwise (fun u v => compare v u = false) →
      (x ∈ linear_difference compare as bs ↔
        count_equivalent compare x bs ≤ count_equivalent compare x before) := by
  intro as
  induction as with
  | nil =>
    intro bs before after heq
    exact absurd heq (by simp)
  | cons a as iha =>
    intro bs
    induction bs with
    | nil =>
      intro before after heq _ _ _
      rw [linear_difference_nil_right, heq]
      simp [count_equivalent]
    | cons b bs ihb =>
      intro before after heq hnd hA hB
      have hA' := List.pairwise_cons.1 hA
      have hB' := List.pairwise_cons.1 hB
      have hnd' := List.nodup_cons.1 hnd
      have hxas : x ∈ a :: as := by rw [heq]; simp
      have hxa : compare x a = false := by
        rcases List.mem_cons.1 hxas with rfl | hx
        · exact h.irrefl _
        · exact hA'.1 x hx
      cases hba : compare b a with
      | true =>
        rw [linear_difference_drop compare a b as bs hba,
          ihb before after heq hnd hA hB'.2, count_equivalent_cons compare x b]
        have hbx : compare b x = true := by
          cases hbx : compare b x with
          | true => rfl
          | false =>
            have := h.not_lt_trans hbx hxa
            rw [hba] at this
            exact absurd this (by decide)
        have : equivalent compare x b = false := by
          simp [equivalent, hbx]
        simp [this]
      | false =>
        cases hab : compare a b with
        | true =>
          rw [linear_difference_emit compare a b as bs hba hab]
          have hzero : ∀ y, equivalent compare y a = true →
              count_equivalent compare y (b :: bs) = 0 := by
            intro y hy
            apply count_equivalent_eq_zero_of_lt h hab _ y hy
            intro z hz
            rcases List.mem_cons.1 hz with rfl | hz'
            · exact h.irrefl _
            · exact hB'.1 z hz'
          cases before with
          | nil =>
            simp only [List.nil_append, List.cons.injEq] at heq
            obtain ⟨rfl, _⟩ := heq
            have h0 := hzero a (by simp [equivalent, h.irrefl])
            exact ⟨fun _ => by rw [h0]; exact Nat.zero_le _, fun _ => List.mem_cons_self _ _⟩
          | cons a0 before' =>
            simp only [List.cons_append, List.cons.injEq] at heq
            obtain ⟨rfl, heq'⟩ := heq
            have hne : x ≠ a := by
              intro hxeq
              apply hnd'.1
              rw [← hxeq, heq']
              simp
            rw [List.mem_cons, iha (b :: bs) before' after heq' hnd'.2 hA'.2 hB,
              count_equivalent_cons compare x a]
            cases hxe : equivalent compare x a with
            | false => simp [hne]
            | true =>
              rw [hzero x hxe]
              simp
        | false =>
          rw [linear_difference_both compare a b as bs hba hab]
          have hab' : equivalent compare a b = true := by simp [equivalent, hab, hba]
          cases before with
          | nil =>
            simp only [List.nil_append, List.cons.injEq] at heq
            obtain ⟨rfl, _⟩ := heq
            have hnot : a ∉ linear_difference compare as bs :=
              fun hin => hnd'.1 ((linear_difference_sublist compare as bs).subset hin)
            constructor
            · intro hin
              exact absurd hin hnot
            · intro hle
              rw [count_equivalent_cons compare a b, hab'] at hle
              simp [count_equivalent] at hle
          | cons a0 before' =>
            simp only [List.cons_append, List.cons.injEq] at heq
            obtain ⟨rfl, heq'⟩ := heq
            rw [iha bs before' after heq' hnd'.2 hA'.2 hB'.2,
              count_equivalent_cons compare x a, count_equivalent_cons compare x b,
              h.equivalent_congr hab' x]
            cases equivalent compare x b <;> simp

end burst

namespace boost.iterator_range

/-- The addresses of a range, split at one of them. -/
theorem positions_split (r : iterator_range) (p : Nat) (h1 : r.first ≤ p) (h2 : p < r.last) :
    r.positions = (⟨r.first, p⟩ : iterator_range).positions ++
      p :: (⟨p + 1, r.last⟩ : iterator_range).positions := by
  simp only [positions]
  have e1 : List.range' r.first (r.last - r.first) =
      List.range' r.first (p - r.first) ++ List.range' (r.first + (p - r.first)) (r.last - p) := by
    rw [List.range'_append_1]
    congr 1
    omega
  have e2 : r.first + (p - r.first) = p := by omega
  have e3 : r.last - p = (r.last - (p + 1)) + 1 := by omega
  rw [e1, e2, e3, List.range'_succ]

end boost.iterator_range

namespace burst.difference_iterator

/-- C22: over well-formed ranges sorted under a strict weak order, constructing the
difference cursor (which skips the subtrahend by binary search) and traversing it
returns exactly the addresses of the minuend that the classical linear two-pointer set
difference emits, in the same order; and an address of the minuend is yielded exactly
when the subtrahend holds no more elements equivalent to its element than the minuend
holds before that address, so within a run of equivalent elements of the minuend the
leading `min(count_in_minuend, count_in_subtrahend)` are skipped and the trailing ones
are yielded. -/
theorem difference_refines_linear {α : Type} (mem : Nat → α) (compare : α → α → Bool)
    (hswo : strict_weak_order compare) (minuend subtrahend : iterator_range)
    (hm : minuend.first ≤ minuend.last) (hs : subtrahend.first ≤ subtrahend.last)
    (hsortedA : is_sorted compare (minuend.elements mem) = true)
    (hsortedB : is_sorted compare (subtrahend.elements mem) = true) :
    ∃ out, traverse mem minuend subtrahend compare = some out ∧
      out = linear_difference_positions mem compare minuend subtrahend ∧
      ∀ p, minuend.first ≤ p → p < minuend.last →
        (p ∈ out ↔
          count_equivalent compare (mem p) (subtrahend.elements mem) ≤
            count_equivalent compare (mem p)
              ((⟨minuend.first, p⟩ : iterator_range).elements mem)) := by
  have hswo' := compare_at_strict_weak_order mem hswo
  have hsA : is_sorted (compare_at mem compare) minuend.positions = true := by
    rw [is_sorted_compare_at]; exact hsortedA
  have hsB : is_sorted (compare_at mem compare) subtrahend.positions = true := by
    rw [is_sorted_compare_at]; exact hsortedB
  obtain ⟨out, h1, h2, _, _⟩ :=
    difference_traverse_spec id hswo' minuend subtrahend hm hs (by
      rw [elements_id]; exact hsB)
  rw [traverse_compare_at, List.map_id, elements_id, elements_id] at *
  refine ⟨out, h1, h2, ?_⟩
  intro p hp1 hp2
  rw [h2]
  have := linear_difference_mem_iff hswo' p minuend.positions subtrahend.positions
    (⟨minuend.first, p⟩ : iterator_range).positions
    (⟨p + 1, minuend.last⟩ : iterator_range).positions
    (iterator_range.positions_split minuend p hp1 hp2)
    (iterator_range.nodup_positions minuend)
    (is_sorted_pairwise hswo' _ hsA) (is_sorted_pairwise hswo' _ hsB)
  rw [count_equivalent_compare_at, count_equivalent_compare_at] at this
  exact this

/-- C22 at the minuend `[1,1,1,2,3]` (addresses 0..4) and the subtrahend `[0,1,1,3]`
(addresses 5..8): the first two 1s and the 3 are skipped, the third 1 and the 2 are
yielded. -/
theorem difference_refines_linear_witness :
    traverse (memory_of [1, 1, 1, 2, 3, 0, 1, 1, 3]) ⟨0, 5⟩ ⟨5, 9⟩ less = some [2, 3] ∧
    linear_difference_positions (memory_of [1, 1, 1, 2, 3, 0, 1, 1, 3]) less ⟨0, 5⟩ ⟨5, 9⟩ =
      [2, 3] ∧
    ∃ out, traverse (memory_of [1, 1, 1, 2, 3, 0, 1, 1, 3]) ⟨0, 5⟩ ⟨5, 9⟩ less = some out ∧
      out = linear_difference_positions (memory_of [1, 1, 1, 2, 3, 0, 1, 1, 3]) less
        ⟨0, 5⟩ ⟨5, 9⟩ ∧
      ∀ p, (⟨0, 5⟩ : iterator_range).first ≤ p → p < (⟨0, 5⟩ : iterator_range).last →
        (p ∈ out ↔
          count_equivalent less (memory_of [1, 1, 1, 2, 3, 0, 1, 1, 3] p)
              ((⟨5, 9⟩ : iterator_range).elements (memory_of [1, 1, 1, 2, 3, 0, 1, 1, 3])) ≤
            count_equivalent less (memory_of [1, 1, 1, 2, 3, 0, 1, 1, 3] p)
              ((⟨(⟨0, 5⟩ : iterator_range).first, p⟩ : iterator_range).elements
                (memory_of [1, 1, 1, 2, 3, 0, 1, 1, 3]))) :=
  ⟨by decide, by decide,
    difference_refines_linear (memory_of [1, 1, 1, 2, 3, 0, 1, 1, 3]) less
      less_strict_weak_order ⟨0, 5⟩ ⟨5, 9⟩ (by decide) (by decide) (by decide) (by decide)⟩

end burst.difference_iterator

namespace burst

/-- Interleavings do not depend on the order in which the parts are listed. -/
theorem interleaving_perm {out : List Nat} {parts : List (List Nat)}
    (h : interleaving out parts) :
    ∀ parts' : List (List Nat), parts.Perm parts' → interleaving out parts' := by
  induction h with
  | nil parts hall =>
    intro parts' hp
    exact interleaving.nil parts' (fun l hl => hall l (hp.symm.subset hl))
  | cons p out before rest after _ ih =>
    intro parts' hp
    have hmem : (p :: rest) ∈ parts' := hp.subset (by simp)
    obtain ⟨b, a, rfl⟩ := List.append_of_mem hmem
    have h1 : (before ++ after).Perm (b ++ a) := by
      have := (List.perm_middle.symm.trans hp).trans List.perm_middle
      exact this.cons_inv
    have h2 : (before ++ rest :: after).Perm (b ++ rest :: a) :=
      (List.perm_middle.trans (h1.cons rest)).trans List.perm_middle.symm
    exact interleaving.cons p out b rest a (ih _ h2)

/-- An empty part may be added to an interleaving. -/
theorem interleaving_cons_nil {out : List Nat} {parts : List (List Nat)}
    (h : interleaving out parts) : interleaving out ([] :: parts) := by
  induction h with
  | nil parts hall =>
    refine interleaving.nil _ ?_
    intro l hl
    rcases List.mem_cons.1 hl with rfl | hl'
    · rfl
    · exact hall l hl'
  | cons p out before rest after _ ih =>
    exact interleaving.cons p out ([] :: before) rest after ih

theorem interleaving_append_nils {out : List Nat} {parts : List (List Nat)}
    (h : interleaving out parts) :
    ∀ empties : List (List Nat), (∀ l ∈ empties, l = []) → interleaving out (empties ++ parts)
  | [], _ => h
  | e :: es, hall => by
    have he : e = [] := hall e (List.mem_cons_self _ _)
    subst he
    exact interleaving_cons_nil
      (interleaving_append_nils h es (fun l hl => hall l (List.mem_cons_of_mem _ hl)))

/-- Every entry of an interleaving comes from one of the parts. -/
theorem interleaving_mem {out : List Nat} {parts : List (List Nat)}
    (h : interleaving out parts) : ∀ q ∈ out, ∃ l ∈ parts, q ∈ l := by
  induction h with
  | nil parts _ => intro q hq; simp at hq
  | cons p out before rest after _ ih =>
    intro q hq
    rcases List.mem_cons.1 hq with rfl | hq'
    · exact ⟨q :: rest, by simp, List.mem_cons_self _ _⟩
    · obtain ⟨l, hl, hql⟩ := ih q hq'
      rcases List.mem_append.1 hl with h1 | h1
      · exact ⟨l, List.mem_append_left _ h1, hql⟩
      · rcases List.mem_cons.1 h1 with rfl | h2
        · exact ⟨p :: l, by simp, List.mem_cons_of_mem _ hql⟩
        · exact ⟨l, List.mem_append_right _ (List.mem_cons_of_mem _ h2), hql⟩

/-- When the parts are pairwise disjoint and without repetitions, restricting an
interleaving to the entries of one part gives back exactly that part. -/
theorem interleaving_filter {out : List Nat} {parts : List (List Nat)}
    (h : interleaving out parts) :
    parts.Pairwise List.Disjoint → (∀ l ∈ parts, l.Nodup) →
      ∀ l ∈ parts, out.filter (fun q => decide (q ∈ l)) = l := by
  induction h with
  | nil parts hall =>
    intro _ _ l hl
    rw [hall l hl]
    rfl
  | cons p out before rest after hint ih =>
    intro hdis hnd l hl
    have hnd_pr : (p :: rest).Nodup := hnd _ (by simp)
    have hp_rest : p ∉ rest := (List.nodup_cons.1 hnd_pr).1
    rw [List.pairwise_append, List.pairwise_cons] at hdis
    obtain ⟨hdb, ⟨hda1, hda2⟩, hdba⟩ := hdis
    have hdis' : (before ++ rest :: after).Pairwise List.Disjoint := by
      rw [List.pairwise_append, List.pairwise_cons]
      refine ⟨hdb, ⟨?_, hda2⟩, ?_⟩
      · intro y hy
        exact List.disjoint_of_subset_left (List.subset_cons_self _ _) (hda1 y hy)
      · intro x hx y hy
        rcases List.mem_cons.1 hy with rfl | hy'
        · exact List.disjoint_of_subset_right (List.subset_cons_self _ _)
            (hdba x hx (p :: y) (List.mem_cons_self _ _))
        · exact hdba x hx y (List.mem_cons_of_mem _ hy')
    have hnd' : ∀ l ∈ before ++ rest :: after, l.Nodup := by
      intro l hl
      rcases List.mem_append.1 hl with h1 | h1
      · exact hnd l (List.mem_append_left _ h1)
      · rcases List.mem_cons.1 h1 with rfl | h2
        · exact (List.nodup_cons.1 hnd_pr).2
        · exact hnd l (List.mem_append_right _ (List.mem_cons_of_mem _ h2))
    have ih' := ih hdis' hnd'
    -- the entry `p` occurs in no other part and not again in its own
    have hp_other : ∀ l ∈ before ++ after, p ∉ l := by
      intro l hl hpl
      rcases List.mem_append.1 hl with h1 | h1
      · exact hdba l h1 (p :: rest) (List.mem_cons_self _ _) hpl (List.mem_cons_self _ _)
      · exact hda1 l h1 (List.mem_cons_self _ _) hpl
    have hp_out : p ∉ out := by
      intro hpo
      obtain ⟨l', hl', hpl'⟩ := interleaving_mem hint p hpo
      rcases List.mem_append.1 hl' with h1 | h1
      · exact hp_other l' (List.mem_append_left _ h1) hpl'
      · rcases List.mem_cons.1 h1 with rfl | h2
        · exact hp_rest hpl'
        · exact hp_other l' (List.mem_append_right _ h2) hpl'
    by_cases hlp : l = p :: rest
    · subst hlp
      have hrest := ih' rest (by simp)
      have hcongr : out.filter (fun q => decide (q ∈ p :: rest)) =
          out.filter (fun q => decide (q ∈ rest)) := by
        apply List.filter_congr
        intro q hq
        have hne : q ≠ p := fun hqp => hp_out (hqp ▸ hq)
        simp [hne]
      rw [List.filter_cons_of_pos (by simp), hcongr, hrest]
    · have hl' : l ∈ before ++ after := by
        rcases List.mem_append.1 hl with h1 | h1
        · exact List.mem_append_left _ h1
        · rcases List.mem_cons.1 h1 with h2 | h2
          · exact absurd h2 hlp
          · exact List.mem_append_right _ h2
      have hpl : p ∉ l := hp_other l hl'
      have hl0 : l ∈ before ++ rest :: after := by
        rcases List.mem_append.1 hl' with h1 | h1
        · exact List.mem_append_left _ h1
        · exact List.mem_append_right _ (List.mem_cons_of_mem _ h1)
      rw [List.filter_cons_of_neg (by simpa using hpl)]
      exact ih' l hl0

end burst

namespace burst.merge_iterator

/-- Traversing a cursor that satisfies the invariant returns an interleaving of the
cells of the active views: every active view is consumed from its front. -/
theorem merge_traverse_loop_interleaving {α : Type} (H : heap_algorithms iterator_range)
    (hH : H.conforming) (mem : Nat → α) {compare : α → α → Bool}
    (hswo : strict_weak_order compare) :
    ∀ (fuel : Nat) (s : merge_iterator), invariant mem compare s →
      s.remaining.length ≤ fuel →
      ∃ out, traverse_loop H mem compare fuel s = some out ∧
        interleaving out (s.active.map iterator_range.positions) := by
  intro fuel
  induction fuel with
  | zero =>
    intro s hinv hfuel
    cases hact : s.active with
    | nil =>
      exact ⟨[], by simp [traverse_loop, hact], interleaving.nil _ (by simp)⟩
    | cons x l =>
      exfalso
      have hx := hinv.2.2 x (by rw [hact]; exact List.mem_cons_self _ _)
      rw [remaining_of_active s x l hact, iterator_range.positions_of_lt x hx.1] at hfuel
      simp at hfuel
  | succ fuel ih =>
    intro s hinv hfuel
    cases hact : s.active with
    | nil =>
      exact ⟨[], by simp [traverse_loop, hact], interleaving.nil _ (by simp)⟩
    | cons x l =>
      obtain ⟨s', h1, h2, h3, h4, h5, h6⟩ := merge_increment_spec H hH mem hswo s hinv x l hact
      have hx := hinv.2.2 x (by rw [hact]; exact List.mem_cons_self _ _)
      have hlen := h4.length_eq
      simp only [List.length_cons] at hlen
      obtain ⟨rest, hr1, hr2⟩ := ih s' h2 (by omega)
      refine ⟨x.first :: rest, by simp [traverse_loop, hact, h3, h1, hr1], ?_⟩
      rw [List.map_cons, iterator_range.positions_of_lt x hx.1]
      apply interleaving.cons x.first rest [] (x.advance_begin 1).positions
      cases he : (x.advance_begin 1).empty with
      | false =>
        apply interleaving_perm hr2
        have := ((h5 he).1.map iterator_range.positions)
        rw [List.map_append, List.map_cons, List.map_nil] at this
        exact this.trans (List.perm_append_comm)
      | true =>
        have hnil : (x.advance_begin 1).positions = [] :=
          iterator_range.positions_of_empty _ he
        rw [hnil]
        apply interleaving_cons_nil
        exact interleaving_perm hr2 _ ((h6 he).1.map iterator_range.positions)

/-- C23: over well-formed views sorted under a strict weak order, with heap algorithms
meeting their contract, the traversal of the merge cursor returns an interleaving of
the views: the output can be taken apart into one subsequence per view, each equal to
that view in its original order.  When the views do not overlap in memory, the output
restricted to the cells of one view is exactly that view. -/
theorem merge_preserves_view_order {α : Type} (H : heap_algorithms iterator_range)
    (hH : H.conforming) (mem : Nat → α) (compare : α → α → Bool)
    (hswo : strict_weak_order compare) (ranges : List iterator_range)
    (hranges : ∀ r ∈ ranges, r.first ≤ r.last ∧ is_sorted compare (r.elements mem) = true) :
    ∃ out, traverse H mem compare ranges = some out ∧
      interleaving out (ranges.map iterator_range.positions) ∧
      (ranges.Pairwise (fun r r' => r.positions.Disjoint r'.positions) →
        ∀ r ∈ ranges,
          out.filter (fun p => decide (p ∈ r.positions)) = r.positions ∧
          (out.filter (fun p => decide (p ∈ r.positions))).map mem = r.elements mem) := by
  have hcmp := heap_compare_strict_weak_order mem hswo
  obtain ⟨hinv, hperm⟩ := merge_make_spec H hH mem hswo ranges hranges
  obtain ⟨hact, _⟩ := active_make H hH mem hswo ranges
  obtain ⟨out, h1, h2⟩ :=
    merge_traverse_loop_interleaving H hH mem hswo (ranges.map iterator_range.size).sum _ hinv
      (by rw [hperm.length_eq, iterator_range.length_flatten_positions])
  have hint : interleaving out (ranges.map iterator_range.positions) := by
    have hheap := (hH.make_heap_perm (heap_compare mem compare)
      (ranges.filter fun r => !r.empty) hcmp).map iterator_range.positions
    rw [hact] at h2
    have h3 := interleaving_perm h2 _ hheap
    have h4 := interleaving_append_nils h3
      ((ranges.filter fun r => !(!r.empty)).map iterator_range.positions) (by
        intro l hl
        obtain ⟨r, hr, rfl⟩ := List.mem_map.1 hl
        rw [List.mem_filter] at hr
        exact iterator_range.positions_of_empty r (by simpa using hr.2))
    apply interleaving_perm h4
    rw [← List.map_append]
    apply List.Perm.map
    exact List.perm_append_comm.trans (List.filter_append_perm _ _)
  refine ⟨out, h1, hint, ?_⟩
  intro hdis r hr
  have hfilter := interleaving_filter hint
    (by rw [List.pairwise_map]; exact hdis)
    (by
      intro l hl
      obtain ⟨r', _, rfl⟩ := List.mem_map.1 hl
      exact iterator_range.nodup_positions r')
    r.positions (List.mem_map_of_mem _ hr)
  exact ⟨hfilter, by rw [hfilter]; rfl⟩

/-- C23 at the views `[1,2,2]` (addresses 0..2), `[]` and `[2,2,3]` (addresses 3..5):
the output takes the cells 0, 1, 2 of the first view and the cells 3, 4, 5 of the last
view each in their own order, although the equivalent 2s of the two views alternate. -/
theorem merge_preserves_view_order_witness :
    traverse (reference_heap iterator_range) (memory_of [1, 2, 2, 2, 2, 3]) less
      [⟨0, 3⟩, ⟨6, 6⟩, ⟨3, 6⟩] = some [0, 3, 1, 4, 2, 5] ∧
    [0, 3, 1, 4, 2, 5].filter (fun p => decide (p ∈ (⟨0, 3⟩ : iterator_range).positions)) =
      [0, 1, 2] ∧
    [0, 3, 1, 4, 2, 5].filter (fun p => decide (p ∈ (⟨3, 6⟩ : iterator_range).positions)) =
      [3, 4, 5] ∧
    ∃ out, traverse (reference_heap iterator_range) (memory_of [1, 2, 2, 2, 2, 3]) less
        [⟨0, 3⟩, ⟨6, 6⟩, ⟨3, 6⟩] = some out ∧
      interleaving out
        ([(⟨0, 3⟩ : iterator_range), ⟨6, 6⟩, ⟨3, 6⟩].map iterator_range.positions) ∧
      ([(⟨0, 3⟩ : iterator_range), ⟨6, 6⟩, ⟨3, 6⟩].Pairwise
          (fun r r' => r.positions.Disjoint r'.positions) →
        ∀ r ∈ [(⟨0, 3⟩ : iterator_range), ⟨6, 6⟩, ⟨3, 6⟩],
          out.filter (fun p => decide (p ∈ r.positions)) = r.positions ∧
          (out.filter (fun p => decide (p ∈ r.positions))).map
            (memory_of [1, 2, 2, 2, 2, 3]) = r.elements (memory_of [1, 2, 2, 2, 2, 3])) :=
  ⟨by decide, by decide, by decide,
    merge_preserves_view_order (reference_heap iterator_range) (reference_heap_conforming _)
      (memory_of [1, 2, 2, 2, 2, 3]) less less_strict_weak_order
      [⟨0, 3⟩, ⟨6, 6⟩, ⟨3, 6⟩] (by decide)⟩

end burst.merge_iterator

/-! ### burst::join_iterator -/

namespace burst.detail

/-- Skipping leading empty views loses no cell and stops at a non-empty view. -/
theorem skip_empty_spec :
    ∀ l : List iterator_range,
      (((l.drop (l.takeWhile iterator_range.empty).length).map
        iterator_range.positions).flatten = (l.map iterator_range.positions).flatten) ∧
      (l.takeWhile iterator_range.empty).length ≤ l.length ∧
      ∀ r, (l.drop (l.takeWhile iterator_range.empty).length)[0]? = some r →
        r.empty = false
  | [] => by simp
  | a :: t => by
    obtain ⟨h1, h2, h3⟩ := skip_empty_spec t
    cases he : a.empty with
    | true =>
      rw [List.takeWhile_cons_of_pos he]
      refine ⟨?_, ?_, ?_⟩
      · rw [List.length_cons, List.drop_succ_cons, List.map_cons, List.flatten_cons,
          iterator_range.positions_of_empty a he, List.nil_append]
        exact h1
      · rw [List.length_cons, List.length_cons]
        omega
      · rw [List.length_cons, List.drop_succ_cons]
        exact h3
    | false =>
      rw [List.takeWhile_cons_of_neg (by simp [he])]
      refine ⟨rfl, Nat.zero_le _, ?_⟩
      intro r hr
      rw [List.length_nil, List.drop_zero, List.getElem?_cons_zero] at hr
      cases hr
      exact he

namespace single_pass_join_iterator

/-- Restoring the invariant moves only the outer position, loses no cell, and
establishes the invariant when the views from the outer position on are well formed. -/
theorem join_maintain_invariant_spec (s : single_pass_join_iterator)
    (hle : s.outer ≤ s.ranges.length)
    (hwf : ∀ r ∈ s.ranges.drop s.outer, r.first ≤ r.last) :
    (maintain_invariant s).ranges = s.ranges ∧
      (maintain_invariant s).remaining = s.remaining ∧
      invariant (maintain_invariant s) := by
  obtain ⟨h1, h2, h3⟩ := skip_empty_spec (s.ranges.drop s.outer)
  have hdrop : ∀ n, List.drop (s.outer + n) s.ranges = List.drop n (List.drop s.outer s.ranges) := by
    intro n
    rw [List.drop_drop, Nat.add_comm]
  refine ⟨rfl, ?_, ?_, ?_, ?_⟩
  · simp only [remaining, maintain_invariant, hdrop]
    exact h1
  · simp only [maintain_invariant]
    simp only [List.length_drop] at h2
    omega
  · intro r hr
    simp only [maintain_invariant, hdrop] at hr
    exact hwf r (List.mem_of_mem_drop hr)
  · intro r hr
    apply h3 r
    simp only [maintain_invariant] at hr
    rw [List.getElem?_drop, List.getElem?_drop, Nat.add_zero]
    exact hr

/-- From a forward-only cursor that is not at its end, one step yields the front cell
of the current view and leaves the other cells. -/
theorem join_increment_spec (s : single_pass_join_iterator) (hinv : invariant s)
    (hlt : s.outer < s.ranges.length) :
    ∃ r s', s.ranges[s.outer]? = some r ∧ s.dereference = some r.first ∧
      s.increment = some s' ∧ invariant s' ∧ s.remaining = r.first :: s'.remaining := by
  obtain ⟨_, hwf, hne⟩ := hinv
  have hget : s.ranges[s.outer]? = some s.ranges[s.outer] := List.getElem?_eq_getElem hlt
  have hdrop : s.ranges.drop s.outer = s.ranges[s.outer] :: s.ranges.drop (s.outer + 1) :=
    List.drop_eq_getElem_cons hlt
  have hr_ne := hne _ hget
  have hr_wf : s.ranges[s.outer].first ≤ s.ranges[s.outer].last :=
    hwf _ (by rw [hdrop]; exact List.mem_cons_self _ _)
  have hr_lt : s.ranges[s.outer].first < s.ranges[s.outer].last := by
    have := (iterator_range.empty_eq_false_iff _).1 hr_ne
    omega
  have hlen : s.outer < (s.ranges.set s.outer (s.ranges[s.outer].advance_begin 1)).length := by
    simpa using hlt
  have hdrop' : (s.ranges.set s.outer (s.ranges[s.outer].advance_begin 1)).drop s.outer =
      s.ranges[s.outer].advance_begin 1 :: s.ranges.drop (s.outer + 1) := by
    rw [List.drop_eq_getElem_cons hlen, List.getElem_set_self,
      List.drop_set_of_lt _ _ (Nat.lt_succ_self _)]
  obtain ⟨_, h2, h3⟩ := join_maintain_invariant_spec
    ⟨s.ranges.set s.outer (s.ranges[s.outer].advance_begin 1), s.outer⟩
    (by simp only [List.length_set]; omega)
    (by
      intro r hr
      simp only [hdrop'] at hr
      rcases List.mem_cons.1 hr with rfl | hr'
      · simp only [iterator_range.advance_begin]; omega
      · exact hwf r (by rw [hdrop]; exact List.mem_cons_of_mem _ hr'))
  refine ⟨s.ranges[s.outer], _, hget, by simp [dereference, hget], ?_, h3, ?_⟩
  · simp only [increment, hget]
  · rw [h2]
    simp only [remaining, hdrop, hdrop', List.map_cons, List.flatten_cons,
      iterator_range.positions_of_lt _ hr_lt, List.cons_append]

/-- The freshly constructed forward-only cursor satisfies the invariant and has every
cell of the views still to yield. -/
theorem single_pass_make_spec (ranges : List iterator_range)
    (hwf : ∀ r ∈ ranges, r.first ≤ r.last) :
    invariant (make ranges) ∧
      (make ranges).remaining = (ranges.map iterator_range.positions).flatten := by
  obtain ⟨_, h2, h3⟩ := join_maintain_invariant_spec ⟨ranges, 0⟩ (Nat.zero_le _)
    (by simpa using hwf)
  refine ⟨h3, ?_⟩
  show (maintain_invariant ⟨ranges, 0⟩).remaining = _
  rw [h2]
  simp only [remaining, List.drop_zero]

end single_pass_join_iterator

namespace random_access_join_iterator

/-- The addresses of a range from an offset on. -/
theorem positions_from (r : iterator_range) (i : Nat) :
    (⟨r.first + i, r.last⟩ : iterator_range).positions = r.positions.drop i := by
  have := iterator_range.elements_drop id r (r.first + i) (Nat.le_add_right _ _)
  rw [elements_id, elements_id] at this
  rw [this]
  congr 1
  omega

/-- Placing the cursor at the first non-empty view at or after an outer index
establishes the invariant and leaves every cell of the views from that index on still
to yield. -/
theorem skip_state_spec (ranges : List iterator_range) (start : Nat)
    (hle : start ≤ ranges.length) (hwf : ∀ r ∈ ranges.drop start, r.first ≤ r.last) :
    invariant ⟨ranges, skip_empty ranges start, 0⟩ ∧
      remaining ⟨ranges, skip_empty ranges start, 0⟩ =
        ((ranges.drop start).map iterator_range.positions).flatten := by
  obtain ⟨h1, h2, h3⟩ := skip_empty_spec (ranges.drop start)
  have hdrop : List.drop (skip_empty ranges start) ranges =
      List.drop ((ranges.drop start).takeWhile iterator_range.empty).length
        (List.drop start ranges) := by
    rw [List.drop_drop]
    rfl
  simp only [List.length_drop] at h2
  have hwf' : ∀ r ∈ ranges.drop (skip_empty ranges start), r.first ≤ r.last := by
    intro r hr
    rw [hdrop] at hr
    exact hwf r (List.mem_of_mem_drop hr)
  refine ⟨⟨?_, hwf', ?_, fun _ => rfl⟩, ?_⟩
  · simp only [skip_empty]
    omega
  · intro r hr
    have hr' : ranges[skip_empty ranges start]? = some r := hr
    have hne : r.empty = false := by
      apply h3 r
      rw [List.getElem?_drop, List.getElem?_drop, Nat.add_zero]
      exact hr'
    have hmem : r ∈ ranges.drop (skip_empty ranges start) := by
      apply List.mem_iff_getElem?.2
      exact ⟨0, by rw [List.getElem?_drop, Nat.add_zero]; exact hr'⟩
    have := hwf' r hmem
    have := (iterator_range.empty_eq_false_iff r).1 hne
    simp only [iterator_range.size]
    omega
  · simp only [remaining, List.drop_zero, hdrop]
    exact h1

/-- The freshly constructed random-access cursor satisfies the invariant and has every
cell of the views still to yield. -/
theorem random_access_make_spec (ranges : List iterator_range)
    (hwf : ∀ r ∈ ranges, r.first ≤ r.last) :
    invariant (make ranges) ∧
      (make ranges).remaining = (ranges.map iterator_range.positions).flatten := by
  have := skip_state_spec ranges 0 (Nat.zero_le _) (by simpa using hwf)
  simpa [make] using this

/-- From a random-access cursor that is not at its end, one step yields the cell at the
inner index of the current view and leaves the other cells; the views are not changed. -/
theorem random_access_increment_spec (s : random_access_join_iterator) (hinv : invariant s)
    (hlt : s.outer < s.ranges.length) :
    ∃ r s', s.ranges[s.outer]? = some r ∧ s.dereference = some (r.first + s.inner) ∧
      s.increment = some s' ∧ invariant s' ∧ s'.ranges = s.ranges ∧
      s.remaining = (r.first + s.inner) :: s'.remaining := by
  obtain ⟨hle, hwf, hin, _⟩ := hinv
  have hget : s.ranges[s.outer]? = some s.ranges[s.outer] := List.getElem?_eq_getElem hlt
  have hdrop : s.ranges.drop s.outer = s.ranges[s.outer] :: s.ranges.drop (s.outer + 1) :=
    List.drop_eq_getElem_cons hlt
  have hsize : s.inner < s.ranges[s.outer].size := hin _ hget
  have hsize' := hsize
  simp only [iterator_range.size] at hsize'
  have hrem : s.remaining = (s.ranges[s.outer].first + s.inner) ::
      ((⟨s.ranges[s.outer].first + (s.inner + 1), s.ranges[s.outer].last⟩ :
          iterator_range).positions ++
        ((s.ranges.drop (s.outer + 1)).map iterator_range.positions).flatten) := by
    simp only [remaining, hdrop, List.map_cons, List.flatten_cons]
    rw [List.drop_append_of_le_length (by
        rw [iterator_range.length_positions]; exact Nat.le_of_lt hsize),
      ← positions_from,
      iterator_range.positions_of_lt _ (by simp only; omega)]
    simp only [iterator_range.advance_begin, List.cons_append, Nat.add_assoc]
  by_cases hnext : s.inner + 1 < s.ranges[s.outer].size
  · refine ⟨s.ranges[s.outer], { s with inner := s.inner + 1 }, hget,
      by simp [dereference, hget], ?_, ⟨hle, hwf, ?_, ?_⟩, rfl, ?_⟩
    · simp only [increment, hget, hnext, if_true]
    · intro r hr
      have hr' : s.ranges[s.outer]? = some r := hr
      rw [hget] at hr'
      cases hr'
      exact hnext
    · intro h
      simp only at h
      omega
    · rw [hrem]
      simp only [remaining, hdrop, List.map_cons, List.flatten_cons]
      rw [List.drop_append_of_le_length (by
        rw [iterator_range.length_positions]; exact hnext.le), ← positions_from]
  · have hlast : s.ranges[s.outer].first + (s.inner + 1) = s.ranges[s.outer].last := by
      simp only [iterator_range.size] at hnext
      omega
    obtain ⟨g1, g2⟩ := skip_state_spec s.ranges (s.outer + 1) hlt (by
      intro r hr
      exact hwf r (by rw [hdrop]; exact List.mem_cons_of_mem _ hr))
    refine ⟨s.ranges[s.outer], ⟨s.ranges, skip_empty s.ranges (s.outer + 1), 0⟩, hget,
      by simp [dereference, hget], ?_, g1, rfl, ?_⟩
    · simp only [increment, hget, hnext, if_false]
    · rw [hrem, g2, iterator_range.positions_of_le _ (by simp only; omega), List.nil_append]

end random_access_join_iterator

end burst.detail

namespace burst.join_iterator

open burst.detail

/-- Traversing a forward-only join cursor that satisfies the invariant returns exactly
the cells of the views from the current outer position on, in order. -/
theorem traverse_loop_single_pass :
    ∀ (fuel : Nat) (s : single_pass_join_iterator), s.invariant → s.remaining.length ≤ fuel →
      traverse_loop fuel (single_pass s) = some s.remaining := by
  intro fuel
  induction fuel with
  | zero =>
    intro s hinv hfuel
    rcases Nat.eq_or_lt_of_le hinv.1 with heq | hlt
    · have hrem : s.remaining = [] := by simp [single_pass_join_iterator.remaining, heq]
      simp [traverse_loop, equal, make_end, single_pass_join_iterator.equal,
        single_pass_join_iterator.make_end, heq, hrem]
    · obtain ⟨r, s', _, _, _, _, h5⟩ := single_pass_join_iterator.join_increment_spec s hinv hlt
      rw [h5] at hfuel
      simp at hfuel
  | succ fuel ih =>
    intro s hinv hfuel
    rcases Nat.eq_or_lt_of_le hinv.1 with heq | hlt
    · have hrem : s.remaining = [] := by simp [single_pass_join_iterator.remaining, heq]
      simp [traverse_loop, equal, make_end, single_pass_join_iterator.equal,
        single_pass_join_iterator.make_end, heq, hrem]
    · obtain ⟨r, s', _, h2, h3, h4, h5⟩ :=
        single_pass_join_iterator.join_increment_spec s hinv hlt
      have hne : (single_pass s).equal (single_pass s).make_end = false := by
        simp only [equal, make_end, single_pass_join_iterator.equal,
          single_pass_join_iterator.make_end, beq_eq_false_iff_ne, ne_eq]
        omega
      have := ih s' h4 (by rw [h5] at hfuel; simpa using hfuel)
      simp [traverse_loop, hne, dereference, increment, h2, h3, this, h5]

/-- Traversing a random-access join cursor that satisfies the invariant returns exactly
the cells not yet yielded, in order. -/
theorem traverse_loop_random_access :
    ∀ (fuel : Nat) (s : random_access_join_iterator), s.invariant →
      s.remaining.length ≤ fuel →
      traverse_loop fuel (random_access s) = some s.remaining := by
  intro fuel
  induction fuel with
  | zero =>
    intro s hinv hfuel
    rcases Nat.eq_or_lt_of_le hinv.1 with heq | hlt
    · have hin := hinv.2.2.2 heq
      have hrem : s.remaining = [] := by
        simp [random_access_join_iterator.remaining, heq]
      simp [traverse_loop, equal, make_end, random_access_join_iterator.equal,
        random_access_join_iterator.make_end, heq, hin, hrem]
    · obtain ⟨r, s', _, _, _, _, _, h5⟩ :=
        random_access_join_iterator.random_access_increment_spec s hinv hlt
      rw [h5] at hfuel
      simp at hfuel
  | succ fuel ih =>
    intro s hinv hfuel
    rcases Nat.eq_or_lt_of_le hinv.1 with heq | hlt
    · have hin := hinv.2.2.2 heq
      have hrem : s.remaining = [] := by
        simp [random_access_join_iterator.remaining, heq]
      simp [traverse_loop, equal, make_end, random_access_join_iterator.equal,
        random_access_join_iterator.make_end, heq, hin, hrem]
    · obtain ⟨r, s', _, h2, h3, h4, _, h5⟩ :=
        random_access_join_iterator.random_access_increment_spec s hinv hlt
      have hne : (random_access s).equal (random_access s).make_end = false := by
        simp only [equal, make_end, random_access_join_iterator.equal,
          random_access_join_iterator.make_end, Bool.and_eq_false_iff, beq_eq_false_iff_ne,
          ne_eq]
        left
        omega
      have := ih s' h4 (by rw [h5] at hfuel; simpa using hfuel)
      simp [traverse_loop, hne, dereference, increment, h2, h3, this, h5]

/-- C4: for every finite collection of well-formed views (any of which may be empty)
and for both forms of the join cursor that `make_join_iterator` selects (random access
when the outer iterator and the inner ranges are random access, single pass otherwise),
constructing the join cursor and traversing it up to its end cursor returns exactly the
cells of the views in order, so the elements yielded are the concatenation of the
views; empty views contribute nothing. -/
theorem join_is_concatenation {α : Type} (mem : Nat → α)
    (outer_category inner_category : traversal) (ranges : List iterator_range)
    (hwf : ∀ r ∈ ranges, r.first ≤ r.last) :
    ∃ out, traverse outer_category inner_category ranges = some out ∧
      out = (ranges.map iterator_range.positions).flatten ∧
      out.map mem = (ranges.map (iterator_range.elements mem)).flatten := by
  refine ⟨(ranges.map iterator_range.positions).flatten, ?_, rfl,
    iterator_range.map_flatten_positions mem ranges⟩
  simp only [traverse, make_join_iterator]
  split
  · obtain ⟨h1, h2⟩ := random_access_join_iterator.random_access_make_spec ranges hwf
    have := traverse_loop_random_access (ranges.map iterator_range.size).sum _ h1 (by
      rw [h2, iterator_range.length_flatten_positions])
    rw [h2] at this
    exact this
  · obtain ⟨h1, h2⟩ := single_pass_join_iterator.single_pass_make_spec ranges hwf
    have := traverse_loop_single_pass (ranges.map iterator_range.size).sum _ h1 (by
      rw [h2, iterator_range.length_flatten_positions])
    rw [h2] at this
    exact this

/-- C4 at the views `[]`, `[1,2]`, `[]`, `[3]`, with the random-access cursor and with
the single-pass cursor: the join is `[1,2,3]`. -/
theorem join_is_concatenation_witness :
    (∀ r ∈ [(⟨0, 0⟩ : iterator_range), ⟨0, 2⟩, ⟨2, 2⟩, ⟨2, 3⟩], r.first ≤ r.last) ∧
    make_join_iterator traversal.random_access traversal.random_access
        [⟨0, 0⟩, ⟨0, 2⟩, ⟨2, 2⟩, ⟨2, 3⟩] =
      random_access ⟨[⟨0, 0⟩, ⟨0, 2⟩, ⟨2, 2⟩, ⟨2, 3⟩], 1, 0⟩ ∧
    make_join_iterator traversal.forward traversal.random_access
        [⟨0, 0⟩, ⟨0, 2⟩, ⟨2, 2⟩, ⟨2, 3⟩] =
      single_pass ⟨[⟨0, 0⟩, ⟨0, 2⟩, ⟨2, 2⟩, ⟨2, 3⟩], 1⟩ ∧
    (traverse traversal.random_access traversal.random_access
        [⟨0, 0⟩, ⟨0, 2⟩, ⟨2, 2⟩, ⟨2, 3⟩]).map (fun out => out.map (memory_of [1, 2, 3])) =
      some [1, 2, 3] ∧
    (traverse traversal.forward traversal.random_access
        [⟨0, 0⟩, ⟨0, 2⟩, ⟨2, 2⟩, ⟨2, 3⟩]).map (fun out => out.map (memory_of [1, 2, 3])) =
      some [1, 2, 3] ∧
    (∃ out, traverse traversal.random_access traversal.random_access
        [⟨0, 0⟩, ⟨0, 2⟩, ⟨2, 2⟩, ⟨2, 3⟩] = some out ∧
      out = (([(⟨0, 0⟩ : iterator_range), ⟨0, 2⟩, ⟨2, 2⟩, ⟨2, 3⟩].map
        iterator_range.positions).flatten) ∧
      out.map (memory_of [1, 2, 3]) =
        (([(⟨0, 0⟩ : iterator_range), ⟨0, 2⟩, ⟨2, 2⟩, ⟨2, 3⟩].map
          (iterator_range.elements (memory_of [1, 2, 3]))).flatten)) ∧
    ∃ out, traverse traversal.forward traversal.random_access
        [⟨0, 0⟩, ⟨0, 2⟩, ⟨2, 2⟩, ⟨2, 3⟩] = some out ∧
      out = (([(⟨0, 0⟩ : iterator_range), ⟨0, 2⟩, ⟨2, 2⟩, ⟨2, 3⟩].map
        iterator_range.positions).flatten) ∧
      out.map (memory_of [1, 2, 3]) =
        (([(⟨0, 0⟩ : iterator_range), ⟨0, 2⟩, ⟨2, 2⟩, ⟨2, 3⟩].map
          (iterator_range.elements (memory_of [1, 2, 3]))).flatten) :=
  ⟨by decide, by decide, by decide, by decide, by decide,
    join_is_concatenation (memory_of [1, 2, 3]) traversal.random_access traversal.random_access
      [⟨0, 0⟩, ⟨0, 2⟩, ⟨2, 2⟩, ⟨2, 3⟩] (by decide),
    join_is_concatenation (memory_of [1, 2, 3]) traversal.forward traversal.random_access
      [⟨0, 0⟩, ⟨0, 2⟩, ⟨2, 2⟩, ⟨2, 3⟩] (by decide)⟩

end burst.join_iterator
